import Mathlib

/-!
# Verification of the roaring-bitmap and skiplist libraries

A shallow embedding of `src/roaring-bitmap/lib.rs` and `src/skiplist/lib.rs`.
Machine integers (`u16`, `u32`, `u64`) are modelled as `Nat`, with explicit
`% 2 ^ w` or saturation where the source relies on wrapping or saturating
arithmetic.  Rust's `Vec` becomes `List`; index-based loops become structural
recursions over those lists (for sorted data, `binary_search` + splice is
embedded as the ordered recursive splice, which agrees with the source on
every input satisfying the sortedness invariants the source documents).
Fallible operations return pairs with a `Bool`, mirroring the source's
return values.
-/

namespace Roaring

/-- `ArrayContainer`: sorted array of `u16` values (`values: Vec<u16>`). -/
structure ArrayContainer where
  values : List Nat
deriving DecidableEq, Repr

/-- `BitmapContainer`: 1024 `u64` words plus a cached cardinality. -/
structure BitmapContainer where
  bits : List Nat
  cardinality : Nat
deriving DecidableEq, Repr

/-- `RunContainer`: sorted `(start, length_minus_1)` pairs. -/
structure RunContainer where
  runs : List (Nat × Nat)
deriving DecidableEq, Repr

/-- The tagged container type of the source. -/
inductive Container where
  | array (a : ArrayContainer)
  | bitmap (b : BitmapContainer)
  | run (r : RunContainer)
deriving DecidableEq, Repr

/-- `ARRAY_TO_BITMAP_THRESHOLD`. -/
def ARRAY_TO_BITMAP_THRESHOLD : Nat := 4096

namespace ArrayContainer

/-- `ArrayContainer::insert`: `binary_search` + splice at the insertion
index, embedded as the ordered splice on the sorted value list.  Returns the
new list and whether the value was newly inserted. -/
def insertVals : List Nat → Nat → List Nat × Bool
  | [], v => ([v], true)
  | x :: xs, v =>
    if v < x then (v :: x :: xs, true)
    else if v = x then (x :: xs, false)
    else
      let r := insertVals xs v
      (x :: r.1, r.2)

/-- `ArrayContainer::insert`. -/
def insert (a : ArrayContainer) (v : Nat) : ArrayContainer × Bool :=
  let r := insertVals a.values v
  (⟨r.1⟩, r.2)

/-- `ArrayContainer::contains`: `binary_search` on the sorted values, which
decides exactly list membership. -/
def contains (a : ArrayContainer) (v : Nat) : Bool :=
  a.values.contains v

/-- `ArrayContainer::remove`: `binary_search` + splice-out, embedded as the
ordered recursive removal. -/
def removeVals : List Nat → Nat → List Nat × Bool
  | [], _ => ([], false)
  | x :: xs, v =>
    if v < x then (x :: xs, false)
    else if v = x then (xs, true)
    else
      let r := removeVals xs v
      (x :: r.1, r.2)

/-- `ArrayContainer::remove`. -/
def remove (a : ArrayContainer) (v : Nat) : ArrayContainer × Bool :=
  let r := removeVals a.values v
  (⟨r.1⟩, r.2)

/-- `ArrayContainer::len`. -/
def len (a : ArrayContainer) : Nat := a.values.length

/-- `ArrayContainer::is_empty`. -/
def is_empty (a : ArrayContainer) : Bool := a.values.isEmpty

/-- The two-pointer merge of `ArrayContainer::union`. -/
def unionVals : List Nat → List Nat → List Nat
  | [], ys => ys
  | xs, [] => xs
  | x :: xs, y :: ys =>
    if x < y then x :: unionVals xs (y :: ys)
    else if x = y then x :: unionVals xs ys
    else y :: unionVals (x :: xs) ys
termination_by xs ys => xs.length + ys.length

/-- `ArrayContainer::union`. -/
def union (a b : ArrayContainer) : ArrayContainer :=
  ⟨unionVals a.values b.values⟩

/-- The two-pointer merge of `ArrayContainer::intersection`. -/
def interVals : List Nat → List Nat → List Nat
  | [], _ => []
  | _, [] => []
  | x :: xs, y :: ys =>
    if x < y then interVals xs (y :: ys)
    else if x = y then x :: interVals xs ys
    else interVals (x :: xs) ys
termination_by xs ys => xs.length + ys.length

/-- `ArrayContainer::intersection` (absent when the result is empty). -/
def intersection (a b : ArrayContainer) : Option ArrayContainer :=
  let r := interVals a.values b.values
  if r.isEmpty then none else some ⟨r⟩

/-- The two-pointer merge of `ArrayContainer::difference`. -/
def diffVals : List Nat → List Nat → List Nat
  | [], _ => []
  | xs, [] => xs
  | x :: xs, y :: ys =>
    if x < y then x :: diffVals xs (y :: ys)
    else if x = y then diffVals xs ys
    else diffVals (x :: xs) ys
termination_by xs ys => xs.length + ys.length

/-- `ArrayContainer::difference` (absent when the result is empty). -/
def difference (a b : ArrayContainer) : Option ArrayContainer :=
  let r := diffVals a.values b.values
  if r.isEmpty then none else some ⟨r⟩

/-- The two-pointer merge of `ArrayContainer::symmetric_difference`. -/
def symmVals : List Nat → List Nat → List Nat
  | [], ys => ys
  | xs, [] => xs
  | x :: xs, y :: ys =>
    if x < y then x :: symmVals xs (y :: ys)
    else if x = y then symmVals xs ys
    else y :: symmVals (x :: xs) ys
termination_by xs ys => xs.length + ys.length

/-- `ArrayContainer::symmetric_difference` (absent when the result is empty). -/
def symmetric_difference (a b : ArrayContainer) : Option ArrayContainer :=
  let r := symmVals a.values b.values
  if r.isEmpty then none else some ⟨r⟩

end ArrayContainer

namespace BitmapContainer

/-- `u64::count_ones`, restricted to the 64 bits of the word. -/
def popCount64 (w : Nat) : Nat :=
  ((List.range 64).filter (fun b => w.testBit b)).length

/-- Total population count of a word list (`bits.iter().map(count_ones).sum()`). -/
def popTotal (bits : List Nat) : Nat :=
  (bits.map popCount64).sum

/-- `BitmapContainer::new`. -/
def new : BitmapContainer :=
  { bits := List.replicate 1024 0, cardinality := 0 }

/-- `BitmapContainer::position`. -/
def position (v : Nat) : Nat × Nat := (v / 64, v % 64)

/-- The word at index `i` (`bits[i]`). -/
def word (b : BitmapContainer) (i : Nat) : Nat := b.bits.getD i 0

/-- `BitmapContainer::insert_unchecked`: set the bit, always bump the
cardinality. -/
def insert_unchecked (b : BitmapContainer) (v : Nat) : BitmapContainer :=
  let i := v / 64
  { bits := b.bits.set i (word b i ||| (1 <<< (v % 64))),
    cardinality := b.cardinality + 1 }

/-- `BitmapContainer::from_array`: insert every array value unchecked. -/
def from_array (a : ArrayContainer) : BitmapContainer :=
  a.values.foldl insert_unchecked new

/-- `BitmapContainer::insert`: test the mask, set the bit and bump the
cardinality only when the bit flipped from 0. -/
def insert (b : BitmapContainer) (v : Nat) : BitmapContainer × Bool :=
  let i := v / 64
  if (word b i).testBit (v % 64) then (b, false)
  else ({ bits := b.bits.set i (word b i ||| (1 <<< (v % 64))),
          cardinality := b.cardinality + 1 }, true)

/-- `BitmapContainer::contains`: bit test. -/
def contains (b : BitmapContainer) (v : Nat) : Bool :=
  (word b (v / 64)).testBit (v % 64)

/-- The `u64` complement of a single-bit mask: `!(1 << bit)`. -/
def notMask (bit : Nat) : Nat := (2 ^ 64 - 1) ^^^ (1 <<< bit)

/-- `BitmapContainer::remove`: clear the bit and decrement the cardinality
when the bit was set. -/
def remove (b : BitmapContainer) (v : Nat) : BitmapContainer × Bool :=
  let i := v / 64
  if (word b i).testBit (v % 64) then
    ({ bits := b.bits.set i (word b i &&& notMask (v % 64)),
       cardinality := b.cardinality - 1 }, true)
  else (b, false)

/-- `BitmapContainer::len`: the cached cardinality. -/
def len (b : BitmapContainer) : Nat := b.cardinality

/-- `BitmapContainer::is_empty`. -/
def is_empty (b : BitmapContainer) : Bool := b.cardinality == 0

/-- `BitmapContainer::to_array`: scan the words in order, emitting the set
bit positions in ascending order (the source skips zero words, which emits
the same values). -/
def to_array (b : BitmapContainer) : ArrayContainer :=
  ⟨(List.range 1024).flatMap (fun i =>
    let w := word b i
    if w ≠ 0 then
      (List.range 64).filterMap (fun bit =>
        if w.testBit bit then some (i * 64 + bit) else none)
    else [])⟩

/-- `BitmapContainer::union`: per-word `|`, cardinality recomputed by
popcount. -/
def union (a b : BitmapContainer) : BitmapContainer :=
  let bits := (List.range 1024).map (fun i => word a i ||| word b i)
  { bits := bits, cardinality := popTotal bits }

/-- `BitmapContainer::intersection`: per-word `&`; absent when empty. -/
def intersection (a b : BitmapContainer) : Option BitmapContainer :=
  let bits := (List.range 1024).map (fun i => word a i &&& word b i)
  let c := popTotal bits
  if c = 0 then none else some { bits := bits, cardinality := c }

/-- `BitmapContainer::difference`: per-word `& !`; absent when empty.
`!other` on a `u64` word is its complement within `2 ^ 64`. -/
def difference (a b : BitmapContainer) : Option BitmapContainer :=
  let bits := (List.range 1024).map (fun i =>
    word a i &&& ((2 ^ 64 - 1) ^^^ (word b i % 2 ^ 64)))
  let c := popTotal bits
  if c = 0 then none else some { bits := bits, cardinality := c }

/-- `BitmapContainer::symmetric_difference`: per-word `^`; absent when
empty. -/
def symmetric_difference (a b : BitmapContainer) : Option BitmapContainer :=
  let bits := (List.range 1024).map (fun i => word a i ^^^ word b i)
  let c := popTotal bits
  if c = 0 then none else some { bits := bits, cardinality := c }

end BitmapContainer

namespace RunContainer

/-- The loop of `RunContainer::from_array`, carrying `(run_start,
run_length, prev)`.  `run_length` is a `u16` accumulated with
`saturating_add`, embedded as `min (· + 1) 65535`. -/
def fromArrayLoop : List Nat → Nat → Nat → Nat → List (Nat × Nat)
  | [], run_start, run_length, _ => [(run_start, run_length - 1)]
  | v :: rest, run_start, run_length, prev =>
    if v = prev + 1 then
      fromArrayLoop rest run_start (min (run_length + 1) 65535) v
    else
      (run_start, run_length - 1) :: fromArrayLoop rest v 1 v

/-- `RunContainer::from_array`. -/
def from_array (a : ArrayContainer) : RunContainer :=
  match a.values with
  | [] => ⟨[]⟩
  | v :: rest => ⟨fromArrayLoop rest v 1 v⟩

/-- `RunContainer::to_array`: each run `(start, length)` expands to
`start, start+1, …, start+length`. -/
def to_array (r : RunContainer) : ArrayContainer :=
  ⟨r.runs.flatMap (fun p => (List.range (p.2 + 1)).map (fun o => p.1 + o))⟩

/-- `RunContainer::insert`: `binary_search_by_key` on run starts followed by
the neighbour analysis of the source, embedded as the ordered recursion that
walks to the last run whose start is below the value (which agrees with the
index-based source on every input satisfying the run sortedness invariant). -/
def insertRuns : List (Nat × Nat) → Nat → List (Nat × Nat) × Bool
  | [], v => ([(v, 0)], true)
  | (s, l) :: rest, v =>
    if v < s then
      -- insertion index 0: no previous run; try extending the next run back
      if v + 1 = s then ((v, l + 1) :: rest, true)
      else ((v, 0) :: (s, l) :: rest, true)
    else if v = s then ((s, l) :: rest, false)
    else
      match rest with
      | [] =>
        -- (s, l) is the previous run, no next run
        if v ≤ s + l then ((s, l) :: rest, false)
        else if v = s + l + 1 then ([(s, l + 1)], true)
        else ([(s, l), (v, 0)], true)
      | (s2, l2) :: rest2 =>
        if s2 ≤ v then
          -- the previous run is further right
          let r := insertRuns rest v
          ((s, l) :: r.1, r.2)
        else
          -- previous run (s, l), next run (s2, l2)
          if v ≤ s + l then ((s, l) :: rest, false)
          else if v = s + l + 1 then
            if v + 1 = s2 then ((s, l + 1 + (l2 + 1)) :: rest2, true)
            else ((s, l + 1) :: (s2, l2) :: rest2, true)
          else if v + 1 = s2 then ((s, l) :: (v, l2 + 1) :: rest2, true)
          else ((s, l) :: (v, 0) :: (s2, l2) :: rest2, true)

/-- `RunContainer::insert`. -/
def insert (r : RunContainer) (v : Nat) : RunContainer × Bool :=
  let p := insertRuns r.runs v
  (⟨p.1⟩, p.2)

/-- The linear scan of `RunContainer::contains`. -/
def containsRuns : List (Nat × Nat) → Nat → Bool
  | [], _ => false
  | (s, l) :: rest, v =>
    if s ≤ v ∧ v ≤ s + l then true
    else if v < s then false
    else containsRuns rest v

/-- `RunContainer::contains`. -/
def contains (r : RunContainer) (v : Nat) : Bool :=
  containsRuns r.runs v

/-- The linear scan of `RunContainer::remove`: delete a 1-element run,
shrink at either end, or split a run. -/
def removeRuns : List (Nat × Nat) → Nat → List (Nat × Nat) × Bool
  | [], _ => ([], false)
  | (s, l) :: rest, v =>
    if s ≤ v ∧ v ≤ s + l then
      if l = 0 then (rest, true)
      else if v = s then ((s + 1, l - 1) :: rest, true)
      else if v = s + l then ((s, l - 1) :: rest, true)
      else ((s, v - s - 1) :: (v + 1, s + l - v - 1) :: rest, true)
    else if v < s then ((s, l) :: rest, false)
    else
      let r := removeRuns rest v
      ((s, l) :: r.1, r.2)

/-- `RunContainer::remove`. -/
def remove (r : RunContainer) (v : Nat) : RunContainer × Bool :=
  let p := removeRuns r.runs v
  (⟨p.1⟩, p.2)

/-- `RunContainer::len`: sum of `length_minus_1 + 1` over the runs. -/
def len (r : RunContainer) : Nat :=
  (r.runs.map (fun p => p.2 + 1)).sum

/-- `RunContainer::is_empty`. -/
def is_empty (r : RunContainer) : Bool := r.runs.isEmpty

/-- `RunContainer::union`: via `to_array` of both operands. -/
def union (a b : RunContainer) : RunContainer :=
  from_array ((to_array a).union (to_array b))

/-- `RunContainer::intersection`: via `to_array` of both operands. -/
def intersection (a b : RunContainer) : Option RunContainer :=
  ((to_array a).intersection (to_array b)).map from_array

/-- `RunContainer::difference`: via `to_array` of both operands. -/
def difference (a b : RunContainer) : Option RunContainer :=
  ((to_array a).difference (to_array b)).map from_array

/-- `RunContainer::symmetric_difference`: via `to_array` of both operands. -/
def symmetric_difference (a b : RunContainer) : Option RunContainer :=
  ((to_array a).symmetric_difference (to_array b)).map from_array

end RunContainer

namespace Container

/-- `Container::count_runs_array` inner loop: one new run per break in
`+1` continuity. -/
def countRunsAux : Nat → List Nat → Nat
  | _, [] => 0
  | prev, v :: rest =>
    (if v ≠ prev + 1 then 1 else 0) + countRunsAux v rest

/-- `Container::count_runs_array`. -/
def count_runs_array (a : ArrayContainer) : Nat :=
  match a.values with
  | [] => 0
  | x :: xs => 1 + countRunsAux x xs

/-- `Container::run_better_than_bitmap_array`:
`run_bytes < bitmap_bytes / 2 && num_runs < len / 4`. -/
def run_better_than_bitmap_array (a : ArrayContainer) : Bool :=
  let num_runs := count_runs_array a
  let len := a.values.length
  num_runs * 4 < 8192 / 2 && num_runs < len / 4

/-- `Container::len`. -/
def len : Container → Nat
  | .array a => a.len
  | .bitmap b => b.len
  | .run r => r.len

/-- `Container::is_empty`. -/
def is_empty : Container → Bool
  | .array a => a.is_empty
  | .bitmap b => b.is_empty
  | .run r => r.is_empty

/-- `Container::insert`: dispatch, then the single automatic conversion
checkpoint (Array at the threshold goes to Run or Bitmap). -/
def insert (c : Container) (value : Nat) : Container × Bool :=
  match c with
  | .array a =>
    let r := a.insert value
    if r.2 ∧ r.1.values.length ≥ ARRAY_TO_BITMAP_THRESHOLD then
      if run_better_than_bitmap_array r.1 then
        (.run (RunContainer.from_array r.1), r.2)
      else
        (.bitmap (BitmapContainer.from_array r.1), r.2)
    else (.array r.1, r.2)
  | .bitmap b =>
    let r := b.insert value
    (.bitmap r.1, r.2)
  | .run r =>
    let p := r.insert value
    (.run p.1, p.2)

/-- `Container::contains`. -/
def contains : Container → Nat → Bool
  | .array a, v => a.contains v
  | .bitmap b, v => b.contains v
  | .run r, v => r.contains v

/-- `Container::remove`: dispatch, then the single automatic conversion
checkpoint (a Bitmap shrinking below the threshold goes to Array). -/
def remove (c : Container) (value : Nat) : Container × Bool :=
  match c with
  | .array a =>
    let r := a.remove value
    (.array r.1, r.2)
  | .bitmap b =>
    let r := b.remove value
    if r.2 ∧ r.1.len < ARRAY_TO_BITMAP_THRESHOLD then
      (.array r.1.to_array, r.2)
    else
      (.bitmap r.1, r.2)
  | .run r =>
    let p := r.remove value
    (.run p.1, p.2)

/-- `Container::union`: the nine-pairing dispatch of the source. -/
def union : Container → Container → Container
  | .array a, .array b =>
    let result := a.union b
    if result.values.length ≥ ARRAY_TO_BITMAP_THRESHOLD then
      .bitmap (BitmapContainer.from_array result)
    else
      .array result
  | .bitmap a, .bitmap b => .bitmap (a.union b)
  | .array a, .bitmap b =>
    .bitmap (a.values.foldl (fun acc v => (acc.insert v).1) b)
  | .bitmap a, .array b =>
    .bitmap (b.values.foldl (fun acc v => (acc.insert v).1) a)
  | .run a, .run b => .run (a.union b)
  | .run r, .array a => .array ((r.to_array).union a)
  | .array a, .run r => .array ((r.to_array).union a)
  | .run r, .bitmap b =>
    .bitmap ((r.to_array).values.foldl (fun acc v => (acc.insert v).1) b)
  | .bitmap b, .run r =>
    .bitmap ((r.to_array).values.foldl (fun acc v => (acc.insert v).1) b)

/-- `Container::intersection` (absent when empty). -/
def intersection : Container → Container → Option Container
  | .array a, .array b => (a.intersection b).map .array
  | .bitmap a, .bitmap b =>
    (a.intersection b).map (fun bm =>
      if bm.len < ARRAY_TO_BITMAP_THRESHOLD then .array bm.to_array
      else .bitmap bm)
  | .array a, .bitmap b =>
    let values := a.values.filter (fun v => b.contains v)
    if values.isEmpty then none else some (.array ⟨values⟩)
  | .bitmap a, .array b =>
    let values := b.values.filter (fun v => a.contains v)
    if values.isEmpty then none else some (.array ⟨values⟩)
  | .run a, .run b => (a.intersection b).map .run
  | .run r, .array a => ((r.to_array).intersection a).map .array
  | .array a, .run r => ((r.to_array).intersection a).map .array
  | .run r, .bitmap b =>
    let values := (r.to_array).values.filter (fun v => b.contains v)
    if values.isEmpty then none else some (.array ⟨values⟩)
  | .bitmap b, .run r =>
    let values := (r.to_array).values.filter (fun v => b.contains v)
    if values.isEmpty then none else some (.array ⟨values⟩)

/-- `Container::difference` (absent when empty). -/
def difference : Container → Container → Option Container
  | .array a, .array b => (a.difference b).map .array
  | .bitmap a, .bitmap b =>
    (a.difference b).map (fun bm =>
      if bm.len < ARRAY_TO_BITMAP_THRESHOLD then .array bm.to_array
      else .bitmap bm)
  | .array a, .bitmap b =>
    let values := a.values.filter (fun v => ¬ b.contains v)
    if values.isEmpty then none else some (.array ⟨values⟩)
  | .bitmap a, .array b =>
    let result := b.values.foldl (fun acc v => (acc.remove v).1) a
    if result.is_empty then none
    else if result.len < ARRAY_TO_BITMAP_THRESHOLD then some (.array result.to_array)
    else some (.bitmap result)
  | .run a, .run b => (a.difference b).map .run
  | .run r, .array a => ((r.to_array).difference a).map .array
  | .array a, .run r => (a.difference r.to_array).map .array
  | .run r, .bitmap b =>
    let values := (r.to_array).values.filter (fun v => ¬ b.contains v)
    if values.isEmpty then none else some (.array ⟨values⟩)
  | .bitmap b, .run r =>
    let result := (r.to_array).values.foldl (fun acc v => (acc.remove v).1) b
    if result.is_empty then none
    else if result.len < ARRAY_TO_BITMAP_THRESHOLD then some (.array result.to_array)
    else some (.bitmap result)

/-- `Container::symmetric_difference` (absent when empty). -/
def symmetric_difference : Container → Container → Option Container
  | .array a, .array b => (a.symmetric_difference b).map .array
  | .bitmap a, .bitmap b =>
    (a.symmetric_difference b).map (fun bm =>
      if bm.len < ARRAY_TO_BITMAP_THRESHOLD then .array bm.to_array
      else .bitmap bm)
  | .array a, .bitmap b =>
    ((BitmapContainer.from_array a).symmetric_difference b).map (fun bm =>
      if bm.len < ARRAY_TO_BITMAP_THRESHOLD then .array bm.to_array
      else .bitmap bm)
  | .bitmap b, .array a =>
    ((BitmapContainer.from_array a).symmetric_difference b).map (fun bm =>
      if bm.len < ARRAY_TO_BITMAP_THRESHOLD then .array bm.to_array
      else .bitmap bm)
  | .run a, .run b => (a.symmetric_difference b).map .run
  | .run r, .array a => ((r.to_array).symmetric_difference a).map .array
  | .array a, .run r => ((r.to_array).symmetric_difference a).map .array
  | .run r, .bitmap b =>
    ((BitmapContainer.from_array r.to_array).symmetric_difference b).map (fun bm =>
      if bm.len < ARRAY_TO_BITMAP_THRESHOLD then .array bm.to_array
      else .bitmap bm)
  | .bitmap b, .run r =>
    ((BitmapContainer.from_array r.to_array).symmetric_difference b).map (fun bm =>
      if bm.len < ARRAY_TO_BITMAP_THRESHOLD then .array bm.to_array
      else .bitmap bm)

/-- `Container::optimize`: the data-driven conversion heuristics. -/
def optimize (c : Container) : Container :=
  match c with
  | .array arr =>
    let num_runs := count_runs_array arr
    let len := arr.values.length
    if num_runs < len / 2 ∧ len ≥ 10 then
      .run (RunContainer.from_array arr)
    else if len ≥ ARRAY_TO_BITMAP_THRESHOLD then
      .bitmap (BitmapContainer.from_array arr)
    else .array arr
  | .run rn =>
    let num_runs := rn.runs.length
    let len := rn.len
    if num_runs > len / 2 ∨ len < 10 then
      .array rn.to_array
    else .run rn
  | .bitmap bmp =>
    let len := bmp.len
    if len < ARRAY_TO_BITMAP_THRESHOLD then
      let arr := bmp.to_array
      let num_runs := count_runs_array arr
      if num_runs < len / 2 ∧ num_runs > 10 then
        .run (RunContainer.from_array arr)
      else .array arr
    else .bitmap bmp

end Container

/-- `u32::MAX`. -/
def U32MAX : Nat := 4294967295

namespace RoaringBitmap

/-- `RoaringBitmap::split`: high 16 bits and low 16 bits
(`value >> 16`, `value as u16`). -/
def split (value : Nat) : Nat × Nat := (value / 65536, value % 65536)

/-- `RoaringBitmap::combine`: `(key << 16) | low`; since `low < 65536` the
bitwise or is the sum. -/
def combine (key low : Nat) : Nat := key * 65536 + low

/-- The `(key, container)` list after `RoaringBitmap::insert`'s
`binary_search` + splice, embedded as the ordered recursion on the sorted
key list. -/
def insertCont : List (Nat × Container) → Nat → Nat → List (Nat × Container) × Bool
  | [], key, low =>
    ([(key, ((Container.array ⟨[]⟩).insert low).1)], true)
  | (k, c) :: rest, key, low =>
    if key < k then
      ((key, ((Container.array ⟨[]⟩).insert low).1) :: (k, c) :: rest, true)
    else if key = k then
      let r := c.insert low
      ((k, r.1) :: rest, r.2)
    else
      let r := insertCont rest key low
      ((k, c) :: r.1, r.2)

/-- The `(key, container)` list after `RoaringBitmap::remove`, dropping the
container when it becomes empty. -/
def removeCont : List (Nat × Container) → Nat → Nat → List (Nat × Container) × Bool
  | [], _, _ => ([], false)
  | (k, c) :: rest, key, low =>
    if key < k then ((k, c) :: rest, false)
    else if key = k then
      let r := c.remove low
      if r.2 ∧ r.1.is_empty then (rest, true)
      else ((k, r.1) :: rest, r.2)
    else
      let r := removeCont rest key low
      ((k, c) :: r.1, r.2)

/-- Container lookup by key (`binary_search_by_key`), embedded as the ordered
recursion on the sorted key list. -/
def lookupC : List (Nat × Container) → Nat → Option Container
  | [], _ => none
  | (k, c) :: rest, key =>
    if key < k then none
    else if key = k then some c
    else lookupC rest key

end RoaringBitmap

/-- `RoaringBitmap`: the sorted `(key, container)` sequence. -/
structure RoaringBitmap where
  containers : List (Nat × Roaring.Container)
deriving DecidableEq, Repr

namespace RoaringBitmap

/-- `RoaringBitmap::new`. -/
def new : RoaringBitmap := ⟨[]⟩

/-- `RoaringBitmap::insert`. -/
def insert (bm : RoaringBitmap) (value : Nat) : RoaringBitmap × Bool :=
  let p := split value
  let r := insertCont bm.containers p.1 p.2
  (⟨r.1⟩, r.2)

/-- `RoaringBitmap::contains`. -/
def contains (bm : RoaringBitmap) (value : Nat) : Bool :=
  let p := split value
  match lookupC bm.containers p.1 with
  | some c => c.contains p.2
  | none => false

/-- `RoaringBitmap::remove`. -/
def remove (bm : RoaringBitmap) (value : Nat) : RoaringBitmap × Bool :=
  let p := split value
  let r := removeCont bm.containers p.1 p.2
  (⟨r.1⟩, r.2)

/-- `RoaringBitmap::len`. -/
def len (bm : RoaringBitmap) : Nat :=
  (bm.containers.map (fun pc => pc.2.len)).sum

/-- `RoaringBitmap::is_empty`. -/
def is_empty (bm : RoaringBitmap) : Bool := bm.containers.isEmpty

/-- `RoaringBitmap::clear`. -/
def clear (_ : RoaringBitmap) : RoaringBitmap := ⟨[]⟩

/-- The container merge loop of `RoaringBitmap::union` (also the body of
`union_with`, which is the identical merge assigned in place). -/
def unionCont : List (Nat × Container) → List (Nat × Container) → List (Nat × Container)
  | [], ys => ys
  | xs, [] => xs
  | (k1, c1) :: xs, (k2, c2) :: ys =>
    if k1 < k2 then (k1, c1) :: unionCont xs ((k2, c2) :: ys)
    else if k1 = k2 then (k1, c1.union c2) :: unionCont xs ys
    else (k2, c2) :: unionCont ((k1, c1) :: xs) ys
termination_by xs ys => xs.length + ys.length

/-- `RoaringBitmap::union`. -/
def union (a b : RoaringBitmap) : RoaringBitmap :=
  ⟨unionCont a.containers b.containers⟩

/-- The container merge loop of `RoaringBitmap::intersection` (also the body
of `intersect_with`). -/
def interCont : List (Nat × Container) → List (Nat × Container) → List (Nat × Container)
  | [], _ => []
  | _, [] => []
  | (k1, c1) :: xs, (k2, c2) :: ys =>
    if k1 < k2 then interCont xs ((k2, c2) :: ys)
    else if k1 = k2 then
      match c1.intersection c2 with
      | some c => (k1, c) :: interCont xs ys
      | none => interCont xs ys
    else interCont ((k1, c1) :: xs) ys
termination_by xs ys => xs.length + ys.length

/-- `RoaringBitmap::intersection`. -/
def intersection (a b : RoaringBitmap) : RoaringBitmap :=
  ⟨interCont a.containers b.containers⟩

/-- The container merge loop of `RoaringBitmap::difference` (also the body
of `difference_with`). -/
def diffCont : List (Nat × Container) → List (Nat × Container) → List (Nat × Container)
  | [], _ => []
  | xs, [] => xs
  | (k1, c1) :: xs, (k2, c2) :: ys =>
    if k1 < k2 then (k1, c1) :: diffCont xs ((k2, c2) :: ys)
    else if k1 = k2 then
      match c1.difference c2 with
      | some c => (k1, c) :: diffCont xs ys
      | none => diffCont xs ys
    else diffCont ((k1, c1) :: xs) ys
termination_by xs ys => xs.length + ys.length

/-- `RoaringBitmap::difference`. -/
def difference (a b : RoaringBitmap) : RoaringBitmap :=
  ⟨diffCont a.containers b.containers⟩

/-- The container merge loop of `RoaringBitmap::symmetric_difference` (also
the body of `symmetric_difference_with`). -/
def symmCont : List (Nat × Container) → List (Nat × Container) → List (Nat × Container)
  | [], ys => ys
  | xs, [] => xs
  | (k1, c1) :: xs, (k2, c2) :: ys =>
    if k1 < k2 then (k1, c1) :: symmCont xs ((k2, c2) :: ys)
    else if k1 = k2 then
      match c1.symmetric_difference c2 with
      | some c => (k1, c) :: symmCont xs ys
      | none => symmCont xs ys
    else (k2, c2) :: symmCont ((k1, c1) :: xs) ys
termination_by xs ys => xs.length + ys.length

/-- `RoaringBitmap::symmetric_difference`. -/
def symmetric_difference (a b : RoaringBitmap) : RoaringBitmap :=
  ⟨symmCont a.containers b.containers⟩

/-- `RoaringBitmap::union_with`: the in-place variant runs the same merge
and assigns the result. -/
def union_with (a b : RoaringBitmap) : RoaringBitmap := a.union b

/-- `RoaringBitmap::intersect_with`. -/
def intersect_with (a b : RoaringBitmap) : RoaringBitmap := a.intersection b

/-- `RoaringBitmap::difference_with`. -/
def difference_with (a b : RoaringBitmap) : RoaringBitmap := a.difference b

/-- `RoaringBitmap::symmetric_difference_with`. -/
def symmetric_difference_with (a b : RoaringBitmap) : RoaringBitmap :=
  a.symmetric_difference b

/-- Range bounds (`std::ops::Bound<u32>`). -/
inductive RBound where
  | included (n : Nat)
  | excluded (n : Nat)
  | unbounded
deriving DecidableEq, Repr

/-- A `RangeBounds<u32>` argument. -/
structure RangeArg where
  lo : RBound
  hi : RBound
deriving DecidableEq, Repr

/-- Normalised range start: `Excluded(s)` uses `s.saturating_add(1)` on `u32`. -/
def rangeStart : RBound → Nat
  | .included s => s
  | .excluded s => min (s + 1) U32MAX
  | .unbounded => 0

/-- Normalised range end: `Excluded(e)` uses `e.saturating_sub(1)`, which is
`Nat` subtraction. -/
def rangeEnd : RBound → Nat
  | .included e => e
  | .excluded e => e - 1
  | .unbounded => U32MAX

/-- `for low in low_start..=low_end { container.insert(low) }`. -/
def insertLows (c : Container) (lo hi : Nat) : Container :=
  ((List.range (hi + 1 - lo)).map (fun i => lo + i)).foldl
    (fun acc low => (acc.insert low).1) c

/-- The find-or-create step of one `extend_consecutive` loop iteration:
existing containers get per-value inserts, a missing container is created as
a Run holding the single run `(low_start, num_values - 1)` (the source's two
branches both build this Run). -/
def extendIntoContainers : List (Nat × Container) → Nat → Nat → Nat → List (Nat × Container)
  | [], key, lo, hi => [(key, Container.run ⟨[(lo, hi - lo)]⟩)]
  | (k, c) :: rest, key, lo, hi =>
    if key < k then
      (key, Container.run ⟨[(lo, hi - lo)]⟩) :: (k, c) :: rest
    else if key = k then
      (k, insertLows c lo hi) :: rest
    else
      (k, c) :: extendIntoContainers rest key lo hi

/-- The `while current <= end` loop of `extend_consecutive`, one iteration
per 65,536-value key block.  The loop visits at most 65,536 key blocks, so a
fuel of 65,536 suffices; the advance is
`((key + 1) << 16).max(current + 1)` on `u32`. -/
def extendLoop (endv : Nat) : Nat → Nat → List (Nat × Container) → List (Nat × Container)
  | 0, _, cs => cs
  | fuel + 1, current, cs =>
    let key := current / 65536
    let low_start := current % 65536
    let end_key := endv / 65536
    let low_end := endv % 65536
    let lec := if key = end_key then low_end else 65535
    let cs' := extendIntoContainers cs key low_start lec
    if key = end_key then cs'
    else extendLoop endv fuel (max (((key + 1) * 65536) % 2 ^ 32) (current + 1)) cs'

/-- `RoaringBitmap::extend_consecutive`. -/
def extend_consecutive (bm : RoaringBitmap) (r : RangeArg) : RoaringBitmap :=
  let start := rangeStart r.lo
  let endv := rangeEnd r.hi
  if start > endv then bm
  else ⟨extendLoop endv 65536 start bm.containers⟩

/-- `for low in low_start..=low_end { container.remove(low) }`. -/
def removeLows (c : Container) (lo hi : Nat) : Container :=
  ((List.range (hi + 1 - lo)).map (fun i => lo + i)).foldl
    (fun acc low => (acc.remove low).1) c

/-- One `remove_range` loop iteration on the container list: remove the
low range from the container with the given key (if present) and drop it if
it becomes empty. -/
def removeFromContainers : List (Nat × Container) → Nat → Nat → Nat → List (Nat × Container)
  | [], _, _, _ => []
  | (k, c) :: rest, key, lo, hi =>
    if key < k then (k, c) :: rest
    else if key = k then
      let c' := removeLows c lo hi
      if c'.is_empty then rest else (k, c') :: rest
    else
      (k, c) :: removeFromContainers rest key lo hi

/-- The `while current <= end` loop of `remove_range`, one iteration per
key block (fuel 65,536 as for `extendLoop`). -/
def removeLoop (endv : Nat) : Nat → Nat → List (Nat × Container) → List (Nat × Container)
  | 0, _, cs => cs
  | fuel + 1, current, cs =>
    let key := current / 65536
    let low_start := current % 65536
    let end_key := endv / 65536
    let low_end := endv % 65536
    let lec := if key = end_key then low_end else 65535
    let cs' := removeFromContainers cs key low_start lec
    if key = end_key then cs'
    else removeLoop endv fuel (max (((key + 1) * 65536) % 2 ^ 32) (current + 1)) cs'

/-- `RoaringBitmap::remove_range`. -/
def remove_range (bm : RoaringBitmap) (r : RangeArg) : RoaringBitmap :=
  let start := rangeStart r.lo
  let endv := rangeEnd r.hi
  if start > endv then bm
  else ⟨removeLoop endv 65536 start bm.containers⟩

/-- `RoaringBitmap::extend_sparse`: insert each value. -/
def extend_sparse (bm : RoaringBitmap) (values : List Nat) : RoaringBitmap :=
  values.foldl (fun acc v => (acc.insert v).1) bm

/-- `RoaringBitmap::extend_dense`: also a plain insert loop. -/
def extend_dense (bm : RoaringBitmap) (values : List Nat) : RoaringBitmap :=
  values.foldl (fun acc v => (acc.insert v).1) bm

/-- `RoaringBitmap::remove_sparse`: remove each value. -/
def remove_sparse (bm : RoaringBitmap) (values : List Nat) : RoaringBitmap :=
  values.foldl (fun acc v => (acc.remove v).1) bm

/-- `RoaringBitmap::optimize`: per-container optimize. -/
def optimize (bm : RoaringBitmap) : RoaringBitmap :=
  ⟨bm.containers.map (fun pc => (pc.1, pc.2.optimize))⟩

/-- `RoaringBitmap::container_type` (test helper). -/
def container_type (bm : RoaringBitmap) (key : Nat) : Option String :=
  match lookupC bm.containers key with
  | some (.array _) => some "Array"
  | some (.bitmap _) => some "Bitmap"
  | some (.run _) => some "Run"
  | none => none

end RoaringBitmap

/-- The value sequence an Array container yields to `Iter::next`. -/
def ArrayContainer.toList (a : ArrayContainer) : List Nat := a.values

/-- The value sequence a Bitmap container yields to `Iter::next`: words in
ascending order, set bits of each word in ascending order. -/
def BitmapContainer.toList (b : BitmapContainer) : List Nat :=
  (List.range 1024).flatMap (fun i =>
    (List.range 64).filterMap (fun bit =>
      if (BitmapContainer.word b i).testBit bit then some (i * 64 + bit) else none))

/-- The value sequence a Run container yields to `Iter::next`:
`start, start+1, …, start+length` per run, runs in order. -/
def RunContainer.toList (r : RunContainer) : List Nat :=
  r.runs.flatMap (fun p => (List.range (p.2 + 1)).map (fun o => p.1 + o))

/-- Per-container iteration order of `Iter::next`. -/
def Container.toList : Container → List Nat
  | .array a => a.toList
  | .bitmap b => b.toList
  | .run r => r.toList

/-- The full value sequence produced by one pass of `RoaringBitmap::iter`:
containers in order, each low value combined with its key.  This is the
denotation of the `Iter::next` state machine, which walks the containers in
order and within each container emits exactly `Container.toList`. -/
def RoaringBitmap.toList (bm : RoaringBitmap) : List Nat :=
  bm.containers.flatMap (fun pc => pc.2.toList.map (RoaringBitmap.combine pc.1))

/-! ### Structural invariants of the bitmap data model (spec §3.1) -/

/-- Array container invariant: sorted, unique, 16-bit values. -/
def ArrayContainer.Inv (a : ArrayContainer) : Prop :=
  List.Chain' (· < ·) a.values ∧ ∀ v ∈ a.values, v < 65536

instance (a : ArrayContainer) : Decidable a.Inv := by
  unfold ArrayContainer.Inv; infer_instance

/-- Bitmap container invariant: 1024 words and an accurate cached
cardinality. -/
def BitmapContainer.Inv (b : BitmapContainer) : Prop :=
  b.bits.length = 1024 ∧ b.cardinality = BitmapContainer.popTotal b.bits

instance (b : BitmapContainer) : Decidable b.Inv := by
  unfold BitmapContainer.Inv; infer_instance

/-- The run ordering relation: no overlapping or adjacent runs. -/
def runRel (p q : Nat × Nat) : Prop := p.1 + p.2 + 1 < q.1

instance : DecidableRel runRel := fun p q =>
  inferInstanceAs (Decidable (p.1 + p.2 + 1 < q.1))

/-- Run container invariant: sorted, non-overlapping, non-adjacent runs of
16-bit values. -/
def RunContainer.Inv (r : RunContainer) : Prop :=
  List.Chain' runRel r.runs ∧ ∀ p ∈ r.runs, p.1 + p.2 < 65536

instance (r : RunContainer) : Decidable r.Inv := by
  unfold RunContainer.Inv; infer_instance

/-- Container invariant, by tag. -/
def Container.Inv : Container → Prop
  | .array a => a.Inv
  | .bitmap b => b.Inv
  | .run r => r.Inv

instance (c : Container) : Decidable c.Inv := by
  cases c <;> dsimp [Container.Inv] <;> infer_instance

/-- Top-level bitmap invariant: strictly increasing keys, every container
satisfying its own invariant. -/
def RoaringBitmap.Inv (bm : RoaringBitmap) : Prop :=
  List.Chain' (· < ·) (bm.containers.map Prod.fst) ∧
    ∀ pc ∈ bm.containers, Container.Inv pc.2

/-- States reachable from the empty bitmap by sequences of the public
operations (spec §6.1).  The in-place set-algebra variants run the identical
merges, so they produce the same states as the allocating ones. -/
inductive RoaringBitmap.Reachable : RoaringBitmap → Prop where
  | new : Reachable RoaringBitmap.new
  | insert (v : Nat) {bm} : Reachable bm → Reachable (bm.insert v).1
  | remove (v : Nat) {bm} : Reachable bm → Reachable (bm.remove v).1
  | extend_consecutive (r : RangeArg) {bm} :
      Reachable bm → Reachable (bm.extend_consecutive r)
  | remove_range (r : RangeArg) {bm} :
      Reachable bm → Reachable (bm.remove_range r)
  | extend_sparse (l : List Nat) {bm} :
      Reachable bm → Reachable (bm.extend_sparse l)
  | extend_dense (l : List Nat) {bm} :
      Reachable bm → Reachable (bm.extend_dense l)
  | remove_sparse (l : List Nat) {bm} :
      Reachable bm → Reachable (bm.remove_sparse l)
  | union {a b} : Reachable a → Reachable b → Reachable (a.union b)
  | intersection {a b} : Reachable a → Reachable b → Reachable (a.intersection b)
  | difference {a b} : Reachable a → Reachable b → Reachable (a.difference b)
  | symmetric_difference {a b} :
      Reachable a → Reachable b → Reachable (a.symmetric_difference b)
  | union_with {a b} : Reachable a → Reachable b → Reachable (a.union_with b)
  | intersect_with {a b} : Reachable a → Reachable b → Reachable (a.intersect_with b)
  | difference_with {a b} : Reachable a → Reachable b → Reachable (a.difference_with b)
  | symmetric_difference_with {a b} :
      Reachable a → Reachable b → Reachable (a.symmetric_difference_with b)
  | optimize {bm} : Reachable bm → Reachable bm.optimize
  | clear {bm} : Reachable bm → Reachable bm.clear

end Roaring

namespace Skiplist

/-- `MAX_LEVEL`. -/
def MAX_LEVEL : Nat := 16

/-- A stored element together with its embedded `SkipListNode`: the key
(exposed through `SkipListEntry::key`) and the intrusive forward list
(`forward[i]` holds the id of the next node at level `i`, or is absent at
the tail).  Raw pointers of the source become ids into the store below. -/
structure SLEntry where
  key : Nat
  forward : List (Option Nat)
deriving DecidableEq, Repr

/-- The skip list: head sentinel forward pointers, the heap of boxed
entries (index = id; ids of removed entries simply become unreferenced),
element count, current level, level cap and the xorshift64 register. -/
structure SkipList where
  head : List (Option Nat)
  store : List SLEntry
  len : Nat
  level : Nat
  max_level : Nat
  rng_state : Nat
deriving DecidableEq, Repr

/-- `SkipList::with_max_level`.  The seed is time-derived in the source and
is taken as an argument here; a zero seed is replaced by 1. -/
def with_max_level (max_level seed : Nat) : SkipList :=
  { head := List.replicate (max_level + 1) none,
    store := [],
    len := 0,
    level := 0,
    max_level := max_level,
    rng_state := if seed % 2 ^ 64 = 0 then 1 else seed % 2 ^ 64 }

/-- `SkipList::new`. -/
def newList (seed : Nat) : SkipList := with_max_level MAX_LEVEL seed

/-- A traversal position: the head sentinel (`none`) or a node id. -/
def Pos : Type := Option Nat
deriving instance DecidableEq for Pos

/-- The forward pointer of a position at a level (`forward[level]`,
absent past the node's height). -/
def forwardOf (sl : SkipList) (p : Pos) (lvl : Nat) : Option Nat :=
  match p with
  | none => (sl.head.getD lvl none)
  | some id => ((sl.store.getD id ⟨0, []⟩).forward.getD lvl none)

/-- The key of a stored node id. -/
def keyAt (sl : SkipList) (id : Nat) : Nat :=
  (sl.store.getD id ⟨0, []⟩).key

/-- What the three descents do on an equal key: `insert` returns the entry
in the error arm, `remove` breaks, `successor` keeps moving. -/
inductive EqA where
  | report
  | brk
  | move
deriving DecidableEq

/-- The inner walk loop of the search descent at one level: move forward
while the next key is below the search key (below-or-equal for
`successor`); the returned flag records an equal-key hit for `EqA.report`.
The fuel bounds pointer chasing; on well-formed lists a fuel of
`store.length + 1` is never exhausted. -/
def levelWalk (sl : SkipList) (K : Nat) (eqa : EqA) (lvl : Nat) :
    Nat → Pos → Pos × Bool
  | 0, p => (p, false)
  | fuel + 1, p =>
    match forwardOf sl p lvl with
    | none => (p, false)
    | some nid =>
      if keyAt sl nid < K then levelWalk sl K eqa lvl fuel (some nid)
      else if keyAt sl nid = K then
        match eqa with
        | .report => (p, true)
        | .brk => (p, false)
        | .move => levelWalk sl K eqa lvl fuel (some nid)
      else (p, false)

/-- The level descent of `SkipList::successor` (moves on `<=`). -/
def descendMove (sl : SkipList) (K : Nat) : Nat → Pos → Pos
  | 0, p => (levelWalk sl K .move 0 (sl.store.length + 1) p).1
  | lvl + 1, p =>
    descendMove sl K lvl (levelWalk sl K .move (lvl + 1) (sl.store.length + 1) p).1

/-- `SkipList::successor`: descend walking `<= K`, then take the level-0
forward pointer, which is the smallest element strictly greater than `K`.
Returns the id of the returned entry reference. -/
def successor (sl : SkipList) (K : Nat) : Option Nat :=
  forwardOf sl (descendMove sl K sl.level none) 0

/-- The level descent of `SkipList::insert`, collecting the update vector.
`none` means an equal key was seen during the walk and the entry is
returned in the error arm; otherwise the list holds `update[0..=level]`
(index = level). -/
def descendIns (sl : SkipList) (K : Nat) : Nat → Pos → Option (List Pos)
  | 0, p =>
    match levelWalk sl K .report 0 (sl.store.length + 1) p with
    | (_, true) => none
    | (p', false) => some [p']
  | lvl + 1, p =>
    match levelWalk sl K .report (lvl + 1) (sl.store.length + 1) p with
    | (_, true) => none
    | (p', false) => (descendIns sl K lvl p').map (fun us => us ++ [p'])

/-- One xorshift64 step (`x ^= x << 13; x ^= x >> 7; x ^= x << 17` on
`u64`). -/
def xorshift64 (x : Nat) : Nat :=
  let x1 := (x ^^^ (x <<< 13)) % 2 ^ 64
  let x2 := x1 ^^^ (x1 >>> 7)
  (x2 ^^^ (x2 <<< 17)) % 2 ^ 64

/-- The coin-flip loop of `random_level`: count low zero bits, capped at
`max_level` (the fuel). -/
def levelFromBits : Nat → Nat → Nat
  | 0, _ => 0
  | fuel + 1, rng => if rng % 2 = 0 then 1 + levelFromBits fuel (rng / 2) else 0

/-- Rewrite one forward pointer of a position. -/
def setFwd (sl : SkipList) (p : Pos) (lvl : Nat) (v : Option Nat) : SkipList :=
  match p with
  | none => { sl with head := sl.head.set lvl v }
  | some id =>
    let node := sl.store.getD id ⟨0, []⟩
    { sl with store := sl.store.set id { node with forward := node.forward.set lvl v } }

/-- `SkipList::insert`.  Returns the new state and `true` on `Ok(())`;
`(sl, false)` embeds `Err(entry)`: the search saw an equal key and returned
the boxed entry with no state mutated (the update vector and `current` are
locals).  On success: draw the level, pad the update vector with the head
above the old level, size the new node's forward array, splice at each
level, bump the count.  The new node's forward values are read from the
pre-splice state; this matches the source, which reads each
`update[level].forward[level]` before overwriting that same slot. -/
def insert (sl : SkipList) (k : Nat) : SkipList × Bool :=
  match descendIns sl k sl.level none with
  | none => (sl, false)
  | some us =>
    let rng' := xorshift64 sl.rng_state
    let new_level := levelFromBits sl.max_level rng'
    let update : Nat → Pos := fun lvl => us.getD lvl none
    let newId := sl.store.length
    let fwd := (List.range (new_level + 1)).map (fun lvl => forwardOf sl (update lvl) lvl)
    let sl1 : SkipList :=
      { sl with
        store := sl.store ++ [⟨k, fwd⟩],
        rng_state := rng',
        level := max sl.level new_level,
        len := sl.len + 1 }
    let sl2 := (List.range (new_level + 1)).foldl
      (fun acc lvl => setFwd acc (update lvl) lvl (some newId)) sl1
    (sl2, true)

/-- `SkipList::len`. -/
def lenOf (sl : SkipList) : Nat := sl.len

/-- `SkipList::is_empty`. -/
def is_emptyList (sl : SkipList) : Bool := sl.len == 0

/-! ### Well-formedness of a skip list state

`L` is the level-0 order of the stored node ids.  The checks are exactly
the linkage contract of spec §3.2: level-0 links traverse `L` in order,
keys strictly increase along `L`, every id is a live store index, and every
forward edge from the head or a live node lands on a later node of `L`. -/

/-- The level-0 chain from a position through the ids of `L`. -/
def chain0B (sl : SkipList) : Pos → List Nat → Bool
  | p, [] => forwardOf sl p 0 == none
  | p, x :: xs => forwardOf sl p 0 == some x && chain0B sl (some x) xs

/-- Strictly increasing key list. -/
def keysSortedB (sl : SkipList) (L : List Nat) : Bool :=
  ((L.map (keyAt sl)).zip ((L.map (keyAt sl)).tail)).all (fun p => p.1 < p.2)

/-- Every forward edge of a node lands on a node of `L` with a strictly
greater key. -/
def nodeEdgesB (sl : SkipList) (L : List Nat) (id : Nat) : Bool :=
  ((sl.store.getD id ⟨0, []⟩).forward).all (fun e =>
    match e with
    | none => true
    | some q => L.contains q && decide (keyAt sl id < keyAt sl q))

/-- Every head edge lands on a node of `L`. -/
def headEdgesB (sl : SkipList) (L : List Nat) : Bool :=
  sl.head.all (fun e =>
    match e with
    | none => true
    | some q => L.contains q)

/-- Well-formedness of a state with level-0 order `L`. -/
def wfB (sl : SkipList) (L : List Nat) : Bool :=
  chain0B sl none L && keysSortedB sl L &&
    L.all (fun id => id < sl.store.length) && decide L.Nodup &&
    headEdgesB sl L && L.all (nodeEdgesB sl L)

/-- Descent invariant for the `< K` walks: the current position is the head
or a live node with key below the search key. -/
def InvLt (sl : SkipList) (L : List Nat) (K : Nat) (p : Pos) : Prop :=
  p = none ∨ ∃ id, p = some id ∧ id ∈ L ∧ keyAt sl id < K

/-- Descent invariant for the `<= K` walk of `successor`. -/
def InvLe (sl : SkipList) (L : List Nat) (K : Nat) (p : Pos) : Prop :=
  p = none ∨ ∃ id, p = some id ∧ id ∈ L ∧ keyAt sl id ≤ K

end Skiplist

/-! ## Concrete scenario states -/

namespace Roaring

/-- The spec §8 scenario 2 state: insert `0,1,2,4,5`, `optimize()`, insert
`3`. -/
def scenarioRunMerge : RoaringBitmap :=
  ((([0, 1, 2, 4, 5].foldl (fun acc v => (acc.insert v).1)
    RoaringBitmap.new).optimize).insert 3).1

/-- The spec §8 scenario 3 state: `extend_consecutive(0..=65535)` on the
empty bitmap. -/
def scenarioFullBlock : RoaringBitmap :=
  RoaringBitmap.new.extend_consecutive ⟨.included 0, .included 65535⟩

/-- The first `n` even numbers, in order. -/
def evens (n : Nat) : List Nat := (List.range n).map (fun i => 2 * i)

/-- The spec §8 scenario 4 state after inserting the 4,095 even values
below 8,190. -/
def scenarioEvens : RoaringBitmap :=
  (evens 4095).foldl (fun acc v => (acc.insert v).1) RoaringBitmap.new

/-- The spec §8 scenario 4 state after additionally inserting `8190`, the
4,096th value. -/
def scenarioThreshold : RoaringBitmap := (scenarioEvens.insert 8190).1

end Roaring

open Roaring

/-! ## C7: run merge across a gap -/

/-- C7: starting empty, inserting `0,1,2,4,5`, calling `optimize()` and
inserting `3` yields exactly `{0,1,2,3,4,5}` with `len() = 6`; and the
run-merge branch of `RunContainer::insert` absorbs the full actual length
of the touching next run: inserting `3` into the runs `[(0,2),(4,1)]`
produces the single run `(0,5)`. -/
theorem C7_run_merge :
    scenarioRunMerge.toList = [0, 1, 2, 3, 4, 5] ∧
    scenarioRunMerge.len = 6 ∧
    (∀ v : Nat, v < 6 → scenarioRunMerge.contains v = true) ∧
    RunContainer.insertRuns [(0, 2), (4, 1)] 3 = ([(0, 5)], true) := by
  refine ⟨by decide, by decide, ?_, by decide⟩
  intro v hv
  interval_cases v <;> decide

/-! ## C3: empty-range bulk operations -/

/-- C3 counterexample: the half-open range `0..0` denotes the empty set of
`u32` values, yet `extend_consecutive(0..0)` on the empty bitmap inserts
the value `0`, and `remove_range(0..0)` removes the value `0` — both
change the bitmap's set of values, refuting the claim at this input. -/
theorem C3_counterexample :
    (RoaringBitmap.new.extend_consecutive ⟨.included 0, .excluded 0⟩).contains 0 = true ∧
    ((⟨[(0, Container.array ⟨[0]⟩)]⟩ : RoaringBitmap).remove_range
      ⟨.included 0, .excluded 0⟩).contains 0 = false := by
  constructor <;> decide

/-- C3 amended: for every bitmap and every range whose saturated
normalisation yields `start > end` — which covers every empty range except
those with an exclusive bound at an address-space extreme, such as `0..0`
(treated as the singleton `{0}`) — `extend_consecutive` and `remove_range`
return the bitmap unchanged. -/
theorem C3_amended_noop (bm : RoaringBitmap) (r : RoaringBitmap.RangeArg)
    (h : RoaringBitmap.rangeEnd r.hi < RoaringBitmap.rangeStart r.lo) :
    bm.extend_consecutive r = bm ∧ bm.remove_range r = bm := by
  constructor
  · unfold RoaringBitmap.extend_consecutive
    simp only [if_pos h]
  · unfold RoaringBitmap.remove_range
    simp only [if_pos h]

/-- Witness for `C3_amended_noop` at the concrete empty range `100..100`
(normalised bounds `100 > 99`) on a nonempty bitmap. -/
theorem C3_amended_noop_witness :
    RoaringBitmap.rangeEnd (RoaringBitmap.RBound.excluded 100) <
        RoaringBitmap.rangeStart (RoaringBitmap.RBound.included 100) ∧
      ((⟨[(0, Container.array ⟨[7]⟩)]⟩ : RoaringBitmap).extend_consecutive
          ⟨.included 100, .excluded 100⟩ = ⟨[(0, Container.array ⟨[7]⟩)]⟩ ∧
        (⟨[(0, Container.array ⟨[7]⟩)]⟩ : RoaringBitmap).remove_range
          ⟨.included 100, .excluded 100⟩ = ⟨[(0, Container.array ⟨[7]⟩)]⟩) :=
  ⟨by decide, C3_amended_noop ⟨[(0, Container.array ⟨[7]⟩)]⟩
    ⟨.included 100, .excluded 100⟩ (by decide)⟩

/-! ## C5: full container via bulk insert -/

/-- C5: `extend_consecutive(0..=65535)` on the empty bitmap yields
`len() = 65536`, a single container at key `0` that is a Run container
holding the one run `(0, 65535)` (the full 65,536-value span in the
length-minus-one encoding), and membership holds for every value in
`0..=65535`. -/
theorem C5_full_block :
    scenarioFullBlock.len = 65536 ∧
    scenarioFullBlock.containers = [(0, Container.run ⟨[(0, 65535)]⟩)] ∧
    (∀ v : Nat, v < 65536 → scenarioFullBlock.contains v = true) := by
  have hc : scenarioFullBlock = ⟨[(0, Container.run ⟨[(0, 65535)]⟩)]⟩ := by decide
  refine ⟨by rw [hc]; decide, by rw [hc], ?_⟩
  intro v hv
  rw [hc]
  have h1 : v / 65536 = 0 := Nat.div_eq_of_lt hv
  have h2 : v % 65536 = v := Nat.mod_eq_of_lt hv
  simp [RoaringBitmap.contains, RoaringBitmap.split, RoaringBitmap.lookupC, h1, h2,
    Container.contains, RunContainer.contains, RunContainer.containsRuns]
  omega

/-- Witness for `C5_full_block` (instantiating the membership hypothesis at
`v = 12345`). -/
theorem C5_full_block_witness :
    scenarioFullBlock.contains 12345 = true ∧ (12345 : Nat) < 65536 :=
  ⟨(C5_full_block.2.2) 12345 (by decide), by decide⟩

/-! ## C1 and C4: the full-block `RunContainer::from_array` defect

`RunContainer::from_array` accumulates the run length in a `u16` with
`saturating_add`, so the 65,536-value consecutive array saturates at 65,535
and the final `run_length - 1` push encodes the full block as `(0, 65534)`
instead of `(0, 65535)` — the value 65,535 is silently dropped.  Every
Run–Run set operation funnels through `from_array`, so set operations whose
per-key result is the full block lose that value. -/

/-- Merging a sorted-unique list with itself returns it unchanged. -/
theorem unionVals_self (l : List Nat) : ArrayContainer.unionVals l l = l := by
  induction l with
  | nil => simp [ArrayContainer.unionVals]
  | cons x xs ih => simp [ArrayContainer.unionVals, ih]

/-- Intersecting a sorted-unique list with itself returns it unchanged. -/
theorem interVals_self (l : List Nat) : ArrayContainer.interVals l l = l := by
  induction l with
  | nil => simp [ArrayContainer.interVals]
  | cons x xs ih => simp [ArrayContainer.interVals, ih]

/-- The `from_array` loop on a fully consecutive tail: the length
accumulator saturates at 65,535. -/
theorem fromArrayLoop_consec (m : Nat) :
    ∀ start len prev : Nat, 1 ≤ len → len ≤ 65535 →
      RunContainer.fromArrayLoop ((List.range m).map (fun i => prev + 1 + i)) start len prev
        = [(start, min (len + m) 65535 - 1)] := by
  induction m with
  | zero =>
    intro start len prev h1 h2
    simp only [List.range_zero, List.map_nil, RunContainer.fromArrayLoop]
    have : min (len + 0) 65535 = len := by omega
    rw [this]
  | succ n ih =>
    intro start len prev h1 h2
    rw [List.range_succ_eq_map]
    simp only [List.map_cons, List.map_map]
    have hf : ((fun i => prev + 1 + i) ∘ Nat.succ) = (fun i => (prev + 1) + 1 + i) := by
      funext i
      simp [Function.comp]
      omega
    rw [hf]
    show RunContainer.fromArrayLoop _ start len prev = _
    rw [RunContainer.fromArrayLoop]
    simp only [Nat.add_zero, if_pos rfl]
    rw [ih start (min (len + 1) 65535) (prev + 1) (by omega) (by omega)]
    have : min (min (len + 1) 65535 + n) 65535 = min (len + (n + 1)) 65535 := by omega
    rw [this, if_pos trivial]

/-- `from_array` on the full consecutive block `0..=65535` yields the
single run `(0, 65534)` — one value short of the full span. -/
theorem from_array_cons (v : Nat) (rest : List Nat) :
    RunContainer.from_array ⟨v :: rest⟩ = ⟨RunContainer.fromArrayLoop rest v 1 v⟩ := rfl

theorem from_array_full_block :
    RunContainer.from_array ⟨List.range 65536⟩ = ⟨[(0, 65534)]⟩ := by
  have hr : List.range 65536 = 0 :: (List.range 65535).map (fun i => 0 + 1 + i) := by
    rw [show (65536 : Nat) = 65535 + 1 from by norm_num, List.range_succ_eq_map]
    exact congrArg (List.cons 0) (List.map_congr_left (fun i _ => by omega))
  rw [show (⟨List.range 65536⟩ : ArrayContainer)
        = ⟨0 :: (List.range 65535).map (fun i => 0 + 1 + i)⟩ from by rw [hr]]
  rw [from_array_cons, fromArrayLoop_consec 65535 0 1 0 (by omega) (by omega)]
  norm_num

/-- `to_array` on the single full run `(0, 65535)` yields `0..=65535`. -/
theorem to_array_full_block :
    RunContainer.to_array ⟨[(0, 65535)]⟩ = ⟨List.range 65536⟩ := by
  unfold RunContainer.to_array
  refine congrArg ArrayContainer.mk ?_
  rw [List.flatMap_cons, List.flatMap_nil, List.append_nil]
  show (List.range 65536).map (fun o => 0 + o) = List.range 65536
  simp only [Nat.zero_add]
  exact List.map_id' _

theorem arrayContainer_union_self (l : List Nat) :
    ArrayContainer.union ⟨l⟩ ⟨l⟩ = ⟨l⟩ := by
  unfold ArrayContainer.union
  exact congrArg ArrayContainer.mk (unionVals_self l)

theorem arrayContainer_inter_self (l : List Nat) (h : l.isEmpty = false) :
    ArrayContainer.intersection ⟨l⟩ ⟨l⟩ = some ⟨l⟩ := by
  unfold ArrayContainer.intersection
  rw [interVals_self]
  show (if l.isEmpty = true then none else some (⟨l⟩ : ArrayContainer)) = some ⟨l⟩
  rw [h]
  simp

/-- `RunContainer::union` of the full run with itself drops 65,535. -/
theorem run_union_full :
    RunContainer.union ⟨[(0, 65535)]⟩ ⟨[(0, 65535)]⟩ = ⟨[(0, 65534)]⟩ := by
  unfold RunContainer.union
  rw [to_array_full_block, arrayContainer_union_self]
  exact from_array_full_block

/-- `RunContainer::intersection` of the full run with itself drops 65,535. -/
theorem run_inter_full :
    RunContainer.intersection ⟨[(0, 65535)]⟩ ⟨[(0, 65535)]⟩ = some ⟨[(0, 65534)]⟩ := by
  have hne : (List.range 65536).isEmpty = false := by
    have h : List.range 65536 ≠ [] := by simp [List.range_eq_nil]
    simp [h]
  unfold RunContainer.intersection
  rw [to_array_full_block, arrayContainer_inter_self _ hne, Option.map_some',
    from_array_full_block]

/-- The bitmap-level union of the full-block bitmap with itself. -/
theorem full_union_eq :
    scenarioFullBlock.union scenarioFullBlock
      = ⟨[(0, Container.run ⟨[(0, 65534)]⟩)]⟩ := by
  have h5 : scenarioFullBlock = ⟨[(0, Container.run ⟨[(0, 65535)]⟩)]⟩ := by decide
  rw [h5]
  show RoaringBitmap.mk
    (RoaringBitmap.unionCont [(0, Container.run ⟨[(0, 65535)]⟩)]
      [(0, Container.run ⟨[(0, 65535)]⟩)]) = _
  have hm : RoaringBitmap.unionCont [(0, Container.run ⟨[(0, 65535)]⟩)]
      [(0, Container.run ⟨[(0, 65535)]⟩)]
      = [(0, Container.union (Container.run ⟨[(0, 65535)]⟩)
            (Container.run ⟨[(0, 65535)]⟩))] := by
    simp [RoaringBitmap.unionCont]
  rw [hm,
    show Container.union (Container.run ⟨[(0, 65535)]⟩) (Container.run ⟨[(0, 65535)]⟩)
      = Container.run (RunContainer.union ⟨[(0, 65535)]⟩ ⟨[(0, 65535)]⟩) from rfl,
    run_union_full]

/-- The bitmap-level intersection of the full-block bitmap with itself. -/
theorem full_inter_eq :
    scenarioFullBlock.intersection scenarioFullBlock
      = ⟨[(0, Container.run ⟨[(0, 65534)]⟩)]⟩ := by
  have h5 : scenarioFullBlock = ⟨[(0, Container.run ⟨[(0, 65535)]⟩)]⟩ := by decide
  rw [h5]
  show RoaringBitmap.mk
    (RoaringBitmap.interCont [(0, Container.run ⟨[(0, 65535)]⟩)]
      [(0, Container.run ⟨[(0, 65535)]⟩)]) = _
  have hc : Container.intersection (Container.run ⟨[(0, 65535)]⟩)
      (Container.run ⟨[(0, 65535)]⟩)
      = some (Container.run ⟨[(0, 65534)]⟩) := by
    show (RunContainer.intersection ⟨[(0, 65535)]⟩ ⟨[(0, 65535)]⟩).map Container.run = _
    rw [run_inter_full]
    rfl
  have hm : RoaringBitmap.interCont [(0, Container.run ⟨[(0, 65535)]⟩)]
      [(0, Container.run ⟨[(0, 65535)]⟩)]
      = [(0, Container.run ⟨[(0, 65534)]⟩)] := by
    simp [RoaringBitmap.interCont, hc]
  rw [hm]

/-- C1: the code diverges from the claim at the failing input
`a = b = extend_consecutive(0..=65535)` (a single full-block Run
container): `65535` is in the iteration of both operands, yet
`a.union(b)` does not contain it and has `len() = 65535`.  The culprit is
the saturated length accumulator in `RunContainer::from_array`. -/
theorem C1_full_block_union_divergence :
    scenarioFullBlock.contains 65535 = true ∧
    (scenarioFullBlock.union scenarioFullBlock).contains 65535 = false ∧
    (scenarioFullBlock.union scenarioFullBlock).len = 65535 ∧
    scenarioFullBlock.len = 65536 := by
  have h5 : scenarioFullBlock = ⟨[(0, Container.run ⟨[(0, 65535)]⟩)]⟩ := by decide
  refine ⟨by rw [h5]; decide, ?_, ?_, by rw [h5]; decide⟩
  · rw [full_union_eq]; decide
  · rw [full_union_eq]; decide

/-- C4: union and intersection are not idempotent on the full-block Run
container: both `a.union(a)` and `a.intersection(a)` lose the value
`65535` that `a` contains. -/
theorem C4_full_block_idempotence_divergence :
    scenarioFullBlock.contains 65535 = true ∧
    (scenarioFullBlock.union scenarioFullBlock).contains 65535 = false ∧
    (scenarioFullBlock.intersection scenarioFullBlock).contains 65535 = false := by
  have h5 : scenarioFullBlock = ⟨[(0, Container.run ⟨[(0, 65535)]⟩)]⟩ := by decide
  refine ⟨by rw [h5]; decide, ?_, ?_⟩
  · rw [full_union_eq]; decide
  · rw [full_inter_eq]; decide

/-! ## C8 and C9: skip list search descent -/

namespace Skiplist

/-- Unpack the well-formedness checks. -/
theorem wf_parts {sl : SkipList} {L : List Nat} (h : wfB sl L = true) :
    chain0B sl none L = true ∧ keysSortedB sl L = true ∧
      (∀ id ∈ L, id < sl.store.length) ∧ L.Nodup ∧
      headEdgesB sl L = true ∧ ∀ id ∈ L, nodeEdgesB sl L id = true := by
  simp only [wfB, Bool.and_eq_true, List.all_eq_true, decide_eq_true_eq] at h
  exact ⟨h.1.1.1.1.1, h.1.1.1.1.2, h.1.1.1.2, h.1.1.2, h.1.2, h.2⟩

end Skiplist

namespace Skiplist

/-- An element read by `getD` with a non-default result is in the list. -/
theorem getD_some_mem {l : List (Option Nat)} {i a : Nat}
    (h : l.getD i none = some a) : (some a) ∈ l := by
  rw [List.getD_eq_getElem?_getD] at h
  cases hg : l[i]? with
  | none => rw [hg] at h; simp at h
  | some e =>
    rw [hg] at h; simp only [Option.getD_some] at h
    rw [h] at hg
    exact List.getElem?_mem hg

/-- A head edge lands in `L`. -/
theorem head_edge {sl : SkipList} {L : List Nat}
    (hh : headEdgesB sl L = true) {lvl q : Nat}
    (h : forwardOf sl none lvl = some q) : q ∈ L := by
  have hmem : (some q) ∈ sl.head := getD_some_mem h
  have := (List.all_eq_true.mp hh) (some q) hmem
  simpa using this

/-- A node edge lands in `L` on a strictly larger key. -/
theorem node_edge {sl : SkipList} {L : List Nat} {id : Nat}
    (hn : nodeEdgesB sl L id = true) {lvl q : Nat}
    (h : forwardOf sl (some id) lvl = some q) :
    q ∈ L ∧ keyAt sl id < keyAt sl q := by
  have hmem : (some q) ∈ (sl.store.getD id ⟨0, []⟩).forward := getD_some_mem h
  have := (List.all_eq_true.mp hn) (some q) hmem
  simp at this
  exact this

/-- The zip-with-tail check is strict chaining. -/
theorem zipAll_chain' :
    ∀ l : List Nat, ((l.zip l.tail).all fun p => decide (p.1 < p.2)) = true →
      List.Chain' (· < ·) l := by
  intro l
  induction l with
  | nil => intro _; exact List.chain'_nil
  | cons a t ih =>
    cases t with
    | nil => intro _; simp
    | cons b t2 =>
      intro h
      simp only [List.tail_cons, List.zip_cons_cons, List.all_cons,
        Bool.and_eq_true, decide_eq_true_eq] at h
      rw [List.chain'_cons]
      exact ⟨h.1, ih h.2⟩

/-- Key sortedness as chaining over the mapped keys. -/
theorem keysSortedB_chain' {sl : SkipList} {L : List Nat}
    (h : keysSortedB sl L = true) :
    List.Chain' (· < ·) (L.map (keyAt sl)) :=
  zipAll_chain' _ h

/-- Every member of a level-0 chain heads its own chain over a suffix. -/
theorem chain0B_suffix {sl : SkipList} :
    ∀ (L : List Nat) (p : Pos), chain0B sl p L = true →
      ∀ id ∈ L, ∃ pre M, chain0B sl (some id) M = true ∧ L = pre ++ id :: M := by
  intro L
  induction L with
  | nil => intro p _ id hid; cases hid
  | cons x xs ih =>
    intro p h id hid
    rw [chain0B, Bool.and_eq_true] at h
    rcases List.mem_cons.mp hid with rfl | hmem
    · exact ⟨[], xs, h.2, rfl⟩
    · obtain ⟨pre, M, hM, heq⟩ := ih (some x) h.2 id hmem
      exact ⟨x :: pre, M, hM, by rw [heq]; rfl⟩

/-- One unfolding step of `levelWalk` with `.report`. -/
theorem levelWalk_report_step (sl : SkipList) (K lvl fuel : Nat) (p : Pos) :
    levelWalk sl K .report lvl (fuel + 1) p =
      match forwardOf sl p lvl with
      | none => (p, false)
      | some nid =>
        if keyAt sl nid < K then levelWalk sl K .report lvl fuel (some nid)
        else if keyAt sl nid = K then (p, true)
        else (p, false) := rfl

/-- One unfolding step of `levelWalk` with `.move`. -/
theorem levelWalk_move_step (sl : SkipList) (K lvl fuel : Nat) (p : Pos) :
    levelWalk sl K .move lvl (fuel + 1) p =
      match forwardOf sl p lvl with
      | none => (p, false)
      | some nid =>
        if keyAt sl nid < K then levelWalk sl K .move lvl fuel (some nid)
        else if keyAt sl nid = K then levelWalk sl K .move lvl fuel (some nid)
        else (p, false) := rfl

/-- The level-0 `.report` walk finds a present key: along a chain whose
sorted key list contains `K` and with enough fuel, the walk reports the
duplicate. -/
theorem walk0_report {sl : SkipList} {K : Nat} :
    ∀ (M : List Nat) (fuel : Nat) (p : Pos),
      chain0B sl p M = true → M.length < fuel →
      List.Chain' (· < ·) (M.map (keyAt sl)) →
      K ∈ M.map (keyAt sl) →
      (levelWalk sl K .report 0 fuel p).2 = true := by
  intro M
  induction M with
  | nil => intro fuel p _ _ _ hK; simp at hK
  | cons x xs ih =>
    intro fuel p hchain hfuel hsort hK
    rw [chain0B, Bool.and_eq_true] at hchain
    have hfw : forwardOf sl p 0 = some x := by
      have := hchain.1; simpa using this
    cases fuel with
    | zero => simp at hfuel
    | succ f =>
      rw [levelWalk_report_step, hfw]
      dsimp only
      simp only [List.map_cons] at hsort hK
      rcases lt_trichotomy (keyAt sl x) K with hlt | heq | hgt
      · rw [if_pos hlt]
        refine ih f (some x) hchain.2 (by simp at hfuel ⊢; omega)
          (List.Chain'.tail hsort) ?_
        rcases List.mem_cons.mp hK with hx | hx
        · omega
        · exact hx
      · rw [if_neg (by omega), if_pos heq]
      · exfalso
        have hpw := List.chain'_iff_pairwise.mp hsort
        rcases List.mem_cons.mp hK with hx | hx
        · omega
        · have := (List.pairwise_cons.mp hpw).1 K hx
          omega

/-- The `.report` walk preserves the `InvLt` descent invariant whenever it
does not report. -/
theorem walk_inv_report {sl : SkipList} {L : List Nat} {K lvl : Nat}
    (hh : headEdgesB sl L = true)
    (hn : ∀ id ∈ L, nodeEdgesB sl L id = true) :
    ∀ (fuel : Nat) (p : Pos), InvLt sl L K p →
      (levelWalk sl K .report lvl fuel p).2 = false →
      InvLt sl L K (levelWalk sl K .report lvl fuel p).1 := by
  intro fuel
  induction fuel with
  | zero => intro p hp _; exact hp
  | succ f ih =>
    intro p hp hrep
    rw [levelWalk_report_step] at hrep ⊢
    cases hfw : forwardOf sl p lvl with
    | none => dsimp only; exact hp
    | some nid =>
      rw [hfw] at hrep
      dsimp only at hrep ⊢
      have hmem : nid ∈ L := by
        rcases hp with rfl | ⟨id, rfl, hid, _⟩
        · exact head_edge hh hfw
        · exact (node_edge (hn id hid) hfw).1
      by_cases hk : keyAt sl nid < K
      · rw [if_pos hk] at hrep ⊢
        exact ih (some nid) (Or.inr ⟨nid, rfl, hmem, hk⟩) hrep
      · by_cases he : keyAt sl nid = K
        · rw [if_neg hk, if_pos he] at hrep
          simp at hrep
        · rw [if_neg hk, if_neg he] at hrep ⊢
          exact hp

/-- The `.move` walk preserves the `InvLe` descent invariant. -/
theorem walk_inv_move {sl : SkipList} {L : List Nat} {K lvl : Nat}
    (hh : headEdgesB sl L = true)
    (hn : ∀ id ∈ L, nodeEdgesB sl L id = true) :
    ∀ (fuel : Nat) (p : Pos), InvLe sl L K p →
      InvLe sl L K (levelWalk sl K .move lvl fuel p).1 := by
  intro fuel
  induction fuel with
  | zero => intro p hp; exact hp
  | succ f ih =>
    intro p hp
    rw [levelWalk_move_step]
    cases hfw : forwardOf sl p lvl with
    | none => dsimp only; exact hp
    | some nid =>
      dsimp only
      have hmem : nid ∈ L := by
        rcases hp with rfl | ⟨id, rfl, hid, _⟩
        · exact head_edge hh hfw
        · exact (node_edge (hn id hid) hfw).1
      by_cases hk : keyAt sl nid < K
      · rw [if_pos hk]
        exact ih (some nid) (Or.inr ⟨nid, rfl, hmem, le_of_lt hk⟩)
      · by_cases he : keyAt sl nid = K
        · rw [if_neg hk, if_pos he]
          exact ih (some nid) (Or.inr ⟨nid, rfl, hmem, le_of_eq he⟩)
        · rw [if_neg hk, if_neg he]
          exact hp

/-- The level-0 `.move` walk lands just before the first chain element with
key above `K`. -/
theorem walk0_move {sl : SkipList} {K : Nat} :
    ∀ (M : List Nat) (fuel : Nat) (p : Pos),
      chain0B sl p M = true → M.length < fuel →
      (∀ x ∈ M, keyAt sl x ≤ K ∨ K < keyAt sl x) →
      forwardOf sl (levelWalk sl K .move 0 fuel p).1 0
        = M.find? (fun id => decide (K < keyAt sl id)) := by
  intro M
  induction M with
  | nil =>
    intro fuel p hchain _ _
    have hfw : forwardOf sl p 0 = none := by
      rw [chain0B] at hchain; simpa using hchain
    cases fuel with
    | zero => simpa using hfw
    | succ f =>
      rw [levelWalk_move_step, hfw]
      dsimp only
      simpa using hfw
  | cons x xs ih =>
    intro fuel p hchain hfuel _
    rw [chain0B, Bool.and_eq_true] at hchain
    have hfw : forwardOf sl p 0 = some x := by
      have := hchain.1; simpa using this
    cases fuel with
    | zero => simp at hfuel
    | succ f =>
      rw [levelWalk_move_step, hfw]
      dsimp only
      by_cases hk : keyAt sl x < K
      · rw [if_pos hk,
          ih f (some x) hchain.2 (by simp at hfuel ⊢; omega) (fun x hx => by omega),
          List.find?_cons_of_neg _ (by simp; omega)]
      · by_cases he : keyAt sl x = K
        · rw [if_neg hk, if_pos he,
            ih f (some x) hchain.2 (by simp at hfuel ⊢; omega) (fun x hx => by omega),
            List.find?_cons_of_neg _ (by simp; omega)]
        · rw [if_neg hk, if_neg he]
          have : K < keyAt sl x := by omega
          rw [List.find?_cons_of_pos _ (by simpa using this)]
          exact hfw

end Skiplist

namespace Skiplist

/-- A duplicate-free list of store indices is no longer than the store. -/
theorem nodup_bound {n : Nat} (L : List Nat) (hnd : L.Nodup)
    (hb : ∀ x ∈ L, x < n) : L.length ≤ n := by
  classical
  have h1 : L.toFinset.card = L.length := List.toFinset_card_of_nodup hnd
  have h2 : L.toFinset ⊆ Finset.range n := by
    intro x hx
    simp only [List.mem_toFinset] at hx
    exact Finset.mem_range.mpr (hb x hx)
  have := Finset.card_le_card h2
  rw [h1, Finset.card_range] at this
  exact this

/-- From a position satisfying `InvLt` one gets a chain suffix that still
carries the present key, is sorted, and fits in the walk fuel. -/
theorem chain_from_invLt {sl : SkipList} {L : List Nat} {K : Nat}
    (h : wfB sl L = true) (hK : K ∈ L.map (keyAt sl)) {p : Pos}
    (hp : InvLt sl L K p) :
    ∃ M : List Nat, chain0B sl p M = true ∧ M.length ≤ L.length ∧
      List.Chain' (· < ·) (M.map (keyAt sl)) ∧ K ∈ M.map (keyAt sl) := by
  obtain ⟨hchain, hsort, _, _, _, _⟩ := wf_parts h
  have hsortL := keysSortedB_chain' hsort
  rcases hp with rfl | ⟨id, rfl, hidL, hidK⟩
  · exact ⟨L, hchain, le_refl _, hsortL, hK⟩
  · obtain ⟨pre, M, hM, heq⟩ := chain0B_suffix L none hchain id hidL
    have hmap : L.map (keyAt sl)
        = pre.map (keyAt sl) ++ keyAt sl id :: M.map (keyAt sl) := by
      rw [heq]; simp
    have hpw := List.chain'_iff_pairwise.mp hsortL
    rw [hmap] at hpw hK
    have hpre : ∀ y ∈ pre.map (keyAt sl), y < K := by
      intro y hy
      have := (List.pairwise_append.mp hpw).2.2 y hy (keyAt sl id) (List.mem_cons_self _ _)
      omega
    refine ⟨M, hM, ?_, ?_, ?_⟩
    · rw [heq]; simp; omega
    · have : List.Pairwise (· < ·) (keyAt sl id :: M.map (keyAt sl)) :=
        (List.pairwise_append.mp hpw).2.1
      exact List.chain'_iff_pairwise.mpr ((List.pairwise_cons.mp this).2)
    · rcases List.mem_append.mp hK with hy | hy
      · exact absurd (hpre K hy) (lt_irrefl K)
      · rcases List.mem_cons.mp hy with hy | hy
        · omega
        · exact hy

/-- The insert descent reports a present key at some level and returns the
entry in the error arm. -/
theorem descendIns_eq_none {sl : SkipList} {L : List Nat} {K : Nat}
    (h : wfB sl L = true) (hK : K ∈ L.map (keyAt sl)) :
    ∀ (lvl : Nat) (p : Pos), InvLt sl L K p →
      descendIns sl K lvl p = none := by
  obtain ⟨_, _, hvalid, hnd, hh, hn⟩ := wf_parts h
  have hLlen : L.length ≤ sl.store.length := nodup_bound L hnd hvalid
  intro lvl
  induction lvl with
  | zero =>
    intro p hp
    obtain ⟨M, hM, hMl, hMs, hMk⟩ := chain_from_invLt h hK hp
    have hrep := walk0_report M (sl.store.length + 1) p hM (by omega) hMs hMk
    rw [descendIns]
    rcases hw : levelWalk sl K .report 0 (sl.store.length + 1) p with ⟨p', rep⟩
    rw [hw] at hrep
    simp only at hrep
    rw [hrep]
  | succ lv ih =>
    intro p hp
    rw [descendIns]
    rcases hw : levelWalk sl K .report (lv + 1) (sl.store.length + 1) p with ⟨p', rep⟩
    cases rep with
    | true => rfl
    | false =>
      have hp' : InvLt sl L K p' := by
        have := walk_inv_report hh hn (sl.store.length + 1) p hp (by rw [hw])
        rwa [hw] at this
      dsimp only
      rw [ih p' hp']
      rfl

/-- C8: inserting an entry whose key is already present returns the boxed
entry in the error arm with no mutation at all: the returned state is the
input state, so the element count, the stored keys, the level-0 ordering
and the current level are all unchanged. -/
theorem C8_duplicate_insert_no_mutation (sl : SkipList) (L : List Nat) (k : Nat)
    (h : wfB sl L = true) (hk : k ∈ L.map (keyAt sl)) :
    insert sl k = (sl, false) := by
  unfold insert
  rw [descendIns_eq_none h hk sl.level none (Or.inl rfl)]

/-- Witness for `C8_duplicate_insert_no_mutation`: a well-formed two-node
list with keys `5` and `9`; inserting key `9` is rejected unchanged. -/
theorem C8_duplicate_insert_no_mutation_witness :
    wfB ⟨[some 0, some 1, none], [⟨5, [some 1]⟩, ⟨9, [none, none]⟩], 2, 1, 2, 1⟩
        [0, 1] = true ∧
      (9 ∈ [0, 1].map (keyAt ⟨[some 0, some 1, none],
        [⟨5, [some 1]⟩, ⟨9, [none, none]⟩], 2, 1, 2, 1⟩)) ∧
      insert ⟨[some 0, some 1, none], [⟨5, [some 1]⟩, ⟨9, [none, none]⟩], 2, 1, 2, 1⟩ 9
        = (⟨[some 0, some 1, none], [⟨5, [some 1]⟩, ⟨9, [none, none]⟩], 2, 1, 2, 1⟩, false) :=
  ⟨by decide, by decide,
    C8_duplicate_insert_no_mutation _ [0, 1] 9 (by decide) (by decide)⟩

end Skiplist

namespace Skiplist

/-- `find?` skips a prefix on which the predicate is false. -/
theorem find?_append_false {α : Type} (p : α → Bool) :
    ∀ (l1 l2 : List α), (∀ x ∈ l1, p x = false) →
      (l1 ++ l2).find? p = l2.find? p := by
  intro l1
  induction l1 with
  | nil => intro l2 _; rfl
  | cons a t ih =>
    intro l2 hf
    rw [List.cons_append, List.find?_cons_of_neg _ (by simp [hf a (by simp)])]
    exact ih l2 (fun x hx => hf x (by simp [hx]))

/-- The `successor` descent, started anywhere satisfying `InvLe`, ends with
a level-0 forward pointer equal to the first stored id with key above `K`. -/
theorem move_descend_find {sl : SkipList} {L : List Nat} {K : Nat}
    (h : wfB sl L = true) :
    ∀ (lvl : Nat) (p : Pos), InvLe sl L K p →
      forwardOf sl (descendMove sl K lvl p) 0
        = L.find? (fun id => decide (K < keyAt sl id)) := by
  obtain ⟨hchain, hsort, hvalid, hnd, hh, hn⟩ := wf_parts h
  have hLlen : L.length ≤ sl.store.length := nodup_bound L hnd hvalid
  have hsortL := keysSortedB_chain' hsort
  intro lvl
  induction lvl with
  | zero =>
    intro p hp
    rw [descendMove]
    rcases hp with rfl | ⟨id, rfl, hidL, hidK⟩
    · exact walk0_move L (sl.store.length + 1) none hchain (by omega)
        (fun x _ => by omega)
    · obtain ⟨pre, M, hM, heq⟩ := chain0B_suffix L none hchain id hidL
      rw [walk0_move M (sl.store.length + 1) (some id) hM
        (by have : M.length ≤ L.length := by rw [heq]; simp; omega
            omega)
        (fun x _ => by omega)]
      have hmap : L.map (keyAt sl)
          = pre.map (keyAt sl) ++ keyAt sl id :: M.map (keyAt sl) := by
        rw [heq]; simp
      have hpw := List.chain'_iff_pairwise.mp hsortL
      rw [hmap] at hpw
      have hpre : ∀ y ∈ pre, keyAt sl y < keyAt sl id := by
        intro y hy
        exact (List.pairwise_append.mp hpw).2.2 (keyAt sl y)
          (List.mem_map_of_mem _ hy) (keyAt sl id) (List.mem_cons_self _ _)
      rw [heq, show pre ++ id :: M = (pre ++ [id]) ++ M from by simp,
        find?_append_false _ (pre ++ [id]) M ?_]
      intro x hx
      rcases List.mem_append.mp hx with hx | hx
      · have := hpre x hx
        simp only [decide_eq_false_iff_not, not_lt]
        omega
      · simp only [List.mem_singleton] at hx
        subst hx
        simp only [decide_eq_false_iff_not, not_lt]
        exact hidK
  | succ lv ih =>
    intro p hp
    rw [descendMove]
    exact ih _ (walk_inv_move hh hn (sl.store.length + 1) p hp)

/-- `successor` returns the first stored id (in key order) whose key is
strictly above `K`. -/
theorem successor_eq_find {sl : SkipList} {L : List Nat} {K : Nat}
    (h : wfB sl L = true) :
    successor sl K = L.find? (fun id => decide (K < keyAt sl id)) := by
  unfold successor
  exact move_descend_find h sl.level none (Or.inl rfl)

/-- `find?` of the strictly-above predicate on a key-sorted id list is the
minimal strictly-greater element. -/
theorem find?_min_of_sorted (sl : SkipList) (K : Nat) :
    ∀ L : List Nat, List.Chain' (· < ·) (L.map (keyAt sl)) →
      ∀ id, L.find? (fun i => decide (K < keyAt sl i)) = some id →
        id ∈ L ∧ K < keyAt sl id ∧
          ∀ j ∈ L, K < keyAt sl j → keyAt sl id ≤ keyAt sl j := by
  intro L
  induction L with
  | nil => intro _ id hid; simp at hid
  | cons x xs ih =>
    intro hsort id hid
    simp only [List.map_cons] at hsort
    by_cases hx : K < keyAt sl x
    · rw [List.find?_cons_of_pos _ (by simpa using hx)] at hid
      obtain rfl : x = id := by simpa using hid
      refine ⟨List.mem_cons_self _ _, hx, ?_⟩
      intro j hj _
      rcases List.mem_cons.mp hj with rfl | hj
      · exact le_refl _
      · have hpw := List.chain'_iff_pairwise.mp hsort
        exact le_of_lt ((List.pairwise_cons.mp hpw).1 (keyAt sl j)
          (List.mem_map_of_mem _ hj))
    · rw [List.find?_cons_of_neg _ (by simpa using hx)] at hid
      obtain ⟨hmem, hgt, hmin⟩ := ih (List.Chain'.tail hsort) id hid
      refine ⟨List.mem_cons_of_mem _ hmem, hgt, ?_⟩
      intro j hj hjgt
      rcases List.mem_cons.mp hj with rfl | hj
      · omega
      · exact hmin j hj hjgt

/-- C9: for every well-formed skip list and every key `K`, `successor(K)`
returns the stored element with the smallest key strictly greater than `K`,
or nothing when no stored key is strictly greater than `K`. -/
theorem C9_successor_correct (sl : SkipList) (L : List Nat) (K : Nat)
    (h : wfB sl L = true) :
    (successor sl K = none → ∀ id ∈ L, keyAt sl id ≤ K) ∧
    (∀ id, successor sl K = some id →
      id ∈ L ∧ K < keyAt sl id ∧
        ∀ j ∈ L, K < keyAt sl j → keyAt sl id ≤ keyAt sl j) := by
  obtain ⟨_, hsort, _, _, _, _⟩ := wf_parts h
  rw [successor_eq_find h]
  constructor
  · intro hn id hid
    have := List.find?_eq_none.mp hn id hid
    simp only [decide_eq_true_eq] at this
    omega
  · intro id hid
    exact find?_min_of_sorted sl K L (keysSortedB_chain' hsort) id hid

/-- Witness for `C9_successor_correct` on the concrete two-node list with
keys `5` and `9`: the successor of `6` is the node with key `9`. -/
theorem C9_successor_correct_witness :
    wfB ⟨[some 0, some 1, none], [⟨5, [some 1]⟩, ⟨9, [none, none]⟩], 2, 1, 2, 1⟩
        [0, 1] = true ∧
      ((successor ⟨[some 0, some 1, none], [⟨5, [some 1]⟩, ⟨9, [none, none]⟩], 2, 1, 2, 1⟩ 6
          = some 1) ∧
        (∀ id, successor ⟨[some 0, some 1, none],
            [⟨5, [some 1]⟩, ⟨9, [none, none]⟩], 2, 1, 2, 1⟩ 6 = some id →
          id ∈ [0, 1] ∧
            6 < keyAt ⟨[some 0, some 1, none],
              [⟨5, [some 1]⟩, ⟨9, [none, none]⟩], 2, 1, 2, 1⟩ id ∧
            ∀ j ∈ [0, 1], 6 < keyAt ⟨[some 0, some 1, none],
                [⟨5, [some 1]⟩, ⟨9, [none, none]⟩], 2, 1, 2, 1⟩ j →
              keyAt ⟨[some 0, some 1, none],
                [⟨5, [some 1]⟩, ⟨9, [none, none]⟩], 2, 1, 2, 1⟩ id
                ≤ keyAt ⟨[some 0, some 1, none],
                  [⟨5, [some 1]⟩, ⟨9, [none, none]⟩], 2, 1, 2, 1⟩ j)) :=
  ⟨by decide, by decide,
    (C9_successor_correct _ [0, 1] 6 (by decide)).2⟩

end Skiplist


/-! ## Array container lemmas -/

namespace Roaring

open ArrayContainer

/-- Membership after the ordered insert splice. -/
theorem mem_insertVals : ∀ (l : List Nat) (v w : Nat),
    (w ∈ (insertVals l v).1 ↔ w = v ∨ w ∈ l) := by
  intro l
  induction l with
  | nil => intro v w; simp [insertVals]
  | cons x xs ih =>
    intro v w
    rw [insertVals]
    by_cases h1 : v < x
    · rw [if_pos h1]; simp
    · rw [if_neg h1]
      by_cases h2 : v = x
      · rw [if_pos h2]; subst h2; simp only [List.mem_cons]; tauto
      · rw [if_neg h2]
        show w ∈ x :: (insertVals xs v).1 ↔ _
        simp only [List.mem_cons, ih v w]
        tauto

/-- The ordered insert splice preserves sorted-uniqueness. -/
theorem insertVals_pairwise : ∀ (l : List Nat) (v : Nat),
    List.Pairwise (· < ·) l → List.Pairwise (· < ·) (insertVals l v).1 := by
  intro l
  induction l with
  | nil => intro v _; simp [insertVals]
  | cons x xs ih =>
    intro v hp
    rw [insertVals]
    obtain ⟨hx, hxs⟩ := List.pairwise_cons.mp hp
    by_cases h1 : v < x
    · rw [if_pos h1]
      refine List.pairwise_cons.mpr ⟨?_, hp⟩
      intro y hy
      rcases List.mem_cons.mp hy with rfl | hy
      · exact h1
      · exact lt_trans h1 (hx y hy)
    · rw [if_neg h1]
      by_cases h2 : v = x
      · rw [if_pos h2]; exact hp
      · rw [if_neg h2]
        show List.Pairwise _ (x :: (insertVals xs v).1)
        refine List.pairwise_cons.mpr ⟨?_, ih v hxs⟩
        intro y hy
        rcases (mem_insertVals xs v y).mp hy with rfl | hy
        · omega
        · exact hx y hy

/-- The ordered removal yields a sublist. -/
theorem removeVals_sublist : ∀ (l : List Nat) (v : Nat),
    List.Sublist (removeVals l v).1 l := by
  intro l
  induction l with
  | nil => intro v; simp [removeVals]
  | cons x xs ih =>
    intro v
    rw [removeVals]
    by_cases h1 : v < x
    · rw [if_pos h1]
    · rw [if_neg h1]
      by_cases h2 : v = x
      · rw [if_pos h2]; exact List.sublist_cons_self x xs
      · rw [if_neg h2]
        show List.Sublist (x :: (removeVals xs v).1) (x :: xs)
        exact List.Sublist.cons₂ x (ih v)

/-- Membership is untouched at other values by the ordered removal. -/
theorem mem_removeVals : ∀ (l : List Nat) (v w : Nat), w ≠ v →
    (w ∈ (removeVals l v).1 ↔ w ∈ l) := by
  intro l
  induction l with
  | nil => intro v w _; simp [removeVals]
  | cons x xs ih =>
    intro v w hne
    rw [removeVals]
    by_cases h1 : v < x
    · rw [if_pos h1]
    · rw [if_neg h1]
      by_cases h2 : v = x
      · rw [if_pos h2]; subst h2; simp only [List.mem_cons]
        constructor
        · tauto
        · rintro (rfl | hw)
          · omega
          · exact hw
      · rw [if_neg h2]
        show w ∈ x :: (removeVals xs v).1 ↔ _
        simp only [List.mem_cons, ih v w hne]

/-- Merge-union membership. -/
theorem mem_unionVals : ∀ (xs ys : List Nat) (a : Nat),
    (a ∈ unionVals xs ys ↔ a ∈ xs ∨ a ∈ ys) := by
  intro xs ys
  induction xs, ys using unionVals.induct with
  | case1 ys => intro a; simp [unionVals]
  | case2 xs h => intro a; cases xs with
    | nil => simp [unionVals]
    | cons z zs => simp [unionVals]
  | case3 x xs y ys h ih =>
    intro a
    rw [unionVals, if_pos h]
    simp only [List.mem_cons, ih]
    tauto
  | case4 xs y ys h ih =>
    intro a
    rw [unionVals, if_neg h, if_pos rfl]
    simp only [List.mem_cons, ih]
    tauto
  | case5 x xs y ys h1 h2 ih =>
    intro a
    rw [unionVals, if_neg h1, if_neg h2]
    simp only [List.mem_cons, ih]
    tauto

/-- Merge-union preserves sorted-uniqueness. -/
theorem unionVals_pairwise : ∀ (xs ys : List Nat),
    List.Pairwise (· < ·) xs → List.Pairwise (· < ·) ys →
      List.Pairwise (· < ·) (unionVals xs ys) := by
  intro xs ys
  induction xs, ys using unionVals.induct with
  | case1 ys => intro _ hy; simpa [unionVals] using hy
  | case2 xs h => intro hx _; cases xs with
    | nil => simpa [unionVals] using hx
    | cons z zs => simpa [unionVals] using hx
  | case3 x xs y ys h ih =>
    intro hx hy
    rw [unionVals, if_pos h]
    obtain ⟨hx1, hx2⟩ := List.pairwise_cons.mp hx
    refine List.pairwise_cons.mpr ⟨?_, ih hx2 hy⟩
    intro a ha
    rcases (mem_unionVals _ _ a).mp ha with ha | ha
    · exact hx1 a ha
    · rcases List.mem_cons.mp ha with rfl | ha
      · exact h
      · exact lt_trans h ((List.pairwise_cons.mp hy).1 a ha)
  | case4 xs y ys h ih =>
    intro hx hy
    rw [unionVals, if_neg h, if_pos rfl]
    obtain ⟨hx1, hx2⟩ := List.pairwise_cons.mp hx
    obtain ⟨hy1, hy2⟩ := List.pairwise_cons.mp hy
    refine List.pairwise_cons.mpr ⟨?_, ih hx2 hy2⟩
    intro a ha
    rcases (mem_unionVals _ _ a).mp ha with ha | ha
    · exact hx1 a ha
    · exact hy1 a ha
  | case5 x xs y ys h1 h2 ih =>
    intro hx hy
    rw [unionVals, if_neg h1, if_neg h2]
    obtain ⟨hy1, hy2⟩ := List.pairwise_cons.mp hy
    refine List.pairwise_cons.mpr ⟨?_, ih hx hy2⟩
    intro a ha
    rcases (mem_unionVals _ _ a).mp ha with ha | ha
    · rcases List.mem_cons.mp ha with rfl | ha
      · omega
      · have := (List.pairwise_cons.mp hx).1 a ha
        omega
    · exact hy1 a ha

/-- Merge-intersection is a sublist of the left operand. -/
theorem interVals_sublist : ∀ (xs ys : List Nat),
    List.Sublist (interVals xs ys) xs := by
  intro xs ys
  induction xs, ys using interVals.induct with
  | case1 ys => simp [interVals]
  | case2 xs h => cases xs with
    | nil => simp [interVals]
    | cons z zs => simp [interVals]
  | case3 x xs y ys h ih =>
    rw [interVals, if_pos h]
    exact ih.cons x
  | case4 xs y ys h ih =>
    rw [interVals, if_neg h, if_pos rfl]
    exact ih.cons₂ y
  | case5 x xs y ys h1 h2 ih =>
    rw [interVals, if_neg h1, if_neg h2]
    exact ih

/-- Merge-difference is a sublist of the left operand. -/
theorem diffVals_sublist : ∀ (xs ys : List Nat),
    List.Sublist (diffVals xs ys) xs := by
  intro xs ys
  induction xs, ys using diffVals.induct with
  | case1 ys => simp [diffVals]
  | case2 xs h => cases xs with
    | nil => simp [diffVals]
    | cons z zs => simp [diffVals]
  | case3 x xs y ys h ih =>
    rw [diffVals, if_pos h]
    exact ih.cons₂ x
  | case4 xs y ys h ih =>
    rw [diffVals, if_neg h, if_pos rfl]
    exact ih.cons y
  | case5 x xs y ys h1 h2 ih =>
    rw [diffVals, if_neg h1, if_neg h2]
    exact ih

/-- Elements of the symmetric-difference merge come from an operand. -/
theorem mem_symmVals_sub : ∀ (xs ys : List Nat) (a : Nat),
    a ∈ symmVals xs ys → a ∈ xs ∨ a ∈ ys := by
  intro xs ys
  induction xs, ys using symmVals.induct with
  | case1 ys => intro a h; right; simpa [symmVals] using h
  | case2 xs h =>
    intro a h2
    left
    cases xs with
    | nil => simpa [symmVals] using h2
    | cons z zs => simpa [symmVals] using h2
  | case3 x xs y ys h ih =>
    intro a ha
    rw [symmVals, if_pos h] at ha
    rcases List.mem_cons.mp ha with rfl | ha
    · left; exact List.mem_cons_self _ _
    · rcases ih a ha with h2 | h2
      · left; exact List.mem_cons_of_mem _ h2
      · right; exact h2
  | case4 xs y ys h ih =>
    intro a ha
    rw [symmVals, if_neg h, if_pos rfl] at ha
    rcases ih a ha with h3 | h3
    · left; exact List.mem_cons_of_mem _ h3
    · right; exact List.mem_cons_of_mem _ h3
  | case5 x xs y ys h1 h2 ih =>
    intro a ha
    rw [symmVals, if_neg h1, if_neg h2] at ha
    rcases List.mem_cons.mp ha with rfl | ha
    · right; exact List.mem_cons_self _ _
    · rcases ih a ha with h3 | h3
      · left; exact h3
      · right; exact List.mem_cons_of_mem _ h3

/-- The symmetric-difference merge preserves sorted-uniqueness. -/
theorem symmVals_pairwise : ∀ (xs ys : List Nat),
    List.Pairwise (· < ·) xs → List.Pairwise (· < ·) ys →
      List.Pairwise (· < ·) (symmVals xs ys) := by
  intro xs ys
  induction xs, ys using symmVals.induct with
  | case1 ys => intro _ hy; simpa [symmVals] using hy
  | case2 xs h => intro hx _; cases xs with
    | nil => simpa [symmVals] using hx
    | cons z zs => simpa [symmVals] using hx
  | case3 x xs y ys h ih =>
    intro hx hy
    rw [symmVals, if_pos h]
    obtain ⟨hx1, hx2⟩ := List.pairwise_cons.mp hx
    refine List.pairwise_cons.mpr ⟨?_, ih hx2 hy⟩
    intro a ha
    rcases mem_symmVals_sub _ _ a ha with ha | ha
    · exact hx1 a ha
    · rcases List.mem_cons.mp ha with rfl | ha
      · exact h
      · exact lt_trans h ((List.pairwise_cons.mp hy).1 a ha)
  | case4 xs y ys h ih =>
    intro hx hy
    rw [symmVals, if_neg h, if_pos rfl]
    exact ih (List.pairwise_cons.mp hx).2 (List.pairwise_cons.mp hy).2
  | case5 x xs y ys h1 h2 ih =>
    intro hx hy
    rw [symmVals, if_neg h1, if_neg h2]
    obtain ⟨hy1, hy2⟩ := List.pairwise_cons.mp hy
    refine List.pairwise_cons.mpr ⟨?_, ih hx hy2⟩
    intro a ha
    rcases mem_symmVals_sub _ _ a ha with ha | ha
    · rcases List.mem_cons.mp ha with rfl | ha
      · omega
      · have := (List.pairwise_cons.mp hx).1 a ha
        omega
    · exact hy1 a ha

end Roaring

/-! ## Bitmap container lemmas -/

namespace Roaring

open BitmapContainer

/-- `getD` after `set` at the written index. -/
theorem getD_set_self {l : List Nat} {i : Nat} (h : i < l.length) (x : Nat) :
    (l.set i x).getD i 0 = x := by
  rw [List.getD_eq_getElem?_getD, List.getElem?_set_eq h]
  rfl

/-- `getD` after `set` at another index. -/
theorem getD_set_other {l : List Nat} {i j : Nat} (h : i ≠ j) (x : Nat) :
    (l.set i x).getD j 0 = l.getD j 0 := by
  rw [List.getD_eq_getElem?_getD, List.getElem?_set_ne h,
    ← List.getD_eq_getElem?_getD]

/-- Elements of a replicated list through `getD`. -/
theorem getD_replicate (n i x : Nat) : (List.replicate n x).getD i 0 = if i < n then x else 0 := by
  rw [List.getD_eq_getElem?_getD, List.getElem?_replicate]
  by_cases h : i < n <;> simp [h]

/-- The words of `BitmapContainer::new` are all zero. -/
theorem word_new (i : Nat) : word new i = 0 := by
  unfold word new
  rw [getD_replicate]
  by_cases h : i < 1024 <;> simp [h]

/-- Setting one bit: bit test after `|= 1 << b`. -/
theorem testBit_or_bit (w b c : Nat) :
    (w ||| (1 <<< b)).testBit c = (w.testBit c || decide (b = c)) := by
  rw [Nat.testBit_or, Nat.shiftLeft_eq, one_mul, Nat.testBit_two_pow]

/-- Clearing one bit: bit test after `&= !(1 << b)` for a bit position in
the 64-bit word. -/
theorem testBit_clear_bit (w b c : Nat) (hc : c < 64) :
    (w &&& notMask b).testBit c = (w.testBit c && ! decide (b = c)) := by
  unfold notMask
  rw [Nat.testBit_and, Nat.testBit_xor, Nat.shiftLeft_eq, one_mul,
    Nat.testBit_two_pow, Nat.testBit_two_pow_sub_one]
  simp [hc, Bool.xor_comm]

/-- Flipping one list element from rejected to accepted adds one to the
filter length. -/
theorem filter_length_flip (p q : Nat → Bool) :
    ∀ (l : List Nat), l.Nodup → ∀ b ∈ l, q b = true → p b = false →
      (∀ c ∈ l, c ≠ b → q c = p c) →
      (l.filter q).length = (l.filter p).length + 1 := by
  intro l
  induction l with
  | nil => intro _ b hb; cases hb
  | cons a t ih =>
    intro hnd b hb hq hp hagree
    obtain ⟨hat, hndt⟩ := List.nodup_cons.mp hnd
    rcases List.mem_cons.mp hb with rfl | hbt
    · rw [List.filter_cons, List.filter_cons, hq, hp]
      have heq : t.filter q = t.filter p := by
        apply List.filter_congr
        intro c hc
        exact hagree c (List.mem_cons_of_mem _ hc) (by rintro rfl; exact hat hc)
      rw [heq]
      simp
    · have hne : a ≠ b := by rintro rfl; exact hat hbt
      have ha : q a = p a := hagree a (List.mem_cons_self _ _) hne
      rw [List.filter_cons, List.filter_cons, ha]
      have hrec := ih hndt b hbt hq hp
        (fun c hc hcb => hagree c (List.mem_cons_of_mem _ hc) hcb)
      by_cases hpa : p a = true
      · simp only [hpa, if_true, List.length_cons, hrec]
      · simp only [Bool.not_eq_true] at hpa
        simp only [hpa, Bool.false_eq_true, if_false, hrec]

/-- Setting an unset bit bumps the word popcount. -/
theorem popCount64_or_bit (w b : Nat) (hb : b < 64) (h : w.testBit b = false) :
    popCount64 (w ||| (1 <<< b)) = popCount64 w + 1 := by
  unfold popCount64
  apply filter_length_flip _ _ _ (List.nodup_range 64) b (List.mem_range.mpr hb)
  · rw [testBit_or_bit, h]
    simp
  · exact h
  · intro c _ hcb
    rw [testBit_or_bit]
    simp [Ne.symm hcb]

/-- Clearing a set bit drops the word popcount. -/
theorem popCount64_clear_bit (w b : Nat) (hb : b < 64) (h : w.testBit b = true) :
    popCount64 w = popCount64 (w &&& notMask b) + 1 := by
  unfold popCount64
  apply filter_length_flip _ _ _ (List.nodup_range 64) b (List.mem_range.mpr hb)
  · exact h
  · rw [testBit_clear_bit _ _ _ hb]
    simp
  · intro c hc hcb
    rw [testBit_clear_bit _ _ _ (List.mem_range.mp hc)]
    simp [Ne.symm hcb]

/-- Replacing one word updates the total popcount additively. -/
theorem popTotal_set : ∀ (bits : List Nat) (i : Nat), i < bits.length → ∀ x : Nat,
    popTotal (bits.set i x) + popCount64 (bits.getD i 0)
      = popTotal bits + popCount64 x := by
  intro bits
  induction bits with
  | nil => intro i hi; simp at hi
  | cons w rest ih =>
    intro i hi x
    cases i with
    | zero =>
      simp only [List.set_cons_zero, List.getD_cons_zero]
      unfold popTotal
      simp only [List.map_cons, List.sum_cons]
      omega
    | succ j =>
      simp only [List.set_cons_succ, List.getD_cons_succ]
      unfold popTotal
      simp only [List.map_cons, List.sum_cons]
      have := ih j (by simpa using hi) x
      unfold popTotal at this
      omega

/-- Reading every index of a list through `getD` returns the list. -/
theorem map_getD_range : ∀ (l : List Nat),
    (List.range l.length).map (fun i => l.getD i 0) = l := by
  intro l
  induction l with
  | nil => simp
  | cons a t ih =>
    rw [List.length_cons, List.range_succ_eq_map]
    simp only [List.map_cons, List.getD_cons_zero, List.map_map]
    have h2 : ((fun i => (a :: t).getD i 0) ∘ Nat.succ) = (fun i => t.getD i 0) := by
      funext i
      simp [Function.comp]
    rw [h2, ih]

end Roaring

namespace Roaring

open BitmapContainer

/-- Words after `insert_unchecked`. -/
theorem word_insert_unchecked (b : BitmapContainer) (v : Nat)
    (hb : b.bits.length = 1024) (hv : v < 65536) (i : Nat) :
    word (insert_unchecked b v) i
      = if i = v / 64 then word b i ||| (1 <<< (v % 64)) else word b i := by
  unfold insert_unchecked word
  by_cases h : i = v / 64
  · subst h
    rw [if_pos rfl, getD_set_self (by rw [hb]; omega)]
  · rw [if_neg h, getD_set_other (Ne.symm h)]

/-- Bits length after `insert_unchecked`. -/
theorem length_insert_unchecked (b : BitmapContainer) (v : Nat) :
    (insert_unchecked b v).bits.length = b.bits.length := by
  unfold insert_unchecked
  exact List.length_set _ _ _

/-- `contains` after `insert_unchecked`: exactly the inserted value is
added. -/
theorem contains_insert_unchecked (b : BitmapContainer) (v w : Nat)
    (hb : b.bits.length = 1024) (hv : v < 65536) :
    contains (insert_unchecked b v) w = (contains b w || decide (w = v)) := by
  unfold contains
  rw [word_insert_unchecked b v hb hv]
  by_cases h : w / 64 = v / 64
  · rw [if_pos h, h, testBit_or_bit]
    by_cases he : w = v
    · subst he
      simp
    · have hmod : ¬ (v % 64 = w % 64) := by
        intro hmod
        apply he
        omega
      rw [decide_eq_false hmod, decide_eq_false he]
  · rw [if_neg h]
    have : ¬ (w = v) := by rintro rfl; exact h rfl
    simp [this]

/-- `from_array` keeps 1024 words. -/
theorem from_array_length (a : ArrayContainer) :
    (from_array a).bits.length = 1024 := by
  unfold from_array
  have : ∀ (l : List Nat) (b : BitmapContainer),
      (l.foldl insert_unchecked b).bits.length = b.bits.length := by
    intro l
    induction l with
    | nil => intro b; rfl
    | cons v rest ih =>
      intro b
      rw [List.foldl_cons, ih, length_insert_unchecked]
  rw [this]
  rw [show (new : BitmapContainer).bits = List.replicate 1024 0 from rfl,
    List.length_replicate]

/-- `from_array` counts one per inserted value. -/
theorem from_array_cardinality (a : ArrayContainer) :
    (from_array a).cardinality = a.values.length := by
  unfold from_array
  have : ∀ (l : List Nat) (b : BitmapContainer),
      (l.foldl insert_unchecked b).cardinality = b.cardinality + l.length := by
    intro l
    induction l with
    | nil => intro b; simp
    | cons v rest ih =>
      intro b
      rw [List.foldl_cons, ih]
      unfold insert_unchecked
      simp only [List.length_cons]
      omega
  rw [this]
  show 0 + a.values.length = a.values.length
  omega

/-- `contains` over `from_array`: membership in the source array. -/
theorem contains_from_array (a : ArrayContainer) (w : Nat)
    (hvals : ∀ v ∈ a.values, v < 65536) :
    contains (from_array a) w = decide (w ∈ a.values) := by
  unfold from_array
  have main : ∀ (l : List Nat) (b : BitmapContainer), b.bits.length = 1024 →
      (∀ v ∈ l, v < 65536) →
      contains (l.foldl insert_unchecked b) w = (contains b w || decide (w ∈ l)) := by
    intro l
    induction l with
    | nil => intro b _ _; simp
    | cons v rest ih =>
      intro b hb hbnd
      rw [List.foldl_cons,
        ih (insert_unchecked b v) (by rw [length_insert_unchecked, hb])
          (fun x hx => hbnd x (List.mem_cons_of_mem _ hx)),
        contains_insert_unchecked b v w hb (hbnd v (List.mem_cons_self _ _))]
      simp only [List.mem_cons]
      by_cases h1 : w = v <;> by_cases h2 : w ∈ rest <;> simp [h1, h2]
  rw [main a.values new (by
    rw [show (new : BitmapContainer).bits = List.replicate 1024 0 from rfl,
      List.length_replicate]) hvals]
  have : contains new w = false := by
    unfold contains
    rw [word_new]
    exact Nat.zero_testBit _
  rw [this]
  simp

/-- `BitmapContainer::insert` preserves the bitmap invariant. -/
theorem BInv_insert (b : BitmapContainer) (v : Nat) (h : b.Inv) (hv : v < 65536) :
    ((BitmapContainer.insert b v).1).Inv := by
  obtain ⟨hlen, hcard⟩ := h
  unfold BitmapContainer.insert
  by_cases ht : (word b (v / 64)).testBit (v % 64)
  · rw [if_pos ht]
    exact ⟨hlen, hcard⟩
  · rw [if_neg ht]
    refine ⟨by rw [List.length_set]; exact hlen, ?_⟩
    show b.cardinality + 1 = popTotal (b.bits.set (v / 64) _)
    have hidx : v / 64 < b.bits.length := by rw [hlen]; omega
    have hset := popTotal_set b.bits (v / 64) hidx
      (word b (v / 64) ||| (1 <<< (v % 64)))
    have hpc := popCount64_or_bit (word b (v / 64)) (v % 64) (by omega)
      (by simpa using ht)
    unfold word at hset hpc ⊢
    omega

/-- `BitmapContainer::remove` preserves the bitmap invariant. -/
theorem BInv_remove (b : BitmapContainer) (v : Nat) (h : b.Inv) :
    ((BitmapContainer.remove b v).1).Inv := by
  obtain ⟨hlen, hcard⟩ := h
  unfold BitmapContainer.remove
  by_cases ht : (word b (v / 64)).testBit (v % 64)
  · rw [if_pos ht]
    refine ⟨by rw [List.length_set]; exact hlen, ?_⟩
    show b.cardinality - 1 = popTotal (b.bits.set (v / 64) _)
    by_cases hidx : v / 64 < b.bits.length
    · have hset := popTotal_set b.bits (v / 64) hidx
        (word b (v / 64) &&& notMask (v % 64))
      have hpc := popCount64_clear_bit (word b (v / 64)) (v % 64) (by omega) ht
      unfold word at hset hpc ⊢
      omega
    · exfalso
      have : word b (v / 64) = 0 := by
        unfold word
        rw [List.getD_eq_getElem?_getD, List.getElem?_eq_none (by omega)]
        rfl
      rw [this, Nat.zero_testBit] at ht
      exact Bool.false_ne_true ht
  · rw [if_neg ht]
    exact ⟨hlen, hcard⟩

/-- Frame property of `BitmapContainer::remove`: other bits unchanged. -/
theorem contains_remove_bitmap (b : BitmapContainer) (v w : Nat) (hne : w ≠ v)
    (hw : w < 65536) :
    contains ((BitmapContainer.remove b v).1) w = contains b w := by
  unfold BitmapContainer.remove
  by_cases ht : (word b (v / 64)).testBit (v % 64)
  · rw [if_pos ht]
    show ((⟨b.bits.set (v / 64) _, _⟩ : BitmapContainer)).contains w = _
    unfold contains word
    by_cases h : w / 64 = v / 64
    · rw [h]
      by_cases hidx : v / 64 < b.bits.length
      · rw [getD_set_self hidx]
        show (BitmapContainer.word b (v / 64) &&& notMask (v % 64)).testBit (w % 64)
          = (b.bits.getD (v / 64) 0).testBit (w % 64)
        rw [testBit_clear_bit _ _ _ (show w % 64 < 64 by omega)]
        have hmod : ¬ (v % 64 = w % 64) := by
          intro hmod
          apply hne
          omega
        rw [decide_eq_false hmod]
        simp [word]
      · rw [List.set_eq_of_length_le (by omega)]
    · rw [getD_set_other (fun he => h he.symm)]
  · rw [if_neg ht]

/-- `contains` after the checked `insert`. -/
theorem contains_insert_bitmap (b : BitmapContainer) (v w : Nat)
    (hb : b.bits.length = 1024) (hv : v < 65536) :
    contains ((BitmapContainer.insert b v).1) w = (contains b w || decide (w = v)) := by
  unfold BitmapContainer.insert
  by_cases ht : (word b (v / 64)).testBit (v % 64)
  · rw [if_pos ht]
    show contains b w = _
    by_cases he : w = v
    · subst he
      unfold contains
      simp [ht]
    · simp [he]
  · rw [if_neg ht]
    show contains (⟨b.bits.set (v / 64) _, _⟩ : BitmapContainer) w = _
    have : (⟨b.bits.set (v / 64) (word b (v / 64) ||| (1 <<< (v % 64))),
        b.cardinality + 1⟩ : BitmapContainer) = insert_unchecked b v := rfl
    rw [this, contains_insert_unchecked b v w hb hv]

end Roaring

namespace Roaring

open BitmapContainer

/-- An if-some-none `filterMap` is a map over a filter. -/
theorem filterMap_if_eq_map_filter (p : Nat → Bool) (f : Nat → Nat) :
    ∀ (l : List Nat),
      l.filterMap (fun x => if p x then some (f x) else none) = (l.filter p).map f := by
  intro l
  induction l with
  | nil => rfl
  | cons a t ih =>
    by_cases h : p a <;> simp [List.filterMap_cons, List.filter_cons, h, ih]

/-- The `to_array` scan and the iteration scan agree (the zero-word guard
skips only empty blocks). -/
theorem to_array_values_eq_toList (b : BitmapContainer) :
    (BitmapContainer.to_array b).values = BitmapContainer.toList b := by
  simp only [BitmapContainer.to_array, BitmapContainer.toList]
  rw [List.flatMap_def, List.flatMap_def]
  refine congrArg List.flatten (List.map_congr_left ?_)
  intro i _
  by_cases h : word b i ≠ 0
  · rw [if_pos h]
  · rw [if_neg h]
    push_neg at h
    rw [h]
    have hall : ∀ bit ∈ List.range 64,
        (if (0 : Nat).testBit bit then some (i * 64 + bit) else none) = none := by
      intro bit _
      rw [Nat.zero_testBit]
      rfl
    rw [List.filterMap_eq_nil_iff.mpr hall]

/-- Membership in the bitmap scan is exactly the bit test. -/
theorem mem_bitmap_toList (b : BitmapContainer) (w : Nat) :
    w ∈ BitmapContainer.toList b ↔ (w < 65536 ∧ contains b w = true) := by
  unfold BitmapContainer.toList
  simp only [List.mem_flatMap, List.mem_filterMap, List.mem_range]
  constructor
  · rintro ⟨i, hi, bit, hbit, heq⟩
    by_cases ht : (word b i).testBit bit
    · rw [if_pos ht] at heq
      obtain rfl : i * 64 + bit = w := by simpa using heq
      have hbit64 : bit < 64 := by simpa using hbit
      refine ⟨by omega, ?_⟩
      unfold contains
      have hdiv : (i * 64 + bit) / 64 = i := by omega
      have hmod : (i * 64 + bit) % 64 = bit := by omega
      rw [hdiv, hmod]
      exact ht
    · rw [if_neg ht] at heq
      simp at heq
  · rintro ⟨hw, hc⟩
    unfold contains at hc
    refine ⟨w / 64, by omega, w % 64, by omega, ?_⟩
    rw [if_pos hc]
    congr 1
    omega

/-- The bitmap scan is strictly increasing. -/
theorem bitmap_toList_pairwise (b : BitmapContainer) :
    List.Pairwise (· < ·) (BitmapContainer.toList b) := by
  unfold BitmapContainer.toList
  rw [List.flatMap_def, List.pairwise_flatten]
  constructor
  · intro l hl
    simp only [List.mem_map, List.mem_range] at hl
    obtain ⟨i, _, rfl⟩ := hl
    rw [filterMap_if_eq_map_filter, List.pairwise_map]
    refine List.Pairwise.imp ?_
      ((List.pairwise_lt_range 64).sublist (List.filter_sublist _))
    intro a b hab
    omega
  · rw [List.pairwise_map]
    refine (List.pairwise_lt_range 1024).imp ?_
    intro i j hij x hx y hy
    rw [filterMap_if_eq_map_filter] at hx hy
    simp only [List.mem_map, List.mem_filter, List.mem_range] at hx hy
    obtain ⟨bx, ⟨hbx, _⟩, rfl⟩ := hx
    obtain ⟨by', ⟨hby, _⟩, rfl⟩ := hy
    omega

/-- The bitmap scan emits 16-bit values. -/
theorem bitmap_toList_bound (b : BitmapContainer) :
    ∀ w ∈ BitmapContainer.toList b, w < 65536 := by
  intro w hw
  exact ((mem_bitmap_toList b w).mp hw).1

/-- The bitmap scan has exactly `popTotal` entries. -/
theorem bitmap_toList_length (b : BitmapContainer) (hb : b.bits.length = 1024) :
    (BitmapContainer.toList b).length = popTotal b.bits := by
  unfold BitmapContainer.toList
  rw [List.length_flatMap]
  simp only [Function.comp_def]
  have h1 : ∀ i : Nat,
      ((List.range 64).filterMap (fun bit =>
        if (word b i).testBit bit then some (i * 64 + bit) else none)).length
        = popCount64 (word b i) := by
    intro i
    rw [filterMap_if_eq_map_filter, List.length_map]
    rfl
  have h2 : (List.range 1024).map (fun i =>
      ((List.range 64).filterMap (fun bit =>
        if (word b i).testBit bit then some (i * 64 + bit) else none)).length)
      = (List.range 1024).map (fun i => popCount64 (word b i)) :=
    List.map_congr_left (fun i _ => h1 i)
  rw [h2]
  show ((List.range 1024).map (fun i => popCount64 (b.bits.getD i 0))).sum = _
  have h3 : (List.range 1024).map (fun i => popCount64 (b.bits.getD i 0))
      = (List.range 1024).map (popCount64 ∘ (fun i => b.bits.getD i 0)) := rfl
  rw [h3, ← List.map_map, ← hb, map_getD_range]
  rfl

/-- An empty bitmap container (by its cached cardinality, under the
invariant) contains nothing. -/
theorem bitmap_empty_no_mem (b : BitmapContainer) (h : b.Inv)
    (hc : b.cardinality = 0) (w : Nat) : contains b w = false := by
  obtain ⟨hlen, hcard⟩ := h
  rw [hc] at hcard
  unfold contains
  by_cases hbit : (word b (w / 64)).testBit (w % 64)
  · exfalso
    have hpc : popCount64 (word b (w / 64)) = 0 := by
      by_cases hidx : w / 64 < b.bits.length
      · have hmem : b.bits.getD (w / 64) 0 ∈ b.bits := by
          rw [List.getD_eq_getElem?_getD, List.getElem?_eq_getElem hidx]
          exact List.getElem_mem _
        have hin : popCount64 (b.bits.getD (w / 64) 0)
            ∈ b.bits.map popCount64 := List.mem_map_of_mem _ hmem
        unfold popTotal at hcard
        exact List.sum_eq_zero_iff.mp hcard.symm _ hin
      · unfold word
        rw [List.getD_eq_getElem?_getD, List.getElem?_eq_none (by omega)]
        rfl
    unfold popCount64 at hpc
    rw [List.length_eq_zero] at hpc
    have : (w % 64) ∈ (List.range 64).filter (fun bit => (word b (w / 64)).testBit bit) := by
      rw [List.mem_filter]
      exact ⟨List.mem_range.mpr (by omega), hbit⟩
    rw [hpc] at this
    cases this
  · simpa using hbit

end Roaring

/-! ## Run container lemmas -/

namespace Roaring

instance : IsTrans (Nat × Nat) runRel :=
  ⟨fun a b c hab hbc => by unfold runRel at *; omega⟩

/-- The run invariant through `Pairwise`. -/
theorem RInv_iff (r : RunContainer) :
    r.Inv ↔ (List.Pairwise runRel r.runs ∧ ∀ p ∈ r.runs, p.1 + p.2 < 65536) := by
  unfold RunContainer.Inv
  rw [List.chain'_iff_pairwise]

/-- The array invariant through `Pairwise`. -/
theorem AInv_iff (a : ArrayContainer) :
    a.Inv ↔ (List.Pairwise (· < ·) a.values ∧ ∀ v ∈ a.values, v < 65536) := by
  unfold ArrayContainer.Inv
  rw [List.chain'_iff_pairwise]

/-- The run expansion and the run iteration scan agree. -/
theorem run_to_array_eq_toList (r : RunContainer) :
    (RunContainer.to_array r).values = RunContainer.toList r := rfl

/-- Membership in the run scan is coverage by some run. -/
theorem mem_run_toList (r : RunContainer) (w : Nat) :
    w ∈ RunContainer.toList r ↔ ∃ p ∈ r.runs, p.1 ≤ w ∧ w ≤ p.1 + p.2 := by
  unfold RunContainer.toList
  simp only [List.mem_flatMap, List.mem_map, List.mem_range]
  constructor
  · rintro ⟨p, hp, o, ho, rfl⟩
    exact ⟨p, hp, by omega, by omega⟩
  · rintro ⟨p, hp, h1, h2⟩
    exact ⟨p, hp, w - p.1, by omega, by omega⟩

/-- The run scan of a well-formed run container is strictly increasing. -/
theorem run_toList_pairwise (r : RunContainer) (h : List.Pairwise runRel r.runs) :
    List.Pairwise (· < ·) (RunContainer.toList r) := by
  unfold RunContainer.toList
  rw [List.flatMap_def, List.pairwise_flatten]
  constructor
  · intro l hl
    simp only [List.mem_map] at hl
    obtain ⟨p, _, rfl⟩ := hl
    rw [List.pairwise_map]
    refine List.Pairwise.imp ?_ (List.pairwise_lt_range _)
    intro a b hab
    omega
  · rw [List.pairwise_map]
    refine h.imp ?_
    intro p q hpq x hx y hy
    simp only [List.mem_map, List.mem_range] at hx hy
    obtain ⟨ox, hox, rfl⟩ := hx
    obtain ⟨oy, hoy, rfl⟩ := hy
    unfold runRel at hpq
    omega

/-- The run scan emits 16-bit values when the run ends are bounded. -/
theorem run_toList_bound (r : RunContainer) (h : ∀ p ∈ r.runs, p.1 + p.2 < 65536) :
    ∀ w ∈ RunContainer.toList r, w < 65536 := by
  intro w hw
  obtain ⟨p, hp, _, h2⟩ := (mem_run_toList r w).mp hw
  have := h p hp
  omega

/-- The run scan length is the run container length. -/
theorem run_toList_length (r : RunContainer) :
    (RunContainer.toList r).length = RunContainer.len r := by
  unfold RunContainer.toList RunContainer.len
  rw [List.length_flatMap]
  congr 1
  apply List.map_congr_left
  intro p _
  simp

/-- `containsRuns` decides coverage on sorted runs. -/
theorem containsRuns_iff : ∀ (runs : List (Nat × Nat)), List.Pairwise runRel runs →
    ∀ w, (RunContainer.containsRuns runs w = true ↔ ∃ p ∈ runs, p.1 ≤ w ∧ w ≤ p.1 + p.2) := by
  intro runs
  induction runs with
  | nil => intro _ w; simp [RunContainer.containsRuns]
  | cons p rest ih =>
    intro hpw w
    obtain ⟨s, l⟩ := p
    obtain ⟨hrel, hrest⟩ := List.pairwise_cons.mp hpw
    rw [RunContainer.containsRuns]
    by_cases h1 : s ≤ w ∧ w ≤ s + l
    · rw [if_pos h1]
      exact ⟨fun _ => ⟨(s, l), List.mem_cons_self _ _, h1.1, h1.2⟩, fun _ => rfl⟩
    · rw [if_neg h1]
      by_cases h2 : w < s
      · rw [if_pos h2]
        constructor
        · intro hf
          exact absurd hf (by simp)
        · rintro ⟨q, hq, hq1, hq2⟩
          exfalso
          rcases List.mem_cons.mp hq with rfl | hq
          · omega
          · have := hrel q hq
            unfold runRel at this
            omega
      · rw [if_neg h2]
        rw [ih hrest w]
        constructor
        · rintro ⟨q, hq, hcov⟩
          exact ⟨q, List.mem_cons_of_mem _ hq, hcov⟩
        · rintro ⟨q, hq, hcov1, hcov2⟩
          rcases List.mem_cons.mp hq with rfl | hq
          · omega
          · exact ⟨q, hq, hcov1, hcov2⟩

end Roaring

namespace Roaring

/-- `RunContainer::insert` preserves the run invariants; every run of the
result either starts no earlier than an original run or no earlier than the
inserted value. -/
theorem insertRuns_inv : ∀ (runs : List (Nat × Nat)) (v : Nat),
    List.Pairwise runRel runs → (∀ p ∈ runs, p.1 + p.2 < 65536) → v < 65536 →
      List.Pairwise runRel (RunContainer.insertRuns runs v).1 ∧
      (∀ p ∈ (RunContainer.insertRuns runs v).1, p.1 + p.2 < 65536) ∧
      (∀ p ∈ (RunContainer.insertRuns runs v).1,
        (∃ q ∈ runs, q.1 ≤ p.1) ∨ v ≤ p.1) := by
  intro runs
  induction runs with
  | nil =>
    intro v _ _ hv
    refine ⟨by simp [RunContainer.insertRuns], ?_, ?_⟩
    · intro p hp
      simp only [RunContainer.insertRuns, List.mem_singleton] at hp
      subst hp
      simpa using hv
    · intro p hp
      simp only [RunContainer.insertRuns, List.mem_singleton] at hp
      subst hp
      simp
  | cons hd rest ih =>
    obtain ⟨s, l⟩ := hd
    intro v hpw hbnd hv
    obtain ⟨hrel, hrest⟩ := List.pairwise_cons.mp hpw
    have hbhd : s + l < 65536 := hbnd (s, l) (List.mem_cons_self _ _)
    have hbtl : ∀ p ∈ rest, p.1 + p.2 < 65536 :=
      fun p hp => hbnd p (List.mem_cons_of_mem _ hp)
    cases rest with
    | nil =>
      rw [RunContainer.insertRuns]
      by_cases h1 : v < s
      · rw [if_pos h1]
        by_cases h2 : v + 1 = s
        · rw [if_pos h2]
          refine ⟨by simp, ?_, ?_⟩
          · intro p hp
            simp only [List.mem_singleton] at hp
            subst hp
            simp only
            omega
          · intro p hp
            simp only [List.mem_singleton] at hp
            subst hp
            right; exact le_refl v
        · rw [if_neg h2]
          refine ⟨?_, ?_, ?_⟩
          · refine List.pairwise_cons.mpr ⟨?_, by simp⟩
            intro q hq
            simp only [List.mem_singleton] at hq
            subst hq
            unfold runRel
            simp
            omega
          · intro p hp
            rcases List.mem_cons.mp hp with rfl | hp
            · simp; omega
            · simp only [List.mem_singleton] at hp
              subst hp
              exact hbhd
          · intro p hp
            rcases List.mem_cons.mp hp with rfl | hp
            · right; exact le_refl v
            · simp only [List.mem_singleton] at hp
              subst hp
              left; exact ⟨(s, l), List.mem_cons_self _ _, le_refl _⟩
      · rw [if_neg h1]
        by_cases h3 : v = s
        · rw [if_pos h3]
          exact ⟨hpw, hbnd, fun p hp => Or.inl ⟨p, hp, le_refl _⟩⟩
        · rw [if_neg h3]
          by_cases h4 : v ≤ s + l
          · rw [if_pos h4]
            exact ⟨hpw, hbnd, fun p hp => Or.inl ⟨p, hp, le_refl _⟩⟩
          · rw [if_neg h4]
            by_cases h5 : v = s + l + 1
            · rw [if_pos h5]
              refine ⟨by simp, ?_, ?_⟩
              · intro p hp
                simp only [List.mem_singleton] at hp
                subst hp
                simp only
                omega
              · intro p hp
                simp only [List.mem_singleton] at hp
                subst hp
                left
                exact ⟨(s, l), List.mem_cons_self _ _, le_refl _⟩
            · rw [if_neg h5]
              refine ⟨?_, ?_, ?_⟩
              · refine List.pairwise_cons.mpr ⟨?_, by simp⟩
                intro q hq
                simp only [List.mem_singleton] at hq
                subst hq
                unfold runRel
                simp
                omega
              · intro p hp
                rcases List.mem_cons.mp hp with rfl | hp
                · exact hbhd
                · simp only [List.mem_singleton] at hp
                  subst hp
                  simp
                  omega
              · intro p hp
                rcases List.mem_cons.mp hp with rfl | hp
                · left; exact ⟨(s, l), List.mem_cons_self _ _, le_refl _⟩
                · simp only [List.mem_singleton] at hp
                  subst hp
                  right
                  exact le_refl v
    | cons hd2 rest2 =>
      obtain ⟨s2, l2⟩ := hd2
      have hrel2 : s + l + 1 < s2 := hrel (s2, l2) (List.mem_cons_self _ _)
      obtain ⟨hrel2t, hrest2⟩ := List.pairwise_cons.mp hrest
      have hb2 : s2 + l2 < 65536 := hbtl (s2, l2) (List.mem_cons_self _ _)
      rw [RunContainer.insertRuns]
      by_cases h1 : v < s
      · rw [if_pos h1]
        by_cases h2 : v + 1 = s
        · rw [if_pos h2]
          refine ⟨?_, ?_, ?_⟩
          · refine List.pairwise_cons.mpr ⟨?_, hrest⟩
            intro q hq
            have := hrel q hq
            unfold runRel at *
            omega
          · intro p hp
            rcases List.mem_cons.mp hp with rfl | hp
            · simp only
              omega
            · exact hbtl p hp
          · intro p hp
            rcases List.mem_cons.mp hp with rfl | hp
            · right; exact le_refl v
            · left; exact ⟨p, List.mem_cons_of_mem _ hp, le_refl _⟩
        · rw [if_neg h2]
          refine ⟨?_, ?_, ?_⟩
          · refine List.pairwise_cons.mpr ⟨?_, hpw⟩
            intro q hq
            rcases List.mem_cons.mp hq with rfl | hq
            · unfold runRel; simp; omega
            · have := hrel q hq
              unfold runRel at *
              simp at *
              omega
          · intro p hp
            rcases List.mem_cons.mp hp with rfl | hp
            · simp; omega
            · exact hbnd p hp
          · intro p hp
            rcases List.mem_cons.mp hp with rfl | hp
            · right; exact le_refl v
            · left; exact ⟨p, hp, le_refl _⟩
      · rw [if_neg h1]
        by_cases h3 : v = s
        · rw [if_pos h3]
          exact ⟨hpw, hbnd, fun p hp => Or.inl ⟨p, hp, le_refl _⟩⟩
        · rw [if_neg h3]
          have hvs : s < v := by omega
          by_cases h5 : s2 ≤ v
          · rw [if_pos h5]
            dsimp only
            obtain ⟨ihp, ihb, ihs⟩ := ih v hrest hbtl hv
            refine ⟨?_, ?_, ?_⟩
            · refine List.pairwise_cons.mpr ⟨?_, ihp⟩
              intro p hp
              rcases ihs p hp with ⟨q, hq, hqle⟩ | hvle
              · have := hrel q hq
                unfold runRel at *
                omega
              · unfold runRel
                simp
                omega
            · intro p hp
              rcases List.mem_cons.mp hp with rfl | hp
              · exact hbhd
              · exact ihb p hp
            · intro p hp
              rcases List.mem_cons.mp hp with rfl | hp
              · left; exact ⟨(s, l), List.mem_cons_self _ _, le_refl _⟩
              · rcases ihs p hp with ⟨q, hq, hqle⟩ | hvle
                · left; exact ⟨q, List.mem_cons_of_mem _ hq, hqle⟩
                · right; exact hvle
          · rw [if_neg h5]
            have hvs2 : v < s2 := by omega
            by_cases h4 : v ≤ s + l
            · rw [if_pos h4]
              exact ⟨hpw, hbnd, fun p hp => Or.inl ⟨p, hp, le_refl _⟩⟩
            · rw [if_neg h4]
              by_cases h6 : v = s + l + 1
              · rw [if_pos h6]
                by_cases h7 : v + 1 = s2
                · rw [if_pos h7]
                  refine ⟨?_, ?_, ?_⟩
                  · refine List.pairwise_cons.mpr ⟨?_, hrest2⟩
                    intro q hq
                    have := hrel2t q hq
                    unfold runRel at *
                    simp at *
                    omega
                  · intro p hp
                    rcases List.mem_cons.mp hp with rfl | hp
                    · simp; omega
                    · exact hbtl p (List.mem_cons_of_mem _ hp)
                  · intro p hp
                    rcases List.mem_cons.mp hp with rfl | hp
                    · left; exact ⟨(s, l), List.mem_cons_self _ _, le_refl _⟩
                    · left
                      exact ⟨p, List.mem_cons_of_mem _ (List.mem_cons_of_mem _ hp),
                        le_refl _⟩
                · rw [if_neg h7]
                  refine ⟨?_, ?_, ?_⟩
                  · refine List.pairwise_cons.mpr ⟨?_, hrest⟩
                    intro q hq
                    rcases List.mem_cons.mp hq with rfl | hq
                    · unfold runRel
                      simp
                      omega
                    · have := hrel2t q hq
                      unfold runRel at *
                      simp at *
                      omega
                  · intro p hp
                    rcases List.mem_cons.mp hp with rfl | hp
                    · simp; omega
                    · exact hbtl p hp
                  · intro p hp
                    rcases List.mem_cons.mp hp with rfl | hp
                    · left; exact ⟨(s, l), List.mem_cons_self _ _, le_refl _⟩
                    · left; exact ⟨p, List.mem_cons_of_mem _ hp, le_refl _⟩
              · rw [if_neg h6]
                by_cases h7 : v + 1 = s2
                · rw [if_pos h7]
                  refine ⟨?_, ?_, ?_⟩
                  · refine List.pairwise_cons.mpr ⟨?_, ?_⟩
                    · intro q hq
                      rcases List.mem_cons.mp hq with rfl | hq
                      · unfold runRel
                        simp
                        omega
                      · have := hrel2t q hq
                        unfold runRel at *
                        simp at *
                        omega
                    · refine List.pairwise_cons.mpr ⟨?_, hrest2⟩
                      intro q hq
                      have := hrel2t q hq
                      unfold runRel at *
                      simp at *
                      omega
                  · intro p hp
                    rcases List.mem_cons.mp hp with rfl | hp
                    · exact hbhd
                    · rcases List.mem_cons.mp hp with rfl | hp
                      · simp; omega
                      · exact hbtl p (List.mem_cons_of_mem _ hp)
                  · intro p hp
                    rcases List.mem_cons.mp hp with rfl | hp
                    · left; exact ⟨(s, l), List.mem_cons_self _ _, le_refl _⟩
                    · rcases List.mem_cons.mp hp with rfl | hp
                      · right; exact le_refl v
                      · left
                        exact ⟨p, List.mem_cons_of_mem _ (List.mem_cons_of_mem _ hp),
                          le_refl _⟩
                · rw [if_neg h7]
                  refine ⟨?_, ?_, ?_⟩
                  · refine List.pairwise_cons.mpr ⟨?_, ?_⟩
                    · intro q hq
                      rcases List.mem_cons.mp hq with rfl | hq
                      · unfold runRel
                        simp
                        omega
                      · exact hrel q hq
                    · refine List.pairwise_cons.mpr ⟨?_, hrest⟩
                      intro q hq
                      rcases List.mem_cons.mp hq with rfl | hq
                      · unfold runRel
                        simp
                        omega
                      · have := hrel2t q hq
                        unfold runRel at *
                        simp at *
                        omega
                  · intro p hp
                    rcases List.mem_cons.mp hp with rfl | hp
                    · exact hbhd
                    · rcases List.mem_cons.mp hp with rfl | hp
                      · simp; omega
                      · exact hbnd p (List.mem_cons_of_mem _ hp)
                  · intro p hp
                    rcases List.mem_cons.mp hp with rfl | hp
                    · left; exact ⟨(s, l), List.mem_cons_self _ _, le_refl _⟩
                    · rcases List.mem_cons.mp hp with rfl | hp
                      · right; exact le_refl v
                      · left
                        exact ⟨p, List.mem_cons_of_mem _ hp, le_refl _⟩

end Roaring

namespace Roaring

/-- `RunContainer::remove` preserves the run invariants; every run of the
result lies inside an original run. -/
theorem removeRuns_inv : ∀ (runs : List (Nat × Nat)) (v : Nat),
    List.Pairwise runRel runs → (∀ p ∈ runs, p.1 + p.2 < 65536) →
      List.Pairwise runRel (RunContainer.removeRuns runs v).1 ∧
      (∀ p ∈ (RunContainer.removeRuns runs v).1, p.1 + p.2 < 65536) ∧
      (∀ p ∈ (RunContainer.removeRuns runs v).1,
        ∃ q ∈ runs, q.1 ≤ p.1 ∧ p.1 + p.2 ≤ q.1 + q.2) := by
  intro runs
  induction runs with
  | nil =>
    intro v _ _
    refine ⟨by simp [RunContainer.removeRuns], ?_, ?_⟩ <;>
      · intro p hp
        simp [RunContainer.removeRuns] at hp
  | cons hd rest ih =>
    obtain ⟨s, l⟩ := hd
    intro v hpw hbnd
    obtain ⟨hrel, hrest⟩ := List.pairwise_cons.mp hpw
    have hbhd : s + l < 65536 := hbnd (s, l) (List.mem_cons_self _ _)
    have hbtl : ∀ p ∈ rest, p.1 + p.2 < 65536 :=
      fun p hp => hbnd p (List.mem_cons_of_mem _ hp)
    rw [RunContainer.removeRuns]
    by_cases h1 : s ≤ v ∧ v ≤ s + l
    · rw [if_pos h1]
      by_cases h2 : l = 0
      · rw [if_pos h2]
        exact ⟨hrest, hbtl,
          fun p hp => ⟨p, List.mem_cons_of_mem _ hp, le_refl _, le_refl _⟩⟩
      · rw [if_neg h2]
        by_cases h3 : v = s
        · rw [if_pos h3]
          refine ⟨?_, ?_, ?_⟩
          · refine List.pairwise_cons.mpr ⟨?_, hrest⟩
            intro q hq
            have := hrel q hq
            unfold runRel at *
            simp only at *
            omega
          · intro p hp
            rcases List.mem_cons.mp hp with rfl | hp
            · simp only
              omega
            · exact hbtl p hp
          · intro p hp
            rcases List.mem_cons.mp hp with rfl | hp
            · exact ⟨(s, l), List.mem_cons_self _ _, by simp, by simp; omega⟩
            · exact ⟨p, List.mem_cons_of_mem _ hp, le_refl _, le_refl _⟩
        · rw [if_neg h3]
          by_cases h4 : v = s + l
          · rw [if_pos h4]
            refine ⟨?_, ?_, ?_⟩
            · refine List.pairwise_cons.mpr ⟨?_, hrest⟩
              intro q hq
              have := hrel q hq
              unfold runRel at *
              simp only at *
              omega
            · intro p hp
              rcases List.mem_cons.mp hp with rfl | hp
              · simp only
                omega
              · exact hbtl p hp
            · intro p hp
              rcases List.mem_cons.mp hp with rfl | hp
              · exact ⟨(s, l), List.mem_cons_self _ _, le_refl _, by simp only; omega⟩
              · exact ⟨p, List.mem_cons_of_mem _ hp, le_refl _, le_refl _⟩
          · rw [if_neg h4]
            refine ⟨?_, ?_, ?_⟩
            · refine List.pairwise_cons.mpr ⟨?_, List.pairwise_cons.mpr ⟨?_, hrest⟩⟩
              · intro q hq
                rcases List.mem_cons.mp hq with rfl | hq
                · unfold runRel
                  simp only
                  omega
                · have := hrel q hq
                  unfold runRel at *
                  simp only at *
                  omega
              · intro q hq
                have := hrel q hq
                unfold runRel at *
                simp only at *
                omega
            · intro p hp
              rcases List.mem_cons.mp hp with rfl | hp
              · simp only
                omega
              · rcases List.mem_cons.mp hp with rfl | hp
                · simp only
                  omega
                · exact hbtl p hp
            · intro p hp
              rcases List.mem_cons.mp hp with rfl | hp
              · exact ⟨(s, l), List.mem_cons_self _ _, le_refl _, by simp; omega⟩
              · rcases List.mem_cons.mp hp with rfl | hp
                · exact ⟨(s, l), List.mem_cons_self _ _, by simp; omega, by simp; omega⟩
                · exact ⟨p, List.mem_cons_of_mem _ hp, le_refl _, le_refl _⟩
    · rw [if_neg h1]
      by_cases h5 : v < s
      · rw [if_pos h5]
        exact ⟨hpw, hbnd, fun p hp => ⟨p, hp, le_refl _, le_refl _⟩⟩
      · rw [if_neg h5]
        dsimp only
        obtain ⟨ihp, ihb, ihs⟩ := ih v hrest hbtl
        refine ⟨?_, ?_, ?_⟩
        · refine List.pairwise_cons.mpr ⟨?_, ihp⟩
          intro p hp
          obtain ⟨q, hq, hq1, hq2⟩ := ihs p hp
          have := hrel q hq
          unfold runRel at *
          omega
        · intro p hp
          rcases List.mem_cons.mp hp with rfl | hp
          · exact hbhd
          · exact ihb p hp
        · intro p hp
          rcases List.mem_cons.mp hp with rfl | hp
          · exact ⟨(s, l), List.mem_cons_self _ _, le_refl _, le_refl _⟩
          · obtain ⟨q, hq, hq1, hq2⟩ := ihs p hp
            exact ⟨q, List.mem_cons_of_mem _ hq, hq1, hq2⟩

/-- Removing `v` from a run list leaves every other value's coverage
unchanged. -/
theorem removeRuns_cover : ∀ (runs : List (Nat × Nat)) (v w : Nat), w ≠ v →
    ((∃ p ∈ (RunContainer.removeRuns runs v).1, p.1 ≤ w ∧ w ≤ p.1 + p.2) ↔
      (∃ p ∈ runs, p.1 ≤ w ∧ w ≤ p.1 + p.2)) := by
  intro runs
  induction runs with
  | nil =>
    intro v w _
    simp [RunContainer.removeRuns]
  | cons hd rest ih =>
    obtain ⟨s, l⟩ := hd
    intro v w hw
    rw [RunContainer.removeRuns]
    by_cases h1 : s ≤ v ∧ v ≤ s + l
    · rw [if_pos h1]
      by_cases h2 : l = 0
      · rw [if_pos h2]
        subst h2
        constructor
        · rintro ⟨p, hp, hc⟩
          exact ⟨p, List.mem_cons_of_mem _ hp, hc⟩
        · rintro ⟨p, hp, hc⟩
          rcases List.mem_cons.mp hp with rfl | hp
          · exfalso
            simp only at hc
            omega
          · exact ⟨p, hp, hc⟩
      · rw [if_neg h2]
        by_cases h3 : v = s
        · rw [if_pos h3]
          constructor
          · rintro ⟨p, hp, hc⟩
            rcases List.mem_cons.mp hp with rfl | hp
            · simp only at hc
              exact ⟨(s, l), List.mem_cons_self _ _, by simp only; omega⟩
            · exact ⟨p, List.mem_cons_of_mem _ hp, hc⟩
          · rintro ⟨p, hp, hc⟩
            rcases List.mem_cons.mp hp with rfl | hp
            · simp only at hc
              exact ⟨(s + 1, l - 1), List.mem_cons_self _ _, by simp only; omega⟩
            · exact ⟨p, List.mem_cons_of_mem _ hp, hc⟩
        · rw [if_neg h3]
          by_cases h4 : v = s + l
          · rw [if_pos h4]
            constructor
            · rintro ⟨p, hp, hc⟩
              rcases List.mem_cons.mp hp with rfl | hp
              · simp only at hc
                exact ⟨(s, l), List.mem_cons_self _ _, by simp only; omega⟩
              · exact ⟨p, List.mem_cons_of_mem _ hp, hc⟩
            · rintro ⟨p, hp, hc⟩
              rcases List.mem_cons.mp hp with rfl | hp
              · simp only at hc
                exact ⟨(s, l - 1), List.mem_cons_self _ _, by simp only; omega⟩
              · exact ⟨p, List.mem_cons_of_mem _ hp, hc⟩
          · rw [if_neg h4]
            constructor
            · rintro ⟨p, hp, hc⟩
              rcases List.mem_cons.mp hp with rfl | hp
              · simp only at hc
                exact ⟨(s, l), List.mem_cons_self _ _, by simp only; omega⟩
              · rcases List.mem_cons.mp hp with rfl | hp
                · simp only at hc
                  exact ⟨(s, l), List.mem_cons_self _ _, by simp only; omega⟩
                · exact ⟨p, List.mem_cons_of_mem _ hp, hc⟩
            · rintro ⟨p, hp, hc⟩
              rcases List.mem_cons.mp hp with rfl | hp
              · simp only at hc
                by_cases hlt : w < v
                · exact ⟨(s, v - s - 1), List.mem_cons_self _ _, by simp only; omega⟩
                · refine ⟨(v + 1, s + l - v - 1),
                    List.mem_cons_of_mem _ (List.mem_cons_self _ _), ?_⟩
                  simp only
                  omega
              · exact ⟨p, List.mem_cons_of_mem _ (List.mem_cons_of_mem _ hp), hc⟩
    · rw [if_neg h1]
      by_cases h5 : v < s
      · rw [if_pos h5]
      · rw [if_neg h5]
        dsimp only
        constructor
        · rintro ⟨p, hp, hc⟩
          rcases List.mem_cons.mp hp with rfl | hp
          · exact ⟨(s, l), List.mem_cons_self _ _, hc⟩
          · obtain ⟨q, hq, hqc⟩ := (ih v w hw).mp ⟨p, hp, hc⟩
            exact ⟨q, List.mem_cons_of_mem _ hq, hqc⟩
        · rintro ⟨p, hp, hc⟩
          rcases List.mem_cons.mp hp with rfl | hp
          · exact ⟨(s, l), List.mem_cons_self _ _, hc⟩
          · obtain ⟨q, hq, hqc⟩ := (ih v w hw).mpr ⟨p, hp, hc⟩
            exact ⟨q, List.mem_cons_of_mem _ hq, hqc⟩

end Roaring

namespace Roaring

/-- The `from_array` loop keeps the run invariants: given strictly ascending
input above `prev` and a current run reaching at most `prev`, the emitted
runs are ordered, bounded and start at or after the current run start. -/
theorem fromArrayLoop_inv : ∀ (rest : List Nat) (run_start run_length prev : Nat),
    List.Chain (· < ·) prev rest → (∀ x ∈ rest, x < 65536) → prev < 65536 →
    1 ≤ run_length → run_start + run_length ≤ prev + 1 →
      List.Pairwise runRel (RunContainer.fromArrayLoop rest run_start run_length prev) ∧
      (∀ p ∈ RunContainer.fromArrayLoop rest run_start run_length prev,
        p.1 + p.2 < 65536) ∧
      (∀ p ∈ RunContainer.fromArrayLoop rest run_start run_length prev,
        run_start ≤ p.1) := by
  intro rest
  induction rest with
  | nil =>
    intro s len prev _ _ hprev h1 h2
    rw [RunContainer.fromArrayLoop]
    refine ⟨by simp, ?_, ?_⟩
    · intro p hp
      simp only [List.mem_singleton] at hp
      subst hp
      simp only
      omega
    · intro p hp
      simp only [List.mem_singleton] at hp
      subst hp
      exact le_refl _
  | cons v rest ih =>
    intro s len prev hch hbnd hprev h1 h2
    obtain ⟨hpv, hch'⟩ := List.chain_cons.mp hch
    have hv : v < 65536 := hbnd v (List.mem_cons_self _ _)
    have hbnd' : ∀ x ∈ rest, x < 65536 := fun x hx => hbnd x (List.mem_cons_of_mem _ hx)
    rw [RunContainer.fromArrayLoop]
    by_cases hc : v = prev + 1
    · rw [if_pos hc]
      exact ih s (min (len + 1) 65535) v hch' hbnd' hv (by omega) (by omega)
    · rw [if_neg hc]
      obtain ⟨ihp, ihb, ihs⟩ := ih v 1 v hch' hbnd' hv (le_refl 1) (by omega)
      refine ⟨?_, ?_, ?_⟩
      · refine List.pairwise_cons.mpr ⟨?_, ihp⟩
        intro q hq
        have := ihs q hq
        unfold runRel
        simp only
        omega
      · intro p hp
        rcases List.mem_cons.mp hp with rfl | hp
        · simp only
          omega
        · exact ihb p hp
      · intro p hp
        rcases List.mem_cons.mp hp with rfl | hp
        · exact le_refl _
        · have := ihs p hp
          omega

/-- `RunContainer::from_array` of a valid array container is a valid run
container. -/
theorem RInv_from_array (a : ArrayContainer) (h : a.Inv) :
    (RunContainer.from_array a).Inv := by
  obtain ⟨vals⟩ := a
  obtain ⟨hpw, hbnd⟩ := (AInv_iff ⟨vals⟩).mp h
  simp only at hpw hbnd
  cases vals with
  | nil => exact ⟨trivial, by simp [RunContainer.from_array]⟩
  | cons v rest =>
    show RunContainer.Inv ⟨RunContainer.fromArrayLoop rest v 1 v⟩
    rw [RInv_iff]
    have hch : List.Chain (· < ·) v rest := hpw.chain'
    have hv : v < 65536 := hbnd v (List.mem_cons_self _ _)
    have hbnd' : ∀ x ∈ rest, x < 65536 := fun x hx => hbnd x (List.mem_cons_of_mem _ hx)
    obtain ⟨h1, h2, _⟩ := fromArrayLoop_inv rest v 1 v hch hbnd' hv (le_refl 1) (by omega)
    exact ⟨h1, h2⟩

/-- `BitmapContainer::to_array` always yields a valid array container. -/
theorem AInv_to_array (b : BitmapContainer) : (BitmapContainer.to_array b).Inv := by
  rw [AInv_iff]
  rw [to_array_values_eq_toList]
  exact ⟨bitmap_toList_pairwise b, bitmap_toList_bound b⟩

/-- `RunContainer::to_array` of a valid run container is a valid array
container. -/
theorem AInv_to_array_run (r : RunContainer) (h : r.Inv) :
    (RunContainer.to_array r).Inv := by
  obtain ⟨h1, h2⟩ := (RInv_iff r).mp h
  rw [AInv_iff]
  rw [run_to_array_eq_toList]
  exact ⟨run_toList_pairwise r h1, run_toList_bound r h2⟩

/-- Two strictly sorted lists with the same members are equal. -/
theorem sorted_eq_of_mem : ∀ (l1 l2 : List Nat),
    List.Pairwise (· < ·) l1 → List.Pairwise (· < ·) l2 →
    (∀ a, a ∈ l1 ↔ a ∈ l2) → l1 = l2 := by
  intro l1
  induction l1 with
  | nil =>
    intro l2 _ _ hm
    cases l2 with
    | nil => rfl
    | cons y ys =>
      exfalso
      exact absurd ((hm y).mpr (List.mem_cons_self _ _)) (List.not_mem_nil y)
  | cons x xs ih =>
    intro l2 hp1 hp2 hm
    cases l2 with
    | nil =>
      exfalso
      exact absurd ((hm x).mp (List.mem_cons_self _ _)) (List.not_mem_nil x)
    | cons y ys =>
      obtain ⟨hx1, hxs⟩ := List.pairwise_cons.mp hp1
      obtain ⟨hy1, hys⟩ := List.pairwise_cons.mp hp2
      have hxy : x = y := by
        have hx2 : x ∈ y :: ys := (hm x).mp (List.mem_cons_self _ _)
        have hy2 : y ∈ x :: xs := (hm y).mpr (List.mem_cons_self _ _)
        rcases List.mem_cons.mp hx2 with h | h
        · exact h
        · rcases List.mem_cons.mp hy2 with h' | h'
          · exact h'.symm
          · have := hx1 y h'
            have := hy1 x h
            omega
      subst hxy
      have hm' : ∀ a, a ∈ xs ↔ a ∈ ys := by
        intro a
        constructor
        · intro ha
          have := (hm a).mp (List.mem_cons_of_mem _ ha)
          rcases List.mem_cons.mp this with rfl | h
          · exact absurd (hx1 a ha) (lt_irrefl a)
          · exact h
        · intro ha
          have := (hm a).mpr (List.mem_cons_of_mem _ ha)
          rcases List.mem_cons.mp this with rfl | h
          · exact absurd (hy1 a ha) (lt_irrefl a)
          · exact h
      rw [ih ys hxs hys hm']

/-- `BitmapContainer::from_array` of a valid array container is a valid
bitmap container. -/
theorem BInv_from_array (a : ArrayContainer) (h : a.Inv) :
    (BitmapContainer.from_array a).Inv := by
  obtain ⟨hpw, hbnd⟩ := (AInv_iff a).mp h
  refine ⟨from_array_length a, ?_⟩
  rw [from_array_cardinality a]
  rw [← bitmap_toList_length _ (from_array_length a)]
  have : BitmapContainer.toList (BitmapContainer.from_array a) = a.values := by
    apply sorted_eq_of_mem
    · exact bitmap_toList_pairwise _
    · exact hpw
    · intro w
      rw [mem_bitmap_toList, contains_from_array a w hbnd]
      constructor
      · intro h'
        exact of_decide_eq_true h'.2
      · intro h'
        exact ⟨hbnd w h', decide_eq_true h'⟩
  rw [this]

end Roaring

namespace Roaring

/-- `ArrayContainer::insert` preserves the array invariant. -/
theorem AInv_insert (a : ArrayContainer) (v : Nat) (h : a.Inv) (hv : v < 65536) :
    ((ArrayContainer.insert a v).1).Inv := by
  rw [AInv_iff] at h ⊢
  refine ⟨insertVals_pairwise a.values v h.1, ?_⟩
  intro w hw
  rcases (mem_insertVals a.values v w).mp hw with rfl | hw
  · exact hv
  · exact h.2 w hw

/-- `ArrayContainer::remove` preserves the array invariant. -/
theorem AInv_remove (a : ArrayContainer) (v : Nat) (h : a.Inv) :
    ((ArrayContainer.remove a v).1).Inv := by
  rw [AInv_iff] at h ⊢
  have hs := removeVals_sublist a.values v
  exact ⟨h.1.sublist hs, fun w hw => h.2 w (hs.mem hw)⟩

/-- `ArrayContainer::union` preserves the array invariant. -/
theorem AInv_union (a b : ArrayContainer) (ha : a.Inv) (hb : b.Inv) :
    (ArrayContainer.union a b).Inv := by
  rw [AInv_iff] at ha hb ⊢
  refine ⟨unionVals_pairwise a.values b.values ha.1 hb.1, ?_⟩
  intro w hw
  rcases (mem_unionVals a.values b.values w).mp hw with hw | hw
  · exact ha.2 w hw
  · exact hb.2 w hw

/-- `ArrayContainer::intersection` yields a valid array container. -/
theorem AInv_inter (a b : ArrayContainer) (ha : a.Inv) :
    ∀ e, ArrayContainer.intersection a b = some e → e.Inv := by
  intro e he
  unfold ArrayContainer.intersection at he
  by_cases hne : (ArrayContainer.interVals a.values b.values).isEmpty
  · rw [if_pos hne] at he
    exact absurd he (by simp)
  · rw [if_neg hne] at he
    obtain rfl := (Option.some_injective _ he).symm
    rw [AInv_iff] at ha ⊢
    have hs := interVals_sublist a.values b.values
    exact ⟨ha.1.sublist hs, fun w hw => ha.2 w (hs.mem hw)⟩

/-- `ArrayContainer::difference` yields a valid array container. -/
theorem AInv_diff (a b : ArrayContainer) (ha : a.Inv) :
    ∀ e, ArrayContainer.difference a b = some e → e.Inv := by
  intro e he
  unfold ArrayContainer.difference at he
  by_cases hne : (ArrayContainer.diffVals a.values b.values).isEmpty
  · rw [if_pos hne] at he
    exact absurd he (by simp)
  · rw [if_neg hne] at he
    obtain rfl := (Option.some_injective _ he).symm
    rw [AInv_iff] at ha ⊢
    have hs := diffVals_sublist a.values b.values
    exact ⟨ha.1.sublist hs, fun w hw => ha.2 w (hs.mem hw)⟩

/-- `ArrayContainer::symmetric_difference` yields a valid array container. -/
theorem AInv_symm (a b : ArrayContainer) (ha : a.Inv) (hb : b.Inv) :
    ∀ e, ArrayContainer.symmetric_difference a b = some e → e.Inv := by
  intro e he
  unfold ArrayContainer.symmetric_difference at he
  by_cases hne : (ArrayContainer.symmVals a.values b.values).isEmpty
  · rw [if_pos hne] at he
    exact absurd he (by simp)
  · rw [if_neg hne] at he
    obtain rfl := (Option.some_injective _ he).symm
    rw [AInv_iff] at ha hb ⊢
    refine ⟨symmVals_pairwise a.values b.values ha.1 hb.1, ?_⟩
    intro w hw
    rcases mem_symmVals_sub a.values b.values w hw with hw | hw
    · exact ha.2 w hw
    · exact hb.2 w hw

/-- A filtered valid array container is valid. -/
theorem AInv_filter (a : ArrayContainer) (p : Nat → Bool) (h : a.Inv) :
    ArrayContainer.Inv ⟨a.values.filter p⟩ := by
  rw [AInv_iff] at h ⊢
  exact ⟨h.1.filter p, fun w hw => h.2 w (List.mem_of_mem_filter hw)⟩

/-- `RunContainer::insert` preserves the run invariant. -/
theorem RInv_insert (r : RunContainer) (v : Nat) (h : r.Inv) (hv : v < 65536) :
    ((RunContainer.insert r v).1).Inv := by
  obtain ⟨h1, h2⟩ := (RInv_iff r).mp h
  rw [RInv_iff]
  obtain ⟨g1, g2, _⟩ := insertRuns_inv r.runs v h1 h2 hv
  exact ⟨g1, g2⟩

/-- `RunContainer::remove` preserves the run invariant. -/
theorem RInv_remove (r : RunContainer) (v : Nat) (h : r.Inv) :
    ((RunContainer.remove r v).1).Inv := by
  obtain ⟨h1, h2⟩ := (RInv_iff r).mp h
  rw [RInv_iff]
  obtain ⟨g1, g2, _⟩ := removeRuns_inv r.runs v h1 h2
  exact ⟨g1, g2⟩

/-- `RunContainer::union` yields a valid run container. -/
theorem RInv_union (a b : RunContainer) (ha : a.Inv) (hb : b.Inv) :
    (RunContainer.union a b).Inv :=
  RInv_from_array _ (AInv_union _ _ (AInv_to_array_run a ha) (AInv_to_array_run b hb))

/-- `RunContainer::intersection` yields a valid run container. -/
theorem RInv_inter (a b : RunContainer) (ha : a.Inv) :
    ∀ e, RunContainer.intersection a b = some e → e.Inv := by
  intro e he
  unfold RunContainer.intersection at he
  obtain ⟨arr, harr, rfl⟩ := Option.map_eq_some'.mp he
  exact RInv_from_array _ (AInv_inter _ _ (AInv_to_array_run a ha) arr harr)

/-- `RunContainer::difference` yields a valid run container. -/
theorem RInv_diff (a b : RunContainer) (ha : a.Inv) :
    ∀ e, RunContainer.difference a b = some e → e.Inv := by
  intro e he
  unfold RunContainer.difference at he
  obtain ⟨arr, harr, rfl⟩ := Option.map_eq_some'.mp he
  exact RInv_from_array _ (AInv_diff _ _ (AInv_to_array_run a ha) arr harr)

/-- `RunContainer::symmetric_difference` yields a valid run container. -/
theorem RInv_symm (a b : RunContainer) (ha : a.Inv) (hb : b.Inv) :
    ∀ e, RunContainer.symmetric_difference a b = some e → e.Inv := by
  intro e he
  unfold RunContainer.symmetric_difference at he
  obtain ⟨arr, harr, rfl⟩ := Option.map_eq_some'.mp he
  exact RInv_from_array _
    (AInv_symm _ _ (AInv_to_array_run a ha) (AInv_to_array_run b hb) arr harr)

/-- `BitmapContainer::union` always yields a valid bitmap container. -/
theorem BInv_bunion (a b : BitmapContainer) : (BitmapContainer.union a b).Inv := by
  unfold BitmapContainer.union BitmapContainer.Inv
  dsimp only
  refine ⟨?_, rfl⟩
  rw [List.length_map, List.length_range]

set_option maxRecDepth 8192 in
/-- `BitmapContainer::intersection` yields a valid bitmap container. -/
theorem BInv_binter (a b : BitmapContainer) :
    ∀ e, BitmapContainer.intersection a b = some e → e.Inv := by
  intro e he
  unfold BitmapContainer.intersection at he
  dsimp only at he
  split at he
  · exact absurd he (by simp)
  · obtain rfl := (Option.some_injective _ he).symm
    refine ⟨?_, rfl⟩
    dsimp only
    rw [List.length_map, List.length_range]

set_option maxRecDepth 8192 in
/-- `BitmapContainer::difference` yields a valid bitmap container. -/
theorem BInv_bdiff (a b : BitmapContainer) :
    ∀ e, BitmapContainer.difference a b = some e → e.Inv := by
  intro e he
  unfold BitmapContainer.difference at he
  dsimp only at he
  split at he
  · exact absurd he (by simp)
  · obtain rfl := (Option.some_injective _ he).symm
    refine ⟨?_, rfl⟩
    dsimp only
    rw [List.length_map, List.length_range]

set_option maxRecDepth 8192 in
/-- `BitmapContainer::symmetric_difference` yields a valid bitmap
container. -/
theorem BInv_bsymm (a b : BitmapContainer) :
    ∀ e, BitmapContainer.symmetric_difference a b = some e → e.Inv := by
  intro e he
  unfold BitmapContainer.symmetric_difference at he
  dsimp only at he
  split at he
  · exact absurd he (by simp)
  · obtain rfl := (Option.some_injective _ he).symm
    refine ⟨?_, rfl⟩
    dsimp only
    rw [List.length_map, List.length_range]

/-- Folding `BitmapContainer::insert` over bounded values preserves the
bitmap invariant. -/
theorem BInv_fold_insert : ∀ (l : List Nat) (b : BitmapContainer), b.Inv →
    (∀ v ∈ l, v < 65536) →
    (l.foldl (fun acc v => (BitmapContainer.insert acc v).1) b).Inv := by
  intro l
  induction l with
  | nil => intro b h _; exact h
  | cons x xs ih =>
    intro b h hb
    rw [List.foldl_cons]
    exact ih _ (BInv_insert b x h (hb x (List.mem_cons_self _ _)))
      (fun v hv => hb v (List.mem_cons_of_mem _ hv))

/-- Folding `BitmapContainer::remove` preserves the bitmap invariant. -/
theorem BInv_fold_remove : ∀ (l : List Nat) (b : BitmapContainer), b.Inv →
    (l.foldl (fun acc v => (BitmapContainer.remove acc v).1) b).Inv := by
  intro l
  induction l with
  | nil => intro b h; exact h
  | cons x xs ih =>
    intro b h
    rw [List.foldl_cons]
    exact ih _ (BInv_remove b x h)

end Roaring

namespace Roaring

/-- `Container::insert` preserves the container invariant, including the
Array-to-Run/Bitmap threshold conversions. -/
theorem CInv_insert (c : Container) (v : Nat) (h : c.Inv) (hv : v < 65536) :
    ((Container.insert c v).1).Inv := by
  cases c with
  | array a =>
    have hins : ((ArrayContainer.insert a v).1).Inv := AInv_insert a v h hv
    unfold Container.insert
    dsimp only
    split
    · split
      · exact RInv_from_array _ hins
      · exact BInv_from_array _ hins
    · exact hins
  | bitmap b =>
    exact BInv_insert b v h hv
  | run r =>
    exact RInv_insert r v h hv

/-- `Container::remove` preserves the container invariant, including the
Bitmap-to-Array shrink conversion. -/
theorem CInv_remove (c : Container) (v : Nat) (h : c.Inv) :
    ((Container.remove c v).1).Inv := by
  cases c with
  | array a =>
    exact AInv_remove a v h
  | bitmap b =>
    unfold Container.remove
    dsimp only
    split
    · exact AInv_to_array _
    · exact BInv_remove b v h
  | run r =>
    exact RInv_remove r v h

/-- `Container::union` yields a valid container in all nine pairings. -/
theorem CInv_union (c d : Container) (hc : c.Inv) (hd : d.Inv) :
    (Container.union c d).Inv := by
  cases c with
  | array a =>
    cases d with
    | array b =>
      unfold Container.union
      dsimp only
      split
      · exact BInv_from_array _ (AInv_union a b hc hd)
      · exact AInv_union a b hc hd
    | bitmap b =>
      exact BInv_fold_insert a.values b hd (fun v hv => hc.2 v hv)
    | run r =>
      exact AInv_union _ a (AInv_to_array_run r hd) hc
  | bitmap b =>
    cases d with
    | array a =>
      exact BInv_fold_insert a.values b hc (fun v hv => hd.2 v hv)
    | bitmap b2 =>
      exact BInv_bunion b b2
    | run r =>
      exact BInv_fold_insert (RunContainer.to_array r).values b hc
        (fun v hv => (AInv_to_array_run r hd).2 v hv)
  | run r =>
    cases d with
    | array a =>
      exact AInv_union _ a (AInv_to_array_run r hc) hd
    | bitmap b =>
      exact BInv_fold_insert (RunContainer.to_array r).values b hd
        (fun v hv => (AInv_to_array_run r hc).2 v hv)
    | run r2 =>
      exact RInv_union r r2 hc hd

/-- `Container::intersection` yields a valid container in all nine
pairings. -/
theorem CInv_inter (c d : Container) (hc : c.Inv) (hd : d.Inv) :
    ∀ e, Container.intersection c d = some e → e.Inv := by
  intro e he
  cases c with
  | array a =>
    cases d with
    | array b =>
      obtain ⟨arr, harr, rfl⟩ := Option.map_eq_some'.mp he
      exact AInv_inter a b hc arr harr
    | bitmap b =>
      unfold Container.intersection at he
      dsimp only at he
      split at he
      · exact absurd he (by simp)
      · obtain rfl := (Option.some_injective _ he).symm
        exact AInv_filter a _ hc
    | run r =>
      obtain ⟨arr, harr, rfl⟩ := Option.map_eq_some'.mp he
      exact AInv_inter _ a (AInv_to_array_run r hd) arr harr
  | bitmap b =>
    cases d with
    | array a =>
      unfold Container.intersection at he
      dsimp only at he
      split at he
      · exact absurd he (by simp)
      · obtain rfl := (Option.some_injective _ he).symm
        exact AInv_filter a _ hd
    | bitmap b2 =>
      unfold Container.intersection at he
      dsimp only at he
      rcases hbm : BitmapContainer.intersection b b2 with _ | bm
      · rw [hbm] at he
        exact absurd he (by simp)
      · rw [hbm] at he
        simp only [Option.map_some'] at he
        obtain rfl := (Option.some_injective _ he).symm
        split
        · exact AInv_to_array bm
        · exact BInv_binter b b2 bm hbm
    | run r =>
      unfold Container.intersection at he
      dsimp only at he
      split at he
      · exact absurd he (by simp)
      · obtain rfl := (Option.some_injective _ he).symm
        exact AInv_filter _ _ (AInv_to_array_run r hd)
  | run r =>
    cases d with
    | array a =>
      obtain ⟨arr, harr, rfl⟩ := Option.map_eq_some'.mp he
      exact AInv_inter _ a (AInv_to_array_run r hc) arr harr
    | bitmap b =>
      unfold Container.intersection at he
      dsimp only at he
      split at he
      · exact absurd he (by simp)
      · obtain rfl := (Option.some_injective _ he).symm
        exact AInv_filter _ _ (AInv_to_array_run r hc)
    | run r2 =>
      obtain ⟨rn, hrn, rfl⟩ := Option.map_eq_some'.mp he
      exact RInv_inter r r2 hc rn hrn

/-- `Container::difference` yields a valid container in all nine
pairings. -/
theorem CInv_diff (c d : Container) (hc : c.Inv) (hd : d.Inv) :
    ∀ e, Container.difference c d = some e → e.Inv := by
  intro e he
  cases c with
  | array a =>
    cases d with
    | array b =>
      obtain ⟨arr, harr, rfl⟩ := Option.map_eq_some'.mp he
      exact AInv_diff a b hc arr harr
    | bitmap b =>
      unfold Container.difference at he
      dsimp only at he
      split at he
      · exact absurd he (by simp)
      · obtain rfl := (Option.some_injective _ he).symm
        exact AInv_filter a _ hc
    | run r =>
      obtain ⟨arr, harr, rfl⟩ := Option.map_eq_some'.mp he
      exact AInv_diff a _ hc arr harr
  | bitmap b =>
    cases d with
    | array a =>
      unfold Container.difference at he
      dsimp only at he
      split at he
      · exact absurd he (by simp)
      · split at he
        · obtain rfl := (Option.some_injective _ he).symm
          exact AInv_to_array _
        · obtain rfl := (Option.some_injective _ he).symm
          exact BInv_fold_remove a.values b hc
    | bitmap b2 =>
      unfold Container.difference at he
      dsimp only at he
      rcases hbm : BitmapContainer.difference b b2 with _ | bm
      · rw [hbm] at he
        exact absurd he (by simp)
      · rw [hbm] at he
        simp only [Option.map_some'] at he
        obtain rfl := (Option.some_injective _ he).symm
        split
        · exact AInv_to_array bm
        · exact BInv_bdiff b b2 bm hbm
    | run r =>
      unfold Container.difference at he
      dsimp only at he
      split at he
      · exact absurd he (by simp)
      · split at he
        · obtain rfl := (Option.some_injective _ he).symm
          exact AInv_to_array _
        · obtain rfl := (Option.some_injective _ he).symm
          exact BInv_fold_remove (RunContainer.to_array r).values b hc
  | run r =>
    cases d with
    | array a =>
      obtain ⟨arr, harr, rfl⟩ := Option.map_eq_some'.mp he
      exact AInv_diff _ a (AInv_to_array_run r hc) arr harr
    | bitmap b =>
      unfold Container.difference at he
      dsimp only at he
      split at he
      · exact absurd he (by simp)
      · obtain rfl := (Option.some_injective _ he).symm
        exact AInv_filter _ _ (AInv_to_array_run r hc)
    | run r2 =>
      obtain ⟨rn, hrn, rfl⟩ := Option.map_eq_some'.mp he
      exact RInv_diff r r2 hc rn hrn

/-- `Container::symmetric_difference` yields a valid container in all nine
pairings. -/
theorem CInv_symm (c d : Container) (hc : c.Inv) (hd : d.Inv) :
    ∀ e, Container.symmetric_difference c d = some e → e.Inv := by
  intro e he
  cases c with
  | array a =>
    cases d with
    | array b =>
      obtain ⟨arr, harr, rfl⟩ := Option.map_eq_some'.mp he
      exact AInv_symm a b hc hd arr harr
    | bitmap b =>
      unfold Container.symmetric_difference at he
      dsimp only at he
      rcases hbm : (BitmapContainer.from_array a).symmetric_difference b with _ | bm
      · rw [hbm] at he
        exact absurd he (by simp)
      · rw [hbm] at he
        simp only [Option.map_some'] at he
        obtain rfl := (Option.some_injective _ he).symm
        split
        · exact AInv_to_array bm
        · exact BInv_bsymm _ b bm hbm
    | run r =>
      obtain ⟨arr, harr, rfl⟩ := Option.map_eq_some'.mp he
      exact AInv_symm _ a (AInv_to_array_run r hd) hc arr harr
  | bitmap b =>
    cases d with
    | array a =>
      unfold Container.symmetric_difference at he
      dsimp only at he
      rcases hbm : (BitmapContainer.from_array a).symmetric_difference b with _ | bm
      · rw [hbm] at he
        exact absurd he (by simp)
      · rw [hbm] at he
        simp only [Option.map_some'] at he
        obtain rfl := (Option.some_injective _ he).symm
        split
        · exact AInv_to_array bm
        · exact BInv_bsymm _ b bm hbm
    | bitmap b2 =>
      unfold Container.symmetric_difference at he
      dsimp only at he
      rcases hbm : BitmapContainer.symmetric_difference b b2 with _ | bm
      · rw [hbm] at he
        exact absurd he (by simp)
      · rw [hbm] at he
        simp only [Option.map_some'] at he
        obtain rfl := (Option.some_injective _ he).symm
        split
        · exact AInv_to_array bm
        · exact BInv_bsymm b b2 bm hbm
    | run r =>
      unfold Container.symmetric_difference at he
      dsimp only at he
      rcases hbm : (BitmapContainer.from_array r.to_array).symmetric_difference b with _ | bm
      · rw [hbm] at he
        exact absurd he (by simp)
      · rw [hbm] at he
        simp only [Option.map_some'] at he
        obtain rfl := (Option.some_injective _ he).symm
        split
        · exact AInv_to_array bm
        · exact BInv_bsymm _ b bm hbm
  | run r =>
    cases d with
    | array a =>
      obtain ⟨arr, harr, rfl⟩ := Option.map_eq_some'.mp he
      exact AInv_symm _ a (AInv_to_array_run r hc) hd arr harr
    | bitmap b =>
      unfold Container.symmetric_difference at he
      dsimp only at he
      rcases hbm : (BitmapContainer.from_array r.to_array).symmetric_difference b with _ | bm
      · rw [hbm] at he
        exact absurd he (by simp)
      · rw [hbm] at he
        simp only [Option.map_some'] at he
        obtain rfl := (Option.some_injective _ he).symm
        split
        · exact AInv_to_array bm
        · exact BInv_bsymm _ b bm hbm
    | run r2 =>
      obtain ⟨rn, hrn, rfl⟩ := Option.map_eq_some'.mp he
      exact RInv_symm r r2 hc hd rn hrn

/-- `Container::optimize` preserves the container invariant through every
conversion heuristic. -/
theorem CInv_optimize (c : Container) (h : c.Inv) : (Container.optimize c).Inv := by
  cases c with
  | array a =>
    unfold Container.optimize
    dsimp only
    split
    · exact RInv_from_array a h
    · split
      · exact BInv_from_array a h
      · exact h
  | run r =>
    unfold Container.optimize
    dsimp only
    split
    · exact AInv_to_array_run r h
    · exact h
  | bitmap b =>
    unfold Container.optimize
    dsimp only
    split
    · split
      · exact RInv_from_array _ (AInv_to_array b)
      · exact AInv_to_array b
    · exact h

/-- Folding `Container::insert` over bounded values preserves the container
invariant. -/
theorem CInv_fold_insert : ∀ (l : List Nat) (c : Container), c.Inv →
    (∀ v ∈ l, v < 65536) →
    (l.foldl (fun acc v => (Container.insert acc v).1) c).Inv := by
  intro l
  induction l with
  | nil => intro c h _; exact h
  | cons x xs ih =>
    intro c h hb
    rw [List.foldl_cons]
    exact ih _ (CInv_insert c x h (hb x (List.mem_cons_self _ _)))
      (fun v hv => hb v (List.mem_cons_of_mem _ hv))

/-- Folding `Container::remove` preserves the container invariant. -/
theorem CInv_fold_remove : ∀ (l : List Nat) (c : Container), c.Inv →
    (l.foldl (fun acc v => (Container.remove acc v).1) c).Inv := by
  intro l
  induction l with
  | nil => intro c h; exact h
  | cons x xs ih =>
    intro c h
    rw [List.foldl_cons]
    exact ih _ (CInv_remove c x h)

end Roaring

namespace Roaring

/-- The empty array container is valid. -/
theorem CInv_empty_array : (Container.array ⟨[]⟩).Inv :=
  ⟨trivial, by simp⟩

/-- `RoaringBitmap::insert`'s container-list splice keeps keys sorted and
containers valid; result keys are old keys or the inserted key. -/
theorem insertCont_inv : ∀ (cs : List (Nat × Container)) (key low : Nat),
    List.Pairwise (· < ·) (cs.map Prod.fst) → (∀ pc ∈ cs, pc.2.Inv) → low < 65536 →
      List.Pairwise (· < ·) ((RoaringBitmap.insertCont cs key low).1.map Prod.fst) ∧
      (∀ pc ∈ (RoaringBitmap.insertCont cs key low).1, pc.2.Inv) ∧
      (∀ pc ∈ (RoaringBitmap.insertCont cs key low).1,
        pc.1 ∈ cs.map Prod.fst ∨ pc.1 = key) := by
  intro cs
  induction cs with
  | nil =>
    intro key low _ _ hlow
    refine ⟨by simp [RoaringBitmap.insertCont], ?_, ?_⟩
    · intro pc hpc
      simp only [RoaringBitmap.insertCont, List.mem_singleton] at hpc
      subst hpc
      exact CInv_insert _ low CInv_empty_array hlow
    · intro pc hpc
      simp only [RoaringBitmap.insertCont, List.mem_singleton] at hpc
      subst hpc
      right
      rfl
  | cons hd rest ih =>
    obtain ⟨k, c⟩ := hd
    intro key low hpw hinv hlow
    rw [List.map_cons] at hpw
    obtain ⟨hk1, hkrest⟩ := List.pairwise_cons.mp hpw
    have hcinv : c.Inv := hinv (k, c) (List.mem_cons_self _ _)
    have hrinv : ∀ pc ∈ rest, pc.2.Inv := fun pc hpc => hinv pc (List.mem_cons_of_mem _ hpc)
    rw [RoaringBitmap.insertCont]
    by_cases h1 : key < k
    · rw [if_pos h1]
      refine ⟨?_, ?_, ?_⟩
      · rw [List.map_cons, List.map_cons]
        refine List.pairwise_cons.mpr ⟨?_, hpw⟩
        intro q hq
        rcases List.mem_cons.mp hq with rfl | hq
        · exact h1
        · exact lt_trans h1 (hk1 q hq)
      · intro pc hpc
        rcases List.mem_cons.mp hpc with rfl | hpc
        · exact CInv_insert _ low CInv_empty_array hlow
        · exact hinv pc hpc
      · intro pc hpc
        rcases List.mem_cons.mp hpc with rfl | hpc
        · right; rfl
        · left
          exact List.mem_map_of_mem Prod.fst hpc
    · rw [if_neg h1]
      by_cases h2 : key = k
      · rw [if_pos h2]
        dsimp only
        refine ⟨?_, ?_, ?_⟩
        · rw [List.map_cons]
          exact List.pairwise_cons.mpr ⟨hk1, hkrest⟩
        · intro pc hpc
          rcases List.mem_cons.mp hpc with rfl | hpc
          · exact CInv_insert c low hcinv hlow
          · exact hrinv pc hpc
        · intro pc hpc
          rcases List.mem_cons.mp hpc with rfl | hpc
          · left
            simp
          · left
            rw [List.map_cons]
            exact List.mem_cons_of_mem _ (List.mem_map_of_mem Prod.fst hpc)
      · rw [if_neg h2]
        dsimp only
        obtain ⟨ihp, ihi, ihs⟩ := ih key low hkrest hrinv hlow
        refine ⟨?_, ?_, ?_⟩
        · rw [List.map_cons]
          refine List.pairwise_cons.mpr ⟨?_, ihp⟩
          intro q hq
          obtain ⟨pc, hpc, rfl⟩ := List.mem_map.mp hq
          rcases ihs pc hpc with hm | hm
          · exact hk1 _ hm
          · rw [hm]
            omega
        · intro pc hpc
          rcases List.mem_cons.mp hpc with rfl | hpc
          · exact hcinv
          · exact ihi pc hpc
        · intro pc hpc
          rcases List.mem_cons.mp hpc with rfl | hpc
          · left
            simp
          · rcases ihs pc hpc with hm | hm
            · left
              rw [List.map_cons]
              exact List.mem_cons_of_mem _ hm
            · right
              exact hm

/-- `RoaringBitmap::remove`'s container-list update keeps keys sorted and
containers valid; result keys come from the original list. -/
theorem removeCont_inv : ∀ (cs : List (Nat × Container)) (key low : Nat),
    List.Pairwise (· < ·) (cs.map Prod.fst) → (∀ pc ∈ cs, pc.2.Inv) →
      List.Pairwise (· < ·) ((RoaringBitmap.removeCont cs key low).1.map Prod.fst) ∧
      (∀ pc ∈ (RoaringBitmap.removeCont cs key low).1, pc.2.Inv) ∧
      (∀ pc ∈ (RoaringBitmap.removeCont cs key low).1, pc.1 ∈ cs.map Prod.fst) := by
  intro cs
  induction cs with
  | nil =>
    intro key low _ _
    refine ⟨by simp [RoaringBitmap.removeCont], ?_, ?_⟩ <;>
      · intro pc hpc
        simp [RoaringBitmap.removeCont] at hpc
  | cons hd rest ih =>
    obtain ⟨k, c⟩ := hd
    intro key low hpw hinv
    rw [List.map_cons] at hpw
    obtain ⟨hk1, hkrest⟩ := List.pairwise_cons.mp hpw
    have hcinv : c.Inv := hinv (k, c) (List.mem_cons_self _ _)
    have hrinv : ∀ pc ∈ rest, pc.2.Inv := fun pc hpc => hinv pc (List.mem_cons_of_mem _ hpc)
    rw [RoaringBitmap.removeCont]
    by_cases h1 : key < k
    · rw [if_pos h1]
      exact ⟨hpw, hinv, fun pc hpc => List.mem_map_of_mem Prod.fst hpc⟩
    · rw [if_neg h1]
      by_cases h2 : key = k
      · rw [if_pos h2]
        dsimp only
        split
        · refine ⟨hkrest, hrinv, ?_⟩
          intro pc hpc
          rw [List.map_cons]
          exact List.mem_cons_of_mem _ (List.mem_map_of_mem Prod.fst hpc)
        · refine ⟨?_, ?_, ?_⟩
          · rw [List.map_cons]
            exact List.pairwise_cons.mpr ⟨hk1, hkrest⟩
          · intro pc hpc
            rcases List.mem_cons.mp hpc with rfl | hpc
            · exact CInv_remove c low hcinv
            · exact hrinv pc hpc
          · intro pc hpc
            rcases List.mem_cons.mp hpc with rfl | hpc
            · left
            · rw [List.map_cons]
              exact List.mem_cons_of_mem _ (List.mem_map_of_mem Prod.fst hpc)
      · rw [if_neg h2]
        dsimp only
        obtain ⟨ihp, ihi, ihs⟩ := ih key low hkrest hrinv
        refine ⟨?_, ?_, ?_⟩
        · rw [List.map_cons]
          refine List.pairwise_cons.mpr ⟨?_, ihp⟩
          intro q hq
          obtain ⟨pc, hpc, rfl⟩ := List.mem_map.mp hq
          exact hk1 _ (ihs pc hpc)
        · intro pc hpc
          rcases List.mem_cons.mp hpc with rfl | hpc
          · exact hcinv
          · exact ihi pc hpc
        · intro pc hpc
          rcases List.mem_cons.mp hpc with rfl | hpc
          · left
          · rw [List.map_cons]
            exact List.mem_cons_of_mem _ (ihs pc hpc)

end Roaring

namespace Roaring

/-- The union merge keeps keys sorted and containers valid; result keys come
from the operands. -/
theorem unionCont_inv : ∀ (xs ys : List (Nat × Container)),
    List.Pairwise (· < ·) (xs.map Prod.fst) → List.Pairwise (· < ·) (ys.map Prod.fst) →
    (∀ pc ∈ xs, pc.2.Inv) → (∀ pc ∈ ys, pc.2.Inv) →
      List.Pairwise (· < ·) ((RoaringBitmap.unionCont xs ys).map Prod.fst) ∧
      (∀ pc ∈ RoaringBitmap.unionCont xs ys, pc.2.Inv) ∧
      (∀ pc ∈ RoaringBitmap.unionCont xs ys,
        pc.1 ∈ xs.map Prod.fst ∨ pc.1 ∈ ys.map Prod.fst) := by
  intro xs ys
  induction xs, ys using RoaringBitmap.unionCont.induct with
  | case1 ys =>
    intro _ hpy _ hiy
    rw [RoaringBitmap.unionCont]
    exact ⟨hpy, hiy, fun pc hpc => Or.inr (List.mem_map_of_mem Prod.fst hpc)⟩
  | case2 xs h =>
    intro hpx _ hix _
    cases xs with
    | nil => simp [RoaringBitmap.unionCont]
    | cons z zs =>
      rw [RoaringBitmap.unionCont]
      · exact ⟨hpx, hix, fun pc hpc => Or.inl (List.mem_map_of_mem Prod.fst hpc)⟩
      · exact h
  | case3 k1 c1 xs k2 c2 ys h ih =>
    intro hpx hpy hix hiy
    rw [RoaringBitmap.unionCont, if_pos h]
    rw [List.map_cons] at hpx hpy ⊢
    obtain ⟨hx1, hx2⟩ := List.pairwise_cons.mp hpx
    obtain ⟨hy1, hy2⟩ := List.pairwise_cons.mp hpy
    obtain ⟨ihp, ihi, ihs⟩ := ih hx2 (List.pairwise_cons.mpr ⟨hy1, hy2⟩)
      (fun pc hpc => hix pc (List.mem_cons_of_mem _ hpc)) hiy
    refine ⟨?_, ?_, ?_⟩
    · refine List.pairwise_cons.mpr ⟨?_, ihp⟩
      intro q hq
      obtain ⟨pc, hpc, rfl⟩ := List.mem_map.mp hq
      rcases ihs pc hpc with hm | hm
      · exact hx1 _ hm
      · rw [List.map_cons] at hm
        rcases List.mem_cons.mp hm with he | hm
        · rw [he]; exact h
        · exact lt_trans h (hy1 _ hm)
    · intro pc hpc
      rcases List.mem_cons.mp hpc with rfl | hpc
      · exact hix (k1, c1) (List.mem_cons_self _ _)
      · exact ihi pc hpc
    · intro pc hpc
      rcases List.mem_cons.mp hpc with rfl | hpc
      · left; exact List.mem_cons_self _ _
      · rcases ihs pc hpc with hm | hm
        · left; exact List.mem_cons_of_mem _ hm
        · right; exact hm
  | case4 c1 xs k2 c2 ys h ih =>
    intro hpx hpy hix hiy
    rw [RoaringBitmap.unionCont, if_neg h, if_pos rfl]
    rw [List.map_cons] at hpx hpy ⊢
    obtain ⟨hx1, hx2⟩ := List.pairwise_cons.mp hpx
    obtain ⟨hy1, hy2⟩ := List.pairwise_cons.mp hpy
    obtain ⟨ihp, ihi, ihs⟩ := ih hx2 hy2
      (fun pc hpc => hix pc (List.mem_cons_of_mem _ hpc))
      (fun pc hpc => hiy pc (List.mem_cons_of_mem _ hpc))
    refine ⟨?_, ?_, ?_⟩
    · refine List.pairwise_cons.mpr ⟨?_, ihp⟩
      intro q hq
      obtain ⟨pc, hpc, rfl⟩ := List.mem_map.mp hq
      rcases ihs pc hpc with hm | hm
      · exact hx1 _ hm
      · exact hy1 _ hm
    · intro pc hpc
      rcases List.mem_cons.mp hpc with rfl | hpc
      · exact CInv_union _ _ (hix _ (List.mem_cons_self _ _)) (hiy _ (List.mem_cons_self _ _))
      · exact ihi pc hpc
    · intro pc hpc
      rcases List.mem_cons.mp hpc with rfl | hpc
      · left; exact List.mem_cons_self _ _
      · rcases ihs pc hpc with hm | hm
        · left; exact List.mem_cons_of_mem _ hm
        · right; exact List.mem_cons_of_mem _ hm
  | case5 k1 c1 xs k2 c2 ys h1 h2 ih =>
    intro hpx hpy hix hiy
    rw [RoaringBitmap.unionCont, if_neg h1, if_neg h2]
    rw [List.map_cons] at hpx hpy ⊢
    obtain ⟨hx1, hx2⟩ := List.pairwise_cons.mp hpx
    obtain ⟨hy1, hy2⟩ := List.pairwise_cons.mp hpy
    obtain ⟨ihp, ihi, ihs⟩ := ih (List.pairwise_cons.mpr ⟨hx1, hx2⟩) hy2 hix
      (fun pc hpc => hiy pc (List.mem_cons_of_mem _ hpc))
    refine ⟨?_, ?_, ?_⟩
    · refine List.pairwise_cons.mpr ⟨?_, ihp⟩
      intro q hq
      obtain ⟨pc, hpc, rfl⟩ := List.mem_map.mp hq
      rcases ihs pc hpc with hm | hm
      · rw [List.map_cons] at hm
        rcases List.mem_cons.mp hm with he | hm
        · rw [he]; omega
        · have := hx1 _ hm
          omega
      · exact hy1 _ hm
    · intro pc hpc
      rcases List.mem_cons.mp hpc with rfl | hpc
      · exact hiy (k2, c2) (List.mem_cons_self _ _)
      · exact ihi pc hpc
    · intro pc hpc
      rcases List.mem_cons.mp hpc with rfl | hpc
      · right; exact List.mem_cons_self _ _
      · rcases ihs pc hpc with hm | hm
        · left; exact hm
        · right; exact List.mem_cons_of_mem _ hm

end Roaring

namespace Roaring

/-- The intersection merge keeps keys sorted and containers valid; result
keys come from the operands. -/
theorem interCont_inv : ∀ (xs ys : List (Nat × Container)),
    List.Pairwise (· < ·) (xs.map Prod.fst) → List.Pairwise (· < ·) (ys.map Prod.fst) →
    (∀ pc ∈ xs, pc.2.Inv) → (∀ pc ∈ ys, pc.2.Inv) →
      List.Pairwise (· < ·) ((RoaringBitmap.interCont xs ys).map Prod.fst) ∧
      (∀ pc ∈ RoaringBitmap.interCont xs ys, pc.2.Inv) ∧
      (∀ pc ∈ RoaringBitmap.interCont xs ys,
        pc.1 ∈ xs.map Prod.fst ∨ pc.1 ∈ ys.map Prod.fst) := by
  intro xs ys
  induction xs, ys using RoaringBitmap.interCont.induct with
  | case1 ys =>
    intro _ _ _ _
    rw [RoaringBitmap.interCont]
    exact ⟨List.Pairwise.nil, by simp, by simp⟩
  | case2 xs h =>
    intro _ _ _ _
    cases xs with
    | nil => simp [RoaringBitmap.interCont]
    | cons z zs =>
      rw [RoaringBitmap.interCont]
      · exact ⟨List.Pairwise.nil, by simp, by simp⟩
      · exact h
  | case3 k1 c1 xs k2 c2 ys h ih =>
    intro hpx hpy hix hiy
    rw [RoaringBitmap.interCont, if_pos h]
    rw [List.map_cons] at hpx hpy ⊢
    obtain ⟨hx1, hx2⟩ := List.pairwise_cons.mp hpx
    obtain ⟨hy1, hy2⟩ := List.pairwise_cons.mp hpy
    obtain ⟨ihp, ihi, ihs⟩ := ih hx2 (List.pairwise_cons.mpr ⟨hy1, hy2⟩)
      (fun pc hpc => hix pc (List.mem_cons_of_mem _ hpc)) hiy
    refine ⟨ihp, ihi, ?_⟩
    intro pc hpc
    rcases ihs pc hpc with hm | hm
    · left; exact List.mem_cons_of_mem _ hm
    · right; exact hm
  | case4 c1 xs k2 c2 ys cc hcc h ih =>
    intro hpx hpy hix hiy
    rw [RoaringBitmap.interCont, if_neg h, if_pos rfl, hcc]
    dsimp only
    rw [List.map_cons] at hpx hpy
    obtain ⟨hx1, hx2⟩ := List.pairwise_cons.mp hpx
    obtain ⟨hy1, hy2⟩ := List.pairwise_cons.mp hpy
    obtain ⟨ihp, ihi, ihs⟩ := ih hx2 hy2
      (fun pc hpc => hix pc (List.mem_cons_of_mem _ hpc))
      (fun pc hpc => hiy pc (List.mem_cons_of_mem _ hpc))
    refine ⟨?_, ?_, ?_⟩
    · rw [List.map_cons]
      refine List.pairwise_cons.mpr ⟨?_, ihp⟩
      intro q hq
      obtain ⟨pc, hpc, rfl⟩ := List.mem_map.mp hq
      rcases ihs pc hpc with hm | hm
      · exact hx1 _ hm
      · exact hy1 _ hm
    · intro pc hpc
      rcases List.mem_cons.mp hpc with rfl | hpc
      · exact CInv_inter c1 c2 (hix _ (List.mem_cons_self _ _))
          (hiy _ (List.mem_cons_self _ _)) cc hcc
      · exact ihi pc hpc
    · intro pc hpc
      rcases List.mem_cons.mp hpc with rfl | hpc
      · left; rw [List.map_cons]; exact List.mem_cons_self _ _
      · rcases ihs pc hpc with hm | hm
        · left; rw [List.map_cons]; exact List.mem_cons_of_mem _ hm
        · right; rw [List.map_cons]; exact List.mem_cons_of_mem _ hm
  | case5 c1 xs k2 c2 ys hcc h ih =>
    intro hpx hpy hix hiy
    rw [RoaringBitmap.interCont, if_neg h, if_pos rfl, hcc]
    dsimp only
    rw [List.map_cons] at hpx hpy
    obtain ⟨hx1, hx2⟩ := List.pairwise_cons.mp hpx
    obtain ⟨hy1, hy2⟩ := List.pairwise_cons.mp hpy
    obtain ⟨ihp, ihi, ihs⟩ := ih hx2 hy2
      (fun pc hpc => hix pc (List.mem_cons_of_mem _ hpc))
      (fun pc hpc => hiy pc (List.mem_cons_of_mem _ hpc))
    refine ⟨ihp, ihi, ?_⟩
    intro pc hpc
    rcases ihs pc hpc with hm | hm
    · left; rw [List.map_cons]; exact List.mem_cons_of_mem _ hm
    · right; rw [List.map_cons]; exact List.mem_cons_of_mem _ hm
  | case6 k1 c1 xs k2 c2 ys h1 h2 ih =>
    intro hpx hpy hix hiy
    rw [RoaringBitmap.interCont, if_neg h1, if_neg h2]
    rw [List.map_cons] at hpy
    obtain ⟨hy1, hy2⟩ := List.pairwise_cons.mp hpy
    obtain ⟨ihp, ihi, ihs⟩ := ih hpx hy2 hix
      (fun pc hpc => hiy pc (List.mem_cons_of_mem _ hpc))
    refine ⟨ihp, ihi, ?_⟩
    intro pc hpc
    rcases ihs pc hpc with hm | hm
    · left; exact hm
    · right; rw [List.map_cons]; exact List.mem_cons_of_mem _ hm

/-- The difference merge keeps keys sorted and containers valid; result keys
come from the operands. -/
theorem diffCont_inv : ∀ (xs ys : List (Nat × Container)),
    List.Pairwise (· < ·) (xs.map Prod.fst) → List.Pairwise (· < ·) (ys.map Prod.fst) →
    (∀ pc ∈ xs, pc.2.Inv) → (∀ pc ∈ ys, pc.2.Inv) →
      List.Pairwise (· < ·) ((RoaringBitmap.diffCont xs ys).map Prod.fst) ∧
      (∀ pc ∈ RoaringBitmap.diffCont xs ys, pc.2.Inv) ∧
      (∀ pc ∈ RoaringBitmap.diffCont xs ys,
        pc.1 ∈ xs.map Prod.fst ∨ pc.1 ∈ ys.map Prod.fst) := by
  intro xs ys
  induction xs, ys using RoaringBitmap.diffCont.induct with
  | case1 ys =>
    intro _ _ _ _
    rw [RoaringBitmap.diffCont]
    exact ⟨List.Pairwise.nil, by simp, by simp⟩
  | case2 xs h =>
    intro hpx _ hix _
    cases xs with
    | nil => simp [RoaringBitmap.diffCont]
    | cons z zs =>
      rw [RoaringBitmap.diffCont]
      · exact ⟨hpx, hix, fun pc hpc => Or.inl (List.mem_map_of_mem Prod.fst hpc)⟩
      · exact h
  | case3 k1 c1 xs k2 c2 ys h ih =>
    intro hpx hpy hix hiy
    rw [RoaringBitmap.diffCont, if_pos h]
    rw [List.map_cons] at hpx hpy ⊢
    obtain ⟨hx1, hx2⟩ := List.pairwise_cons.mp hpx
    obtain ⟨hy1, hy2⟩ := List.pairwise_cons.mp hpy
    obtain ⟨ihp, ihi, ihs⟩ := ih hx2 (List.pairwise_cons.mpr ⟨hy1, hy2⟩)
      (fun pc hpc => hix pc (List.mem_cons_of_mem _ hpc)) hiy
    refine ⟨?_, ?_, ?_⟩
    · refine List.pairwise_cons.mpr ⟨?_, ihp⟩
      intro q hq
      obtain ⟨pc, hpc, rfl⟩ := List.mem_map.mp hq
      rcases ihs pc hpc with hm | hm
      · exact hx1 _ hm
      · rw [List.map_cons] at hm
        rcases List.mem_cons.mp hm with he | hm
        · rw [he]; exact h
        · exact lt_trans h (hy1 _ hm)
    · intro pc hpc
      rcases List.mem_cons.mp hpc with rfl | hpc
      · exact hix (k1, c1) (List.mem_cons_self _ _)
      · exact ihi pc hpc
    · intro pc hpc
      rcases List.mem_cons.mp hpc with rfl | hpc
      · left; exact List.mem_cons_self _ _
      · rcases ihs pc hpc with hm | hm
        · left; exact List.mem_cons_of_mem _ hm
        · right; exact hm
  | case4 c1 xs k2 c2 ys cc hcc h ih =>
    intro hpx hpy hix hiy
    rw [RoaringBitmap.diffCont, if_neg h, if_pos rfl, hcc]
    dsimp only
    rw [List.map_cons] at hpx hpy
    obtain ⟨hx1, hx2⟩ := List.pairwise_cons.mp hpx
    obtain ⟨hy1, hy2⟩ := List.pairwise_cons.mp hpy
    obtain ⟨ihp, ihi, ihs⟩ := ih hx2 hy2
      (fun pc hpc => hix pc (List.mem_cons_of_mem _ hpc))
      (fun pc hpc => hiy pc (List.mem_cons_of_mem _ hpc))
    refine ⟨?_, ?_, ?_⟩
    · rw [List.map_cons]
      refine List.pairwise_cons.mpr ⟨?_, ihp⟩
      intro q hq
      obtain ⟨pc, hpc, rfl⟩ := List.mem_map.mp hq
      rcases ihs pc hpc with hm | hm
      · exact hx1 _ hm
      · exact hy1 _ hm
    · intro pc hpc
      rcases List.mem_cons.mp hpc with rfl | hpc
      · exact CInv_diff c1 c2 (hix _ (List.mem_cons_self _ _))
          (hiy _ (List.mem_cons_self _ _)) cc hcc
      · exact ihi pc hpc
    · intro pc hpc
      rcases List.mem_cons.mp hpc with rfl | hpc
      · left; rw [List.map_cons]; exact List.mem_cons_self _ _
      · rcases ihs pc hpc with hm | hm
        · left; rw [List.map_cons]; exact List.mem_cons_of_mem _ hm
        · right; rw [List.map_cons]; exact List.mem_cons_of_mem _ hm
  | case5 c1 xs k2 c2 ys hcc h ih =>
    intro hpx hpy hix hiy
    rw [RoaringBitmap.diffCont, if_neg h, if_pos rfl, hcc]
    dsimp only
    rw [List.map_cons] at hpx hpy
    obtain ⟨hx1, hx2⟩ := List.pairwise_cons.mp hpx
    obtain ⟨hy1, hy2⟩ := List.pairwise_cons.mp hpy
    obtain ⟨ihp, ihi, ihs⟩ := ih hx2 hy2
      (fun pc hpc => hix pc (List.mem_cons_of_mem _ hpc))
      (fun pc hpc => hiy pc (List.mem_cons_of_mem _ hpc))
    refine ⟨ihp, ihi, ?_⟩
    intro pc hpc
    rcases ihs pc hpc with hm | hm
    · left; rw [List.map_cons]; exact List.mem_cons_of_mem _ hm
    · right; rw [List.map_cons]; exact List.mem_cons_of_mem _ hm
  | case6 k1 c1 xs k2 c2 ys h1 h2 ih =>
    intro hpx hpy hix hiy
    rw [RoaringBitmap.diffCont, if_neg h1, if_neg h2]
    rw [List.map_cons] at hpy
    obtain ⟨hy1, hy2⟩ := List.pairwise_cons.mp hpy
    obtain ⟨ihp, ihi, ihs⟩ := ih hpx hy2 hix
      (fun pc hpc => hiy pc (List.mem_cons_of_mem _ hpc))
    refine ⟨ihp, ihi, ?_⟩
    intro pc hpc
    rcases ihs pc hpc with hm | hm
    · left; exact hm
    · right; rw [List.map_cons]; exact List.mem_cons_of_mem _ hm

/-- The symmetric-difference merge keeps keys sorted and containers valid;
result keys come from the operands. -/
theorem symmCont_inv : ∀ (xs ys : List (Nat × Container)),
    List.Pairwise (· < ·) (xs.map Prod.fst) → List.Pairwise (· < ·) (ys.map Prod.fst) →
    (∀ pc ∈ xs, pc.2.Inv) → (∀ pc ∈ ys, pc.2.Inv) →
      List.Pairwise (· < ·) ((RoaringBitmap.symmCont xs ys).map Prod.fst) ∧
      (∀ pc ∈ RoaringBitmap.symmCont xs ys, pc.2.Inv) ∧
      (∀ pc ∈ RoaringBitmap.symmCont xs ys,
        pc.1 ∈ xs.map Prod.fst ∨ pc.1 ∈ ys.map Prod.fst) := by
  intro xs ys
  induction xs, ys using RoaringBitmap.symmCont.induct with
  | case1 ys =>
    intro _ hpy _ hiy
    rw [RoaringBitmap.symmCont]
    exact ⟨hpy, hiy, fun pc hpc => Or.inr (List.mem_map_of_mem Prod.fst hpc)⟩
  | case2 xs h =>
    intro hpx _ hix _
    cases xs with
    | nil => simp [RoaringBitmap.symmCont]
    | cons z zs =>
      rw [RoaringBitmap.symmCont]
      · exact ⟨hpx, hix, fun pc hpc => Or.inl (List.mem_map_of_mem Prod.fst hpc)⟩
      · exact h
  | case3 k1 c1 xs k2 c2 ys h ih =>
    intro hpx hpy hix hiy
    rw [RoaringBitmap.symmCont, if_pos h]
    rw [List.map_cons] at hpx hpy ⊢
    obtain ⟨hx1, hx2⟩ := List.pairwise_cons.mp hpx
    obtain ⟨hy1, hy2⟩ := List.pairwise_cons.mp hpy
    obtain ⟨ihp, ihi, ihs⟩ := ih hx2 (List.pairwise_cons.mpr ⟨hy1, hy2⟩)
      (fun pc hpc => hix pc (List.mem_cons_of_mem _ hpc)) hiy
    refine ⟨?_, ?_, ?_⟩
    · refine List.pairwise_cons.mpr ⟨?_, ihp⟩
      intro q hq
      obtain ⟨pc, hpc, rfl⟩ := List.mem_map.mp hq
      rcases ihs pc hpc with hm | hm
      · exact hx1 _ hm
      · rw [List.map_cons] at hm
        rcases List.mem_cons.mp hm with he | hm
        · rw [he]; exact h
        · exact lt_trans h (hy1 _ hm)
    · intro pc hpc
      rcases List.mem_cons.mp hpc with rfl | hpc
      · exact hix (k1, c1) (List.mem_cons_self _ _)
      · exact ihi pc hpc
    · intro pc hpc
      rcases List.mem_cons.mp hpc with rfl | hpc
      · left; exact List.mem_cons_self _ _
      · rcases ihs pc hpc with hm | hm
        · left; exact List.mem_cons_of_mem _ hm
        · right; exact hm
  | case4 c1 xs k2 c2 ys cc hcc h ih =>
    intro hpx hpy hix hiy
    rw [RoaringBitmap.symmCont, if_neg h, if_pos rfl, hcc]
    dsimp only
    rw [List.map_cons] at hpx hpy
    obtain ⟨hx1, hx2⟩ := List.pairwise_cons.mp hpx
    obtain ⟨hy1, hy2⟩ := List.pairwise_cons.mp hpy
    obtain ⟨ihp, ihi, ihs⟩ := ih hx2 hy2
      (fun pc hpc => hix pc (List.mem_cons_of_mem _ hpc))
      (fun pc hpc => hiy pc (List.mem_cons_of_mem _ hpc))
    refine ⟨?_, ?_, ?_⟩
    · rw [List.map_cons]
      refine List.pairwise_cons.mpr ⟨?_, ihp⟩
      intro q hq
      obtain ⟨pc, hpc, rfl⟩ := List.mem_map.mp hq
      rcases ihs pc hpc with hm | hm
      · exact hx1 _ hm
      · exact hy1 _ hm
    · intro pc hpc
      rcases List.mem_cons.mp hpc with rfl | hpc
      · exact CInv_symm c1 c2 (hix _ (List.mem_cons_self _ _))
          (hiy _ (List.mem_cons_self _ _)) cc hcc
      · exact ihi pc hpc
    · intro pc hpc
      rcases List.mem_cons.mp hpc with rfl | hpc
      · left; rw [List.map_cons]; exact List.mem_cons_self _ _
      · rcases ihs pc hpc with hm | hm
        · left; rw [List.map_cons]; exact List.mem_cons_of_mem _ hm
        · right; rw [List.map_cons]; exact List.mem_cons_of_mem _ hm
  | case5 c1 xs k2 c2 ys hcc h ih =>
    intro hpx hpy hix hiy
    rw [RoaringBitmap.symmCont, if_neg h, if_pos rfl, hcc]
    dsimp only
    rw [List.map_cons] at hpx hpy
    obtain ⟨hx1, hx2⟩ := List.pairwise_cons.mp hpx
    obtain ⟨hy1, hy2⟩ := List.pairwise_cons.mp hpy
    obtain ⟨ihp, ihi, ihs⟩ := ih hx2 hy2
      (fun pc hpc => hix pc (List.mem_cons_of_mem _ hpc))
      (fun pc hpc => hiy pc (List.mem_cons_of_mem _ hpc))
    refine ⟨ihp, ihi, ?_⟩
    intro pc hpc
    rcases ihs pc hpc with hm | hm
    · left; rw [List.map_cons]; exact List.mem_cons_of_mem _ hm
    · right; rw [List.map_cons]; exact List.mem_cons_of_mem _ hm
  | case6 k1 c1 xs k2 c2 ys h1 h2 ih =>
    intro hpx hpy hix hiy
    rw [RoaringBitmap.symmCont, if_neg h1, if_neg h2]
    rw [List.map_cons] at hpx hpy ⊢
    obtain ⟨hx1, hx2⟩ := List.pairwise_cons.mp hpx
    obtain ⟨hy1, hy2⟩ := List.pairwise_cons.mp hpy
    obtain ⟨ihp, ihi, ihs⟩ := ih (List.pairwise_cons.mpr ⟨hx1, hx2⟩) hy2 hix
      (fun pc hpc => hiy pc (List.mem_cons_of_mem _ hpc))
    refine ⟨?_, ?_, ?_⟩
    · refine List.pairwise_cons.mpr ⟨?_, ihp⟩
      intro q hq
      obtain ⟨pc, hpc, rfl⟩ := List.mem_map.mp hq
      rcases ihs pc hpc with hm | hm
      · rw [List.map_cons] at hm
        rcases List.mem_cons.mp hm with he | hm
        · rw [he]; omega
        · have := hx1 _ hm
          omega
      · exact hy1 _ hm
    · intro pc hpc
      rcases List.mem_cons.mp hpc with rfl | hpc
      · exact hiy (k2, c2) (List.mem_cons_self _ _)
      · exact ihi pc hpc
    · intro pc hpc
      rcases List.mem_cons.mp hpc with rfl | hpc
      · right; exact List.mem_cons_self _ _
      · rcases ihs pc hpc with hm | hm
        · left; exact hm
        · right; exact List.mem_cons_of_mem _ hm

end Roaring

namespace Roaring

/-- The top-level invariant through `Pairwise`. -/
theorem Inv_iff (bm : RoaringBitmap) :
    bm.Inv ↔ (List.Pairwise (· < ·) (bm.containers.map Prod.fst) ∧
      ∀ pc ∈ bm.containers, pc.2.Inv) := by
  unfold RoaringBitmap.Inv
  rw [List.chain'_iff_pairwise]

/-- One `extend_consecutive` block step keeps keys sorted and containers
valid. -/
theorem extendInto_inv : ∀ (cs : List (Nat × Container)) (key lo hi : Nat),
    List.Pairwise (· < ·) (cs.map Prod.fst) → (∀ pc ∈ cs, pc.2.Inv) →
    lo < 65536 → hi < 65536 →
      List.Pairwise (· < ·)
        ((RoaringBitmap.extendIntoContainers cs key lo hi).map Prod.fst) ∧
      (∀ pc ∈ RoaringBitmap.extendIntoContainers cs key lo hi, pc.2.Inv) ∧
      (∀ pc ∈ RoaringBitmap.extendIntoContainers cs key lo hi,
        pc.1 ∈ cs.map Prod.fst ∨ pc.1 = key) := by
  intro cs
  induction cs with
  | nil =>
    intro key lo hi _ _ hlo hhi
    refine ⟨by simp [RoaringBitmap.extendIntoContainers], ?_, ?_⟩
    · intro pc hpc
      simp only [RoaringBitmap.extendIntoContainers, List.mem_singleton] at hpc
      subst hpc
      refine ⟨List.chain'_singleton _, ?_⟩
      intro p hp
      simp only [List.mem_singleton] at hp
      subst hp
      simp only
      omega
    · intro pc hpc
      simp only [RoaringBitmap.extendIntoContainers, List.mem_singleton] at hpc
      subst hpc
      right
      rfl
  | cons hd rest ih =>
    obtain ⟨k, c⟩ := hd
    intro key lo hi hpw hinv hlo hhi
    rw [List.map_cons] at hpw
    obtain ⟨hk1, hkrest⟩ := List.pairwise_cons.mp hpw
    have hcinv : c.Inv := hinv (k, c) (List.mem_cons_self _ _)
    have hrinv : ∀ pc ∈ rest, pc.2.Inv := fun pc hpc => hinv pc (List.mem_cons_of_mem _ hpc)
    have hrun : (Container.run ⟨[(lo, hi - lo)]⟩).Inv := by
      refine ⟨List.chain'_singleton _, ?_⟩
      intro p hp
      simp only [List.mem_singleton] at hp
      subst hp
      simp only
      omega
    rw [RoaringBitmap.extendIntoContainers]
    by_cases h1 : key < k
    · rw [if_pos h1]
      refine ⟨?_, ?_, ?_⟩
      · rw [List.map_cons, List.map_cons]
        refine List.pairwise_cons.mpr ⟨?_, hpw⟩
        intro q hq
        rcases List.mem_cons.mp hq with rfl | hq
        · exact h1
        · exact lt_trans h1 (hk1 q hq)
      · intro pc hpc
        rcases List.mem_cons.mp hpc with rfl | hpc
        · exact hrun
        · exact hinv pc hpc
      · intro pc hpc
        rcases List.mem_cons.mp hpc with rfl | hpc
        · right; rfl
        · left
          exact List.mem_map_of_mem Prod.fst hpc
    · rw [if_neg h1]
      by_cases h2 : key = k
      · rw [if_pos h2]
        refine ⟨?_, ?_, ?_⟩
        · rw [List.map_cons]
          exact List.pairwise_cons.mpr ⟨hk1, hkrest⟩
        · intro pc hpc
          rcases List.mem_cons.mp hpc with rfl | hpc
          · refine CInv_fold_insert _ c hcinv ?_
            intro v hv
            obtain ⟨i, hi2, rfl⟩ := List.mem_map.mp hv
            rw [List.mem_range] at hi2
            omega
          · exact hrinv pc hpc
        · intro pc hpc
          rcases List.mem_cons.mp hpc with rfl | hpc
          · left
            simp
          · left
            rw [List.map_cons]
            exact List.mem_cons_of_mem _ (List.mem_map_of_mem Prod.fst hpc)
      · rw [if_neg h2]
        obtain ⟨ihp, ihi, ihs⟩ := ih key lo hi hkrest hrinv hlo hhi
        refine ⟨?_, ?_, ?_⟩
        · rw [List.map_cons]
          refine List.pairwise_cons.mpr ⟨?_, ihp⟩
          intro q hq
          obtain ⟨pc, hpc, rfl⟩ := List.mem_map.mp hq
          rcases ihs pc hpc with hm | hm
          · exact hk1 _ hm
          · rw [hm]
            omega
        · intro pc hpc
          rcases List.mem_cons.mp hpc with rfl | hpc
          · exact hcinv
          · exact ihi pc hpc
        · intro pc hpc
          rcases List.mem_cons.mp hpc with rfl | hpc
          · left
            simp
          · rcases ihs pc hpc with hm | hm
            · left
              rw [List.map_cons]
              exact List.mem_cons_of_mem _ hm
            · right
              exact hm

/-- One `remove_range` block step keeps keys sorted and containers valid. -/
theorem removeFrom_inv : ∀ (cs : List (Nat × Container)) (key lo hi : Nat),
    List.Pairwise (· < ·) (cs.map Prod.fst) → (∀ pc ∈ cs, pc.2.Inv) →
      List.Pairwise (· < ·)
        ((RoaringBitmap.removeFromContainers cs key lo hi).map Prod.fst) ∧
      (∀ pc ∈ RoaringBitmap.removeFromContainers cs key lo hi, pc.2.Inv) ∧
      (∀ pc ∈ RoaringBitmap.removeFromContainers cs key lo hi,
        pc.1 ∈ cs.map Prod.fst) := by
  intro cs
  induction cs with
  | nil =>
    intro key lo hi _ _
    refine ⟨by simp [RoaringBitmap.removeFromContainers], ?_, ?_⟩ <;>
      · intro pc hpc
        simp [RoaringBitmap.removeFromContainers] at hpc
  | cons hd rest ih =>
    obtain ⟨k, c⟩ := hd
    intro key lo hi hpw hinv
    rw [List.map_cons] at hpw
    obtain ⟨hk1, hkrest⟩ := List.pairwise_cons.mp hpw
    have hcinv : c.Inv := hinv (k, c) (List.mem_cons_self _ _)
    have hrinv : ∀ pc ∈ rest, pc.2.Inv := fun pc hpc => hinv pc (List.mem_cons_of_mem _ hpc)
    rw [RoaringBitmap.removeFromContainers]
    by_cases h1 : key < k
    · rw [if_pos h1]
      exact ⟨hpw, hinv, fun pc hpc => List.mem_map_of_mem Prod.fst hpc⟩
    · rw [if_neg h1]
      by_cases h2 : key = k
      · rw [if_pos h2]
        dsimp only
        split
        · refine ⟨hkrest, hrinv, ?_⟩
          intro pc hpc
          rw [List.map_cons]
          exact List.mem_cons_of_mem _ (List.mem_map_of_mem Prod.fst hpc)
        · refine ⟨?_, ?_, ?_⟩
          · rw [List.map_cons]
            exact List.pairwise_cons.mpr ⟨hk1, hkrest⟩
          · intro pc hpc
            rcases List.mem_cons.mp hpc with rfl | hpc
            · exact CInv_fold_remove _ c hcinv
            · exact hrinv pc hpc
          · intro pc hpc
            rcases List.mem_cons.mp hpc with rfl | hpc
            · left
            · rw [List.map_cons]
              exact List.mem_cons_of_mem _ (List.mem_map_of_mem Prod.fst hpc)
      · rw [if_neg h2]
        obtain ⟨ihp, ihi, ihs⟩ := ih key lo hi hkrest hrinv
        refine ⟨?_, ?_, ?_⟩
        · rw [List.map_cons]
          refine List.pairwise_cons.mpr ⟨?_, ihp⟩
          intro q hq
          obtain ⟨pc, hpc, rfl⟩ := List.mem_map.mp hq
          exact hk1 _ (ihs pc hpc)
        · intro pc hpc
          rcases List.mem_cons.mp hpc with rfl | hpc
          · exact hcinv
          · exact ihi pc hpc
        · intro pc hpc
          rcases List.mem_cons.mp hpc with rfl | hpc
          · left
          · rw [List.map_cons]
            exact List.mem_cons_of_mem _ (ihs pc hpc)

/-- The `extend_consecutive` loop keeps keys sorted and containers valid. -/
theorem extendLoop_inv (endv : Nat) : ∀ (fuel current : Nat)
    (cs : List (Nat × Container)),
    List.Pairwise (· < ·) (cs.map Prod.fst) → (∀ pc ∈ cs, pc.2.Inv) →
      List.Pairwise (· < ·)
        ((RoaringBitmap.extendLoop endv fuel current cs).map Prod.fst) ∧
      (∀ pc ∈ RoaringBitmap.extendLoop endv fuel current cs, pc.2.Inv) := by
  intro fuel
  induction fuel with
  | zero =>
    intro current cs hpw hinv
    exact ⟨hpw, hinv⟩
  | succ n ih =>
    intro current cs hpw hinv
    rw [RoaringBitmap.extendLoop]
    have hlo : current % 65536 < 65536 := Nat.mod_lt _ (by omega)
    have hhi : (if current / 65536 = endv / 65536 then endv % 65536 else 65535) < 65536 := by
      split
      · exact Nat.mod_lt _ (by omega)
      · omega
    obtain ⟨g1, g2, _⟩ := extendInto_inv cs (current / 65536) (current % 65536)
      (if current / 65536 = endv / 65536 then endv % 65536 else 65535) hpw hinv hlo hhi
    by_cases hk : current / 65536 = endv / 65536
    · rw [if_pos hk]
      exact ⟨g1, g2⟩
    · rw [if_neg hk]
      exact ih _ _ g1 g2

/-- The `remove_range` loop keeps keys sorted and containers valid. -/
theorem removeLoop_inv (endv : Nat) : ∀ (fuel current : Nat)
    (cs : List (Nat × Container)),
    List.Pairwise (· < ·) (cs.map Prod.fst) → (∀ pc ∈ cs, pc.2.Inv) →
      List.Pairwise (· < ·)
        ((RoaringBitmap.removeLoop endv fuel current cs).map Prod.fst) ∧
      (∀ pc ∈ RoaringBitmap.removeLoop endv fuel current cs, pc.2.Inv) := by
  intro fuel
  induction fuel with
  | zero =>
    intro current cs hpw hinv
    exact ⟨hpw, hinv⟩
  | succ n ih =>
    intro current cs hpw hinv
    rw [RoaringBitmap.removeLoop]
    obtain ⟨g1, g2, _⟩ := removeFrom_inv cs (current / 65536) (current % 65536)
      (if current / 65536 = endv / 65536 then endv % 65536 else 65535) hpw hinv
    by_cases hk : current / 65536 = endv / 65536
    · rw [if_pos hk]
      exact ⟨g1, g2⟩
    · rw [if_neg hk]
      exact ih _ _ g1 g2

end Roaring

namespace Roaring

/-- The empty bitmap satisfies the invariant. -/
theorem Inv_new : RoaringBitmap.new.Inv :=
  ⟨List.chain'_nil, by simp [RoaringBitmap.new]⟩

/-- `RoaringBitmap::insert` preserves the invariant. -/
theorem Inv_insert (bm : RoaringBitmap) (v : Nat) (h : bm.Inv) :
    ((RoaringBitmap.insert bm v).1).Inv := by
  rw [Inv_iff] at h ⊢
  obtain ⟨g1, g2, _⟩ := insertCont_inv bm.containers (v / 65536) (v % 65536)
    h.1 h.2 (Nat.mod_lt _ (by omega))
  exact ⟨g1, g2⟩

/-- `RoaringBitmap::remove` preserves the invariant. -/
theorem Inv_remove (bm : RoaringBitmap) (v : Nat) (h : bm.Inv) :
    ((RoaringBitmap.remove bm v).1).Inv := by
  rw [Inv_iff] at h ⊢
  obtain ⟨g1, g2, _⟩ := removeCont_inv bm.containers (v / 65536) (v % 65536) h.1 h.2
  exact ⟨g1, g2⟩

/-- `RoaringBitmap::union` preserves the invariant. -/
theorem Inv_union (a b : RoaringBitmap) (ha : a.Inv) (hb : b.Inv) :
    (RoaringBitmap.union a b).Inv := by
  rw [Inv_iff] at ha hb ⊢
  obtain ⟨g1, g2, _⟩ := unionCont_inv a.containers b.containers ha.1 hb.1 ha.2 hb.2
  exact ⟨g1, g2⟩

/-- `RoaringBitmap::intersection` preserves the invariant. -/
theorem Inv_intersection (a b : RoaringBitmap) (ha : a.Inv) (hb : b.Inv) :
    (RoaringBitmap.intersection a b).Inv := by
  rw [Inv_iff] at ha hb ⊢
  obtain ⟨g1, g2, _⟩ := interCont_inv a.containers b.containers ha.1 hb.1 ha.2 hb.2
  exact ⟨g1, g2⟩

/-- `RoaringBitmap::difference` preserves the invariant. -/
theorem Inv_difference (a b : RoaringBitmap) (ha : a.Inv) (hb : b.Inv) :
    (RoaringBitmap.difference a b).Inv := by
  rw [Inv_iff] at ha hb ⊢
  obtain ⟨g1, g2, _⟩ := diffCont_inv a.containers b.containers ha.1 hb.1 ha.2 hb.2
  exact ⟨g1, g2⟩

/-- `RoaringBitmap::symmetric_difference` preserves the invariant. -/
theorem Inv_symmetric_difference (a b : RoaringBitmap) (ha : a.Inv) (hb : b.Inv) :
    (RoaringBitmap.symmetric_difference a b).Inv := by
  rw [Inv_iff] at ha hb ⊢
  obtain ⟨g1, g2, _⟩ := symmCont_inv a.containers b.containers ha.1 hb.1 ha.2 hb.2
  exact ⟨g1, g2⟩

/-- `RoaringBitmap::extend_consecutive` preserves the invariant. -/
theorem Inv_extend_consecutive (bm : RoaringBitmap) (r : RoaringBitmap.RangeArg)
    (h : bm.Inv) : (RoaringBitmap.extend_consecutive bm r).Inv := by
  unfold RoaringBitmap.extend_consecutive
  dsimp only
  split
  · exact h
  · rw [Inv_iff] at h ⊢
    exact extendLoop_inv _ 65536 _ bm.containers h.1 h.2

/-- `RoaringBitmap::remove_range` preserves the invariant. -/
theorem Inv_remove_range (bm : RoaringBitmap) (r : RoaringBitmap.RangeArg)
    (h : bm.Inv) : (RoaringBitmap.remove_range bm r).Inv := by
  unfold RoaringBitmap.remove_range
  dsimp only
  split
  · exact h
  · rw [Inv_iff] at h ⊢
    exact removeLoop_inv _ 65536 _ bm.containers h.1 h.2

/-- Folding `RoaringBitmap::insert` preserves the invariant. -/
theorem Inv_fold_insert : ∀ (l : List Nat) (bm : RoaringBitmap), bm.Inv →
    (l.foldl (fun acc v => (RoaringBitmap.insert acc v).1) bm).Inv := by
  intro l
  induction l with
  | nil => intro bm h; exact h
  | cons x xs ih =>
    intro bm h
    rw [List.foldl_cons]
    exact ih _ (Inv_insert bm x h)

/-- Folding `RoaringBitmap::remove` preserves the invariant. -/
theorem Inv_fold_remove : ∀ (l : List Nat) (bm : RoaringBitmap), bm.Inv →
    (l.foldl (fun acc v => (RoaringBitmap.remove acc v).1) bm).Inv := by
  intro l
  induction l with
  | nil => intro bm h; exact h
  | cons x xs ih =>
    intro bm h
    rw [List.foldl_cons]
    exact ih _ (Inv_remove bm x h)

/-- `RoaringBitmap::optimize` preserves the invariant. -/
theorem Inv_optimize (bm : RoaringBitmap) (h : bm.Inv) :
    (RoaringBitmap.optimize bm).Inv := by
  rw [Inv_iff] at h ⊢
  constructor
  · show List.Pairwise _ ((bm.containers.map
      (fun pc => (pc.1, pc.2.optimize))).map Prod.fst)
    rw [List.map_map]
    have he : (Prod.fst ∘ fun pc : Nat × Container => (pc.1, pc.2.optimize))
        = Prod.fst := funext fun pc => rfl
    rw [he]
    exact h.1
  · intro pc hpc
    obtain ⟨qc, hqc, rfl⟩ := List.mem_map.mp hpc
    exact CInv_optimize qc.2 (h.2 qc hqc)

/-- Every reachable bitmap state satisfies the structural invariant. -/
theorem Reachable_Inv {bm : RoaringBitmap} (h : RoaringBitmap.Reachable bm) :
    bm.Inv := by
  induction h with
  | new => exact Inv_new
  | insert v _ ih => exact Inv_insert _ v ih
  | remove v _ ih => exact Inv_remove _ v ih
  | extend_consecutive r _ ih => exact Inv_extend_consecutive _ r ih
  | remove_range r _ ih => exact Inv_remove_range _ r ih
  | extend_sparse l _ ih => exact Inv_fold_insert l _ ih
  | extend_dense l _ ih => exact Inv_fold_insert l _ ih
  | remove_sparse l _ ih => exact Inv_fold_remove l _ ih
  | union _ _ iha ihb => exact Inv_union _ _ iha ihb
  | intersection _ _ iha ihb => exact Inv_intersection _ _ iha ihb
  | difference _ _ iha ihb => exact Inv_difference _ _ iha ihb
  | symmetric_difference _ _ iha ihb => exact Inv_symmetric_difference _ _ iha ihb
  | union_with _ _ iha ihb => exact Inv_union _ _ iha ihb
  | intersect_with _ _ iha ihb => exact Inv_intersection _ _ iha ihb
  | difference_with _ _ iha ihb => exact Inv_difference _ _ iha ihb
  | symmetric_difference_with _ _ iha ihb => exact Inv_symmetric_difference _ _ iha ihb
  | optimize _ ih => exact Inv_optimize _ ih
  | clear _ ih => exact ⟨List.chain'_nil, by simp [RoaringBitmap.clear]⟩

end Roaring

namespace Roaring

/-- A valid container iterates in strictly increasing order. -/
theorem CInv_toList_pairwise (c : Container) (h : c.Inv) :
    List.Pairwise (· < ·) (Container.toList c) := by
  cases c with
  | array a => exact ((AInv_iff a).mp h).1
  | bitmap b => exact bitmap_toList_pairwise b
  | run r => exact run_toList_pairwise r ((RInv_iff r).mp h).1

/-- A valid container iterates 16-bit low values. -/
theorem CInv_toList_bound (c : Container) (h : c.Inv) :
    ∀ w ∈ Container.toList c, w < 65536 := by
  cases c with
  | array a => exact ((AInv_iff a).mp h).2
  | bitmap b => exact bitmap_toList_bound b
  | run r => exact run_toList_bound r ((RInv_iff r).mp h).2

/-- A valid container's `len` is its iteration count. -/
theorem CInv_len_toList (c : Container) (h : c.Inv) :
    Container.len c = (Container.toList c).length := by
  cases c with
  | array a => rfl
  | bitmap b => exact h.2.trans (bitmap_toList_length b h.1).symm
  | run r => exact (run_toList_length r).symm

/-- A valid bitmap iterates in strictly increasing order. -/
theorem Inv_toList_pairwise (bm : RoaringBitmap) (h : bm.Inv) :
    List.Pairwise (· < ·) bm.toList := by
  rw [Inv_iff] at h
  unfold RoaringBitmap.toList
  rw [List.flatMap_def, List.pairwise_flatten]
  constructor
  · intro l hl
    obtain ⟨pc, hpc, rfl⟩ := List.mem_map.mp hl
    rw [List.pairwise_map]
    refine (CInv_toList_pairwise pc.2 (h.2 pc hpc)).imp ?_
    intro a b hab
    unfold RoaringBitmap.combine
    omega
  · rw [List.pairwise_map]
    have hkeys : List.Pairwise (fun pc qc : Nat × Container => pc.1 < qc.1)
        bm.containers := by
      have := h.1
      rw [List.pairwise_map] at this
      exact this
    refine hkeys.imp_of_mem ?_
    intro pc qc hpc hqc hk
    intro a ha b hb
    obtain ⟨x, hx, rfl⟩ := List.mem_map.mp ha
    obtain ⟨y, hy, rfl⟩ := List.mem_map.mp hb
    have hxb := CInv_toList_bound pc.2 (h.2 pc hpc) x hx
    unfold RoaringBitmap.combine
    omega

/-- A valid bitmap's `len` is its iteration count. -/
theorem Inv_len_toList (bm : RoaringBitmap) (h : bm.Inv) :
    bm.len = bm.toList.length := by
  rw [Inv_iff] at h
  unfold RoaringBitmap.len RoaringBitmap.toList
  rw [List.length_flatMap]
  congr 1
  apply List.map_congr_left
  intro pc hpc
  show pc.2.len = (List.map (RoaringBitmap.combine pc.1) pc.2.toList).length
  rw [List.length_map]
  exact CInv_len_toList pc.2 (h.2 pc hpc)

end Roaring

namespace Roaring

/-- `ArrayContainer::remove` leaves membership of other values unchanged. -/
theorem contains_remove_array (a : ArrayContainer) (v w : Nat) (hw : w ≠ v) :
    ((ArrayContainer.remove a v).1).contains w = a.contains w := by
  show List.elem w (ArrayContainer.removeVals a.values v).1 = List.elem w a.values
  rw [List.elem_eq_mem, List.elem_eq_mem]
  exact decide_eq_decide.mpr (mem_removeVals a.values v w hw)

/-- `RunContainer::remove` leaves membership of other values unchanged. -/
theorem contains_remove_run (r : RunContainer) (v w : Nat) (h : r.Inv) (hw : w ≠ v) :
    ((RunContainer.remove r v).1).contains w = r.contains w := by
  obtain ⟨h1, h2⟩ := (RInv_iff r).mp h
  obtain ⟨g1, _, _⟩ := removeRuns_inv r.runs v h1 h2
  rw [Bool.eq_iff_iff]
  show RunContainer.containsRuns (RunContainer.removeRuns r.runs v).1 w = true ↔
    RunContainer.containsRuns r.runs w = true
  rw [containsRuns_iff _ g1 w, containsRuns_iff _ h1 w]
  exact removeRuns_cover r.runs v w hw

/-- An empty valid container contains nothing. -/
theorem contains_empty_container (c : Container) (h : c.Inv)
    (he : Container.is_empty c = true) (w : Nat) : Container.contains c w = false := by
  cases c with
  | array a =>
    have : a.values = [] := List.isEmpty_iff.mp he
    show List.elem w a.values = false
    rw [this]
    rfl
  | bitmap b =>
    have hc0 : b.cardinality = 0 := by
      have h' := he
      simp only [Container.is_empty, BitmapContainer.is_empty, beq_iff_eq] at h'
      exact h'
    exact bitmap_empty_no_mem b h hc0 w
  | run r =>
    have : r.runs = [] := List.isEmpty_iff.mp he
    show RunContainer.containsRuns r.runs w = false
    rw [this]
    rfl

/-- `Container::remove` leaves membership of other 16-bit values unchanged,
including through the Bitmap-to-Array shrink conversion. -/
theorem contains_remove_container (c : Container) (v w : Nat) (h : c.Inv)
    (hw : w ≠ v) (hwb : w < 65536) :
    Container.contains ((Container.remove c v).1) w = Container.contains c w := by
  cases c with
  | array a => exact contains_remove_array a v w hw
  | bitmap b =>
    unfold Container.remove
    dsimp only
    split
    · rw [Bool.eq_iff_iff]
      show List.elem w ((BitmapContainer.remove b v).1.to_array).values = true ↔
        BitmapContainer.contains b w = true
      rw [List.elem_eq_mem, decide_eq_true_eq, to_array_values_eq_toList,
        mem_bitmap_toList, contains_remove_bitmap b v w hw hwb]
      constructor
      · exact fun h' => h'.2
      · exact fun h' => ⟨hwb, h'⟩
    · exact contains_remove_bitmap b v w hw hwb
  | run r => exact contains_remove_run r v w h hw

/-- `lookupC` misses when every key is above the probe. -/
theorem lookupC_none_of_lt : ∀ (cs : List (Nat × Container)) (k : Nat),
    (∀ q ∈ cs.map Prod.fst, k < q) → RoaringBitmap.lookupC cs k = none := by
  intro cs
  induction cs with
  | nil => intro k _; rfl
  | cons hd rest ih =>
    obtain ⟨ck, c⟩ := hd
    intro k hk
    rw [RoaringBitmap.lookupC]
    rw [if_pos (hk ck (by simp))]

/-- `contains` is false when every key is above the probe's key. -/
theorem contains_none_of_lt (cs : List (Nat × Container)) (w : Nat)
    (h : ∀ q ∈ cs.map Prod.fst, w / 65536 < q) :
    RoaringBitmap.contains ⟨cs⟩ w = false := by
  show (match RoaringBitmap.lookupC cs (w / 65536) with
        | some c => c.contains (w % 65536) | none => false) = false
  rw [lookupC_none_of_lt cs _ h]

/-- One container step of top-level `contains`. -/
theorem contains_cons (ck : Nat) (c : Container) (rest : List (Nat × Container))
    (w : Nat) :
    RoaringBitmap.contains ⟨(ck, c) :: rest⟩ w
      = (if w / 65536 < ck then false
         else if w / 65536 = ck then c.contains (w % 65536)
         else RoaringBitmap.contains ⟨rest⟩ w) := by
  show (match RoaringBitmap.lookupC ((ck, c) :: rest) (w / 65536) with
        | some c => c.contains (w % 65536) | none => false) = _
  rw [RoaringBitmap.lookupC]
  by_cases h1 : w / 65536 < ck
  · rw [if_pos h1, if_pos h1]
  · rw [if_neg h1, if_neg h1]
    by_cases h2 : w / 65536 = ck
    · rw [if_pos h2, if_pos h2]
    · rw [if_neg h2, if_neg h2]
      rfl

/-- `RoaringBitmap::remove` leaves membership of every other value
unchanged, at the container-list level. -/
theorem contains_removeCont : ∀ (cs : List (Nat × Container)) (v w : Nat),
    List.Pairwise (· < ·) (cs.map Prod.fst) → (∀ pc ∈ cs, pc.2.Inv) → w ≠ v →
      RoaringBitmap.contains
          ⟨(RoaringBitmap.removeCont cs (v / 65536) (v % 65536)).1⟩ w
        = RoaringBitmap.contains ⟨cs⟩ w := by
  intro cs
  induction cs with
  | nil => intro v w _ _ _; rfl
  | cons hd rest ih =>
    obtain ⟨ck, c⟩ := hd
    intro v w hpw hinv hne
    rw [List.map_cons] at hpw
    obtain ⟨hk1, hkrest⟩ := List.pairwise_cons.mp hpw
    have hcinv : c.Inv := hinv (ck, c) (List.mem_cons_self _ _)
    have hrinv : ∀ pc ∈ rest, pc.2.Inv :=
      fun pc hpc => hinv pc (List.mem_cons_of_mem _ hpc)
    have hsplit : ¬(w / 65536 = v / 65536 ∧ w % 65536 = v % 65536) := by
      intro ⟨ha, hb⟩
      apply hne
      omega
    rw [RoaringBitmap.removeCont]
    by_cases h1 : v / 65536 < ck
    · rw [if_pos h1]
    · rw [if_neg h1]
      by_cases h2 : v / 65536 = ck
      · rw [if_pos h2]
        dsimp only
        split
        · -- container became empty and was dropped
          next hdrop =>
          rw [contains_cons]
          by_cases g1 : w / 65536 < ck
          · rw [if_pos g1]
            apply contains_none_of_lt
            intro q hq
            exact lt_trans g1 (hk1 q hq)
          · rw [if_neg g1]
            by_cases g2 : w / 65536 = ck
            · rw [if_pos g2]
              have hlne : w % 65536 ≠ v % 65536 := by
                intro hl
                exact hsplit ⟨by omega, hl⟩
              have hcon : Container.contains ((Container.remove c (v % 65536)).1)
                  (w % 65536) = Container.contains c (w % 65536) :=
                contains_remove_container c (v % 65536) (w % 65536) hcinv hlne
                  (Nat.mod_lt _ (by omega))
              have hemp : Container.contains ((Container.remove c (v % 65536)).1)
                  (w % 65536) = false :=
                contains_empty_container _ (CInv_remove c (v % 65536) hcinv)
                  hdrop.2 _
              rw [← hcon, hemp]
              apply contains_none_of_lt
              intro q hq
              rw [g2]
              exact hk1 q hq
            · rw [if_neg g2]
        · -- container kept with the value removed
          rw [contains_cons, contains_cons]
          by_cases g1 : w / 65536 < ck
          · rw [if_pos g1, if_pos g1]
          · rw [if_neg g1, if_neg g1]
            by_cases g2 : w / 65536 = ck
            · rw [if_pos g2, if_pos g2]
              have hlne : w % 65536 ≠ v % 65536 := by
                intro hl
                exact hsplit ⟨by omega, hl⟩
              exact contains_remove_container c (v % 65536) (w % 65536) hcinv hlne
                (Nat.mod_lt _ (by omega))
            · rw [if_neg g2, if_neg g2]
      · rw [if_neg h2]
        dsimp only
        rw [contains_cons, contains_cons]
        by_cases g1 : w / 65536 < ck
        · rw [if_pos g1, if_pos g1]
        · rw [if_neg g1, if_neg g1]
          by_cases g2 : w / 65536 = ck
          · rw [if_pos g2, if_pos g2]
          · rw [if_neg g2, if_neg g2]
            exact ih v w hkrest hrinv hne

end Roaring

namespace Roaring

/-- **C2.** For every bitmap state reachable from the empty bitmap by any
sequence of the public operations (insert, remove, bulk range and sparse
insertion and removal, the four set-algebra operations and their in-place
variants, optimize, clear), a full pass of `iter()` yields values in
strictly increasing order (hence with no duplicates), and `len()` equals
the number of values the iteration yields.  (In the source the values are
`u32`s recombined from a `u16` key and a `u16` low part; the embedding
models them as the corresponding naturals.) -/
theorem C2_iteration_invariant (bm : RoaringBitmap)
    (h : RoaringBitmap.Reachable bm) :
    List.Pairwise (· < ·) bm.toList ∧ bm.len = bm.toList.length :=
  ⟨Inv_toList_pairwise bm (Reachable_Inv h), Inv_len_toList bm (Reachable_Inv h)⟩

/-- Witness for C2: the reachable state `new.insert 5` iterates sorted with
matching length. -/
theorem C2_iteration_invariant_witness :
    RoaringBitmap.Reachable ((RoaringBitmap.new.insert 5).1) ∧
    (List.Pairwise (· < ·) ((RoaringBitmap.new.insert 5).1).toList ∧
      ((RoaringBitmap.new.insert 5).1).len
        = ((RoaringBitmap.new.insert 5).1).toList.length) :=
  ⟨RoaringBitmap.Reachable.insert 5 RoaringBitmap.Reachable.new,
    C2_iteration_invariant _
      (RoaringBitmap.Reachable.insert 5 RoaringBitmap.Reachable.new)⟩

/-- **C10.** For every reachable bitmap and every pair of distinct values
`v ≠ w`, `remove(v)` does not change `contains(w)`; in particular the
automatic Bitmap-to-Array conversion triggered when a container's
cardinality drops below 4,096 preserves every remaining value. -/
theorem C10_remove_frame (bm : RoaringBitmap) (h : RoaringBitmap.Reachable bm)
    (v w : Nat) (hne : w ≠ v) :
    ((RoaringBitmap.remove bm v).1).contains w = bm.contains w := by
  have hinv := Reachable_Inv h
  rw [Inv_iff] at hinv
  exact contains_removeCont bm.containers v w hinv.1 hinv.2 hne

/-- Witness for C10: removing 2 from the reachable state `new.insert 1`
leaves `contains 1` unchanged. -/
theorem C10_remove_frame_witness :
    RoaringBitmap.Reachable ((RoaringBitmap.new.insert 1).1) ∧ (1 : Nat) ≠ 2 ∧
    ((((RoaringBitmap.new.insert 1).1).remove 2).1).contains 1
      = ((RoaringBitmap.new.insert 1).1).contains 1 :=
  ⟨RoaringBitmap.Reachable.insert 1 RoaringBitmap.Reachable.new, by decide,
    C10_remove_frame _ (RoaringBitmap.Reachable.insert 1 RoaringBitmap.Reachable.new)
      2 1 (by decide)⟩

end Roaring

namespace Roaring

/-- The even list grows by one even value at the end. -/
theorem evens_succ (n : Nat) : evens (n + 1) = evens n ++ [2 * n] := by
  unfold evens
  rw [List.range_succ, List.map_append]
  rfl

/-- The even list is strictly increasing. -/
theorem evens_pairwise (n : Nat) : List.Pairwise (· < ·) (evens n) := by
  unfold evens
  rw [List.pairwise_map]
  refine (List.pairwise_lt_range n).imp ?_
  intro i j h
  omega

/-- Every entry of `evens n` is below `2 * n`. -/
theorem evens_bound (n : Nat) : ∀ x ∈ evens n, x < 2 * n := by
  intro x hx
  obtain ⟨i, hi, rfl⟩ := List.mem_map.mp hx
  rw [List.mem_range] at hi
  omega

/-- Consecutive even values differ by two: the gap relation holds between
any two entries. -/
theorem evens_pairwise_gap (n : Nat) :
    List.Pairwise (fun a b => a + 1 < b) (evens n) := by
  unfold evens
  rw [List.pairwise_map]
  refine (List.pairwise_lt_range n).imp ?_
  intro i j h
  omega

/-- The even list has `n` entries. -/
theorem evens_length (n : Nat) : (evens n).length = n := by
  unfold evens
  rw [List.length_map, List.length_range]

/-- Splicing a value above every element appends it. -/
theorem insertVals_append : ∀ (l : List Nat) (v : Nat), (∀ x ∈ l, x < v) →
    ArrayContainer.insertVals l v = (l ++ [v], true) := by
  intro l
  induction l with
  | nil => intro v _; rfl
  | cons x xs ih =>
    intro v hv
    have hx : x < v := hv x (List.mem_cons_self _ _)
    rw [ArrayContainer.insertVals]
    rw [if_neg (by omega), if_neg (by omega)]
    rw [ih v (fun y hy => hv y (List.mem_cons_of_mem _ hy))]
    rfl

/-- Array-container insert of a maximal value below the threshold appends
without conversion. -/
theorem container_insert_append (l : List Nat) (v : Nat)
    (hlt : ∀ x ∈ l, x < v) (hlen : l.length + 1 < 4096) :
    Container.insert (Container.array ⟨l⟩) v
      = (Container.array ⟨l ++ [v]⟩, true) := by
  have ha : ArrayContainer.insert ⟨l⟩ v = (⟨l ++ [v]⟩, true) := by
    unfold ArrayContainer.insert
    rw [insertVals_append l v hlt]
  unfold Container.insert
  dsimp only
  rw [ha]
  rw [if_neg ?_]
  · intro h
    have := h.2
    simp only [List.length_append, List.length_singleton] at this
    unfold ARRAY_TO_BITMAP_THRESHOLD at this
    omega

/-- Top-level insert on a single key-0 container dispatches to that
container for small values. -/
theorem insert_single_key (c c' : Container) (b : Bool) (v : Nat)
    (hv : v < 65536) (hc : Container.insert c v = (c', b)) :
    RoaringBitmap.insert ⟨[(0, c)]⟩ v = (⟨[(0, c')]⟩, b) := by
  unfold RoaringBitmap.insert
  dsimp only [RoaringBitmap.split]
  rw [Nat.div_eq_of_lt hv, Nat.mod_eq_of_lt hv]
  rw [RoaringBitmap.insertCont]
  rw [if_neg (lt_irrefl 0), if_pos rfl]
  dsimp only
  rw [hc]

/-- Top-level remove on a single key-0 container dispatches to that
container for small values when it does not empty it. -/
theorem remove_single_key (c c' : Container) (b : Bool) (v : Nat)
    (hv : v < 65536) (hc : Container.remove c v = (c', b))
    (hne : Container.is_empty c' = false) :
    RoaringBitmap.remove ⟨[(0, c)]⟩ v = (⟨[(0, c')]⟩, b) := by
  unfold RoaringBitmap.remove
  dsimp only [RoaringBitmap.split]
  rw [Nat.div_eq_of_lt hv, Nat.mod_eq_of_lt hv]
  rw [RoaringBitmap.removeCont]
  rw [if_neg (lt_irrefl 0), if_pos rfl]
  dsimp only
  rw [hc]
  dsimp only
  rw [if_neg ?_]
  intro h
  rw [hne] at h
  exact Bool.false_ne_true h.2

/-- Folding the first `n` even inserts from empty keeps a single Array
container with exactly those values. -/
theorem scenario_evens_fold : ∀ n, 1 ≤ n → n ≤ 4095 →
    (evens n).foldl (fun acc v => (RoaringBitmap.insert acc v).1) RoaringBitmap.new
      = ⟨[(0, Container.array ⟨evens n⟩)]⟩ := by
  intro n
  induction n with
  | zero => intro h _; omega
  | succ m ih =>
    intro _ hm
    by_cases hm1 : m = 0
    · subst hm1
      decide
    · rw [evens_succ, List.foldl_append]
      rw [ih (by omega) (by omega)]
      rw [List.foldl_cons, List.foldl_nil]
      have hstep := insert_single_key (Container.array ⟨evens m⟩)
        (Container.array ⟨evens m ++ [2 * m]⟩) true (2 * m) (by omega)
        (container_insert_append (evens m) (2 * m)
          (evens_bound m) (by rw [evens_length]; omega))
      rw [hstep]

/-- The scenario state after the 4,095 even inserts. -/
theorem scenarioEvens_eq :
    scenarioEvens = ⟨[(0, Container.array ⟨evens 4095⟩)]⟩ :=
  scenario_evens_fold 4095 (by omega) (le_refl _)

end Roaring

namespace Roaring

/-- With a gap after every element, each element starts a new run. -/
theorem countRunsAux_gaps : ∀ (l : List Nat) (prev : Nat),
    List.Chain (fun a b => a + 1 < b) prev l →
    Container.countRunsAux prev l = l.length := by
  intro l
  induction l with
  | nil => intro prev _; rfl
  | cons v rest ih =>
    intro prev hch
    obtain ⟨h1, h2⟩ := List.chain_cons.mp hch
    rw [Container.countRunsAux]
    rw [if_pos (by omega)]
    rw [ih v h2, List.length_cons]
    omega

/-- A list with gaps everywhere counts one run per element. -/
theorem count_runs_gaps (l : List Nat)
    (h : List.Pairwise (fun a b => a + 1 < b) l) :
    Container.count_runs_array ⟨l⟩ = l.length := by
  cases l with
  | nil => rfl
  | cons x xs =>
    show 1 + Container.countRunsAux x xs = _
    rw [countRunsAux_gaps xs x h.chain', List.length_cons]
    omega

/-- The 4,096 spread-out even values do not favour a Run container. -/
theorem run_better_evens_false :
    Container.run_better_than_bitmap_array ⟨evens 4096⟩ = false := by
  unfold Container.run_better_than_bitmap_array
  dsimp only
  rw [count_runs_gaps _ (evens_pairwise_gap 4096)]
  rw [evens_length]
  decide

/-- Inserting the 4,096th value converts the Array container to Bitmap. -/
theorem container_insert_threshold :
    Container.insert (Container.array ⟨evens 4095⟩) 8190
      = (Container.bitmap (BitmapContainer.from_array ⟨evens 4096⟩), true) := by
  have ha : ArrayContainer.insert ⟨evens 4095⟩ 8190 = (⟨evens 4096⟩, true) := by
    unfold ArrayContainer.insert
    rw [insertVals_append (evens 4095) 8190
      (fun x hx => by have := evens_bound 4095 x hx; omega)]
    rw [show evens 4095 ++ [8190] = evens 4096 from by
      rw [show (8190 : Nat) = 2 * 4095 from by norm_num, ← evens_succ]]
  unfold Container.insert
  dsimp only
  rw [ha]
  rw [if_pos ⟨rfl, by rw [evens_length]; decide⟩]
  rw [if_neg ?_]
  intro h
  rw [run_better_evens_false] at h
  exact Bool.false_ne_true h

/-- The scenario state after the threshold-crossing insert. -/
theorem scenarioThreshold_eq :
    scenarioThreshold
      = ⟨[(0, Container.bitmap (BitmapContainer.from_array ⟨evens 4096⟩))]⟩ := by
  unfold scenarioThreshold
  rw [scenarioEvens_eq]
  rw [insert_single_key _ _ _ 8190 (by omega) container_insert_threshold]

end Roaring

namespace Roaring

/-- After `BitmapContainer::remove`, the removed value is gone. -/
theorem contains_remove_self (b : BitmapContainer) (v : Nat) (hv : v < 65536)
    (hb : b.bits.length = 1024) :
    BitmapContainer.contains ((BitmapContainer.remove b v).1) v = false := by
  unfold BitmapContainer.remove
  by_cases ht : (BitmapContainer.word b (v / 64)).testBit (v % 64)
  · rw [if_pos ht]
    show (BitmapContainer.word _ (v / 64)).testBit (v % 64) = false
    have hw : BitmapContainer.word
        ⟨b.bits.set (v / 64)
            (BitmapContainer.word b (v / 64) &&& BitmapContainer.notMask (v % 64)),
          b.cardinality - 1⟩ (v / 64)
        = BitmapContainer.word b (v / 64) &&& BitmapContainer.notMask (v % 64) := by
      show (b.bits.set (v / 64) _).getD (v / 64) 0 = _
      exact getD_set_self (by rw [hb]; omega) _
    rw [hw]
    rw [testBit_clear_bit _ _ _ (Nat.mod_lt _ (by omega))]
    simp
  · rw [if_neg ht]
    show BitmapContainer.contains b v = false
    exact Bool.eq_false_iff.mpr ht

/-- The array container of the first `n` even values is valid. -/
theorem AInv_evens (n : Nat) (hn : 2 * n ≤ 65536) : ArrayContainer.Inv ⟨evens n⟩ := by
  rw [AInv_iff]
  refine ⟨evens_pairwise n, ?_⟩
  intro x hx
  have := evens_bound n x hx
  omega

/-- Removing a present value from a 4,096-value Bitmap container converts
it back to an Array container. -/
theorem container_remove_shrink (l : List Nat) (v : Nat)
    (ha : ArrayContainer.Inv ⟨l⟩) (hv : v ∈ l) (hlen : l.length = 4096) :
    Container.remove (Container.bitmap (BitmapContainer.from_array ⟨l⟩)) v
      = (Container.array
          (((BitmapContainer.from_array ⟨l⟩).remove v).1.to_array), true) := by
  have hb := (AInv_iff ⟨l⟩).mp ha
  have hcont : BitmapContainer.contains (BitmapContainer.from_array ⟨l⟩) v = true := by
    rw [contains_from_array _ _ hb.2]
    exact decide_eq_true hv
  have hcont2 : ((BitmapContainer.from_array ⟨l⟩).word (v / 64)).testBit (v % 64)
      = true := hcont
  have hrem : BitmapContainer.remove (BitmapContainer.from_array ⟨l⟩) v
      = (⟨(BitmapContainer.from_array ⟨l⟩).bits.set (v / 64)
            (BitmapContainer.word (BitmapContainer.from_array ⟨l⟩) (v / 64) &&&
              BitmapContainer.notMask (v % 64)),
          (BitmapContainer.from_array ⟨l⟩).cardinality - 1⟩, true) := by
    unfold BitmapContainer.remove
    dsimp only
    rw [if_pos hcont2]
  have hXcard : (BitmapContainer.from_array ⟨l⟩).cardinality = 4096 := by
    rw [from_array_cardinality]
    exact hlen
  have hr2 : (BitmapContainer.remove (BitmapContainer.from_array ⟨l⟩) v).2 = true := by
    rw [hrem]
  have hlen1 : (BitmapContainer.remove (BitmapContainer.from_array ⟨l⟩) v).1.len
      = 4095 := by
    rw [hrem]
    show (BitmapContainer.from_array ⟨l⟩).cardinality - 1 = 4095
    rw [hXcard]
  unfold Container.remove
  dsimp only
  rw [if_pos ⟨hr2, by rw [hlen1]; decide⟩]
  rw [hr2]

/-- The bitmap state after removing one value from a single 4,096-value
Bitmap container at key 0. -/
theorem remove_shrink_state (l : List Nat) (v : Nat)
    (ha : ArrayContainer.Inv ⟨l⟩) (hv : v ∈ l) (hlen : l.length = 4096) :
    (RoaringBitmap.remove
        ⟨[(0, Container.bitmap (BitmapContainer.from_array ⟨l⟩))]⟩ v).1
      = ⟨[(0, Container.array
          (((BitmapContainer.from_array ⟨l⟩).remove v).1.to_array))]⟩ := by
  have hb := (AInv_iff ⟨l⟩).mp ha
  have hvb : v < 65536 := hb.2 v hv
  have hXinv := BInv_from_array _ ha
  have hBinv := BInv_remove (BitmapContainer.from_array ⟨l⟩) v hXinv
  have hcont : BitmapContainer.contains (BitmapContainer.from_array ⟨l⟩) v = true := by
    rw [contains_from_array _ _ hb.2]
    exact decide_eq_true hv
  have hcont2 : ((BitmapContainer.from_array ⟨l⟩).word (v / 64)).testBit (v % 64)
      = true := hcont
  have hcard : ((BitmapContainer.from_array ⟨l⟩).remove v).1.cardinality = 4095 := by
    unfold BitmapContainer.remove
    dsimp only
    rw [if_pos hcont2]
    show (BitmapContainer.from_array ⟨l⟩).cardinality - 1 = 4095
    rw [from_array_cardinality]
    rw [show (⟨l⟩ : ArrayContainer).values.length = 4096 from hlen]
  have hlen2 : ((((BitmapContainer.from_array ⟨l⟩).remove v).1).to_array).values.length
      = 4095 := by
    rw [to_array_values_eq_toList, bitmap_toList_length _ hBinv.1, ← hBinv.2]
    exact hcard
  have hner : Container.is_empty (Container.array
      ((((BitmapContainer.from_array ⟨l⟩).remove v).1).to_array)) = false := by
    show ((((BitmapContainer.from_array ⟨l⟩).remove v).1).to_array).values.isEmpty
      = false
    apply Bool.eq_false_iff.mpr
    intro hE
    have h0 := List.isEmpty_iff.mp hE
    rw [h0] at hlen2
    simp at hlen2
  rw [remove_single_key _ _ _ v hvb (container_remove_shrink l v ha hv hlen) hner]

/-- The bitmap state after removing one value from the threshold state. -/
theorem scenarioThreshold_remove_eq (v : Nat) (hv : v ∈ evens 4096) :
    (scenarioThreshold.remove v).1
      = ⟨[(0, Container.array
          (((BitmapContainer.from_array ⟨evens 4096⟩).remove v).1.to_array))]⟩ := by
  rw [scenarioThreshold_eq]
  exact remove_shrink_state (evens 4096) v (AInv_evens 4096 (by omega)) hv
    (evens_length 4096)

end Roaring

namespace Roaring

/-- Membership in a single-key Array bitmap. -/
theorem contains_single_array (l : List Nat) (w : Nat) (hwb : w < 65536) :
    RoaringBitmap.contains ⟨[(0, Container.array ⟨l⟩)]⟩ w = decide (w ∈ l) := by
  rw [contains_cons, if_neg (Nat.not_lt_zero _), if_pos (Nat.div_eq_of_lt hwb),
    Nat.mod_eq_of_lt hwb]
  show List.elem w l = decide (w ∈ l)
  exact List.elem_eq_mem w l

/-- Membership in a single-key Bitmap bitmap built by `from_array`. -/
theorem contains_single_bitmap_from (l : List Nat) (w : Nat) (hwb : w < 65536)
    (hbound : ∀ x ∈ l, x < 65536) :
    RoaringBitmap.contains
        ⟨[(0, Container.bitmap (BitmapContainer.from_array ⟨l⟩))]⟩ w
      = decide (w ∈ l) := by
  rw [contains_cons, if_neg (Nat.not_lt_zero _), if_pos (Nat.div_eq_of_lt hwb),
    Nat.mod_eq_of_lt hwb]
  show BitmapContainer.contains (BitmapContainer.from_array ⟨l⟩) w = decide (w ∈ l)
  rw [contains_from_array _ _ hbound]

/-- Membership in the post-shrink Array container: every original value but
the removed one. -/
theorem contains_single_removed (l : List Nat) (v w : Nat)
    (ha : ArrayContainer.Inv ⟨l⟩) (hwb : w < 65536) (hw : w ∈ l) :
    RoaringBitmap.contains
        ⟨[(0, Container.array
            (((BitmapContainer.from_array ⟨l⟩).remove v).1.to_array))]⟩ w
      = decide (w ≠ v) := by
  rw [contains_cons, if_neg (Nat.not_lt_zero _), if_pos (Nat.div_eq_of_lt hwb),
    Nat.mod_eq_of_lt hwb]
  show List.elem w (((BitmapContainer.from_array ⟨l⟩).remove v).1.to_array).values
    = decide (w ≠ v)
  rw [List.elem_eq_mem]
  apply decide_eq_decide.mpr
  rw [to_array_values_eq_toList, mem_bitmap_toList]
  constructor
  · rintro ⟨_, hc⟩
    intro heq
    subst heq
    rw [contains_remove_self _ w hwb (from_array_length _)] at hc
    exact Bool.false_ne_true hc
  · intro hne
    refine ⟨hwb, ?_⟩
    rw [contains_remove_bitmap _ v w hne hwb]
    rw [contains_from_array _ _ ((AInv_iff ⟨l⟩).mp ha).2]
    exact decide_eq_true hw

/-- **C6.** Starting from the empty bitmap, inserting the 4,095 even values
below 8,190 leaves the key-0 container an Array; inserting the 4,096th
value 8190 converts it to a Bitmap (the run heuristic rejects Run);
removing any one of the 4,096 values converts it back to an Array; and
membership of all remaining values is preserved at every stage. -/
theorem C6_threshold_conversion (v : Nat) (hv : v ∈ evens 4096) :
    scenarioEvens.container_type 0 = some "Array" ∧
    scenarioThreshold.container_type 0 = some "Bitmap" ∧
    ((scenarioThreshold.remove v).1).container_type 0 = some "Array" ∧
    (∀ w ∈ evens 4095, scenarioEvens.contains w = true) ∧
    (∀ w ∈ evens 4096, scenarioThreshold.contains w = true) ∧
    (∀ w ∈ evens 4096,
      ((scenarioThreshold.remove v).1).contains w = decide (w ≠ v)) := by
  refine ⟨?_, ?_, ?_, ?_, ?_, ?_⟩
  · rw [scenarioEvens_eq]
    rfl
  · rw [scenarioThreshold_eq]
    rfl
  · rw [scenarioThreshold_remove_eq v hv]
    rfl
  · intro w hw
    have hwb : w < 65536 := by
      have := evens_bound 4095 w hw
      omega
    rw [scenarioEvens_eq, contains_single_array _ _ hwb]
    exact decide_eq_true hw
  · intro w hw
    have hwb : w < 65536 := by
      have := evens_bound 4096 w hw
      omega
    rw [scenarioThreshold_eq, contains_single_bitmap_from _ _ hwb
      (fun x hx => by have := evens_bound 4096 x hx; omega)]
    exact decide_eq_true hw
  · intro w hw
    have hwb : w < 65536 := by
      have := evens_bound 4096 w hw
      omega
    rw [scenarioThreshold_remove_eq v hv,
      contains_single_removed _ v w (AInv_evens 4096 (by omega)) hwb hw]

/-- Witness for C6: the removed value 0 is one of the 4,096 scenario
values. -/
theorem C6_threshold_conversion_witness :
    (0 : Nat) ∈ evens 4096 ∧
    (scenarioEvens.container_type 0 = some "Array" ∧
    scenarioThreshold.container_type 0 = some "Bitmap" ∧
    ((scenarioThreshold.remove 0).1).container_type 0 = some "Array" ∧
    (∀ w ∈ evens 4095, scenarioEvens.contains w = true) ∧
    (∀ w ∈ evens 4096, scenarioThreshold.contains w = true) ∧
    (∀ w ∈ evens 4096,
      ((scenarioThreshold.remove 0).1).contains w = decide (w ≠ 0))) :=
  ⟨List.mem_map.mpr ⟨0, List.mem_range.mpr (by decide), rfl⟩,
    C6_threshold_conversion 0
      (List.mem_map.mpr ⟨0, List.mem_range.mpr (by decide), rfl⟩)⟩

end Roaring
